import Mathlib

/-!
Verification of the vexor in-memory k-NN vector store.

The Go source is shallowly embedded: float32 values are modelled as exact
rationals (`ℚ`), machine loops become structural recursion, the Go map
`idIndex` becomes a function `String → Option Nat`, and the `container/heap`
max-heap on a slice becomes the same sift-up / sift-down algorithms on a
`List`.  Square roots (`math.Sqrt`) land in `ℝ` via `Real.sqrt`.
-/

set_option maxHeartbeats 1000000

set_option maxRecDepth 1000000

set_option allowUnsafeReducibility true

attribute [semireducible] Rat.add Rat.sub Rat.mul Rat.inv Rat.ofScientific

namespace Vexor

/-! ### Generic list lemmas used throughout -/

theorem getD_cons_zero' {α : Type} (x : α) (l : List α) (d : α) :
    (x :: l).getD 0 d = x := rfl

theorem getD_cons_succ' {α : Type} (x : α) (l : List α) (n : Nat) (d : α) :
    (x :: l).getD (n + 1) d = l.getD n d := rfl

theorem four_elems {α : Type} {v : List α} (h : v.length = 4) :
    ∃ p q r s, v = [p, q, r, s] := by
  match v, h with
  | [p, q, r, s], _ => exact ⟨p, q, r, s, rfl⟩

/-! ### Distance kernel: scalar path (src/pkg/distance/distance.go)

`DotProductScalar` and `EuclideanDistanceSquaredScalar` are the pure-Go
loops `for i := 0; i < len(a); i++ { sum += ... }`, modelled as a fold
over the index range with out-of-range reads defaulting to `0`
(the Go code panics there; the spec declares unequal lengths undefined). -/

def DotProductScalar (a b : List ℚ) : ℚ :=
  (List.range a.length).foldl (fun sum i => sum + a.getD i 0 * b.getD i 0) 0

def EuclideanDistanceSquaredScalar (a b : List ℚ) : ℚ :=
  (List.range a.length).foldl
    (fun sum i => sum + (a.getD i 0 - b.getD i 0) * (a.getD i 0 - b.getD i 0)) 0

/-- Mathematical reference: elementwise combination summed. -/
def combFull (f : ℚ → ℚ → ℚ) (a b : List ℚ) : ℚ := (List.zipWith f a b).sum

def dotFull (a b : List ℚ) : ℚ := combFull (· * ·) a b

def sqFull (a b : List ℚ) : ℚ := combFull (fun x y => (x - y) * (x - y)) a b

theorem foldl_range_getD (f : ℚ → ℚ → ℚ) :
    ∀ (a b : List ℚ) (c : ℚ), b.length = a.length →
      (List.range a.length).foldl (fun s i => s + f (a.getD i 0) (b.getD i 0)) c
        = c + combFull f a b := by
  intro a
  induction a with
  | nil =>
    intro b c hb
    simp [combFull, List.zipWith]
  | cons x a ih =>
    intro b c hb
    match b, hb with
    | y :: b, hb =>
      have hb' : b.length = a.length := by simpa using hb
      simp only [List.length_cons, List.range_succ_eq_map, List.foldl_cons, List.foldl_map]
      have : ((x :: a).getD 0 0) = x := rfl
      rw [this]
      have hy : ((y :: b).getD 0 0) = y := rfl
      rw [hy]
      have heq :
          (fun (s : ℚ) (i : Nat) => s + f ((x :: a).getD (i + 1) 0) ((y :: b).getD (i + 1) 0))
          = (fun (s : ℚ) (i : Nat) => s + f (a.getD i 0) (b.getD i 0)) := by
        funext s i
        rfl
      rw [heq, ih b (c + f x y) hb']
      simp [combFull, add_assoc]

theorem DotProductScalar_eq_dotFull {a b : List ℚ} (h : b.length = a.length) :
    DotProductScalar a b = dotFull a b := by
  have := foldl_range_getD (· * ·) a b 0 h
  simpa [DotProductScalar, dotFull] using this

theorem EuclideanScalar_eq_sqFull {a b : List ℚ} (h : b.length = a.length) :
    EuclideanDistanceSquaredScalar a b = sqFull a b := by
  have := foldl_range_getD (fun x y => (x - y) * (x - y)) a b 0 h
  simpa [EuclideanDistanceSquaredScalar, sqFull] using this

theorem combFull_split (f : ℚ → ℚ → ℚ) (a b : List ℚ) (n : Nat) :
    combFull f a b = combFull f (a.take n) (b.take n) + combFull f (a.drop n) (b.drop n) := by
  unfold combFull
  rw [← List.take_zipWith, ← List.drop_zipWith, ← List.sum_append, List.take_append_drop]

/-! ### Distance kernel: NEON path (src/pkg/distance/distance_arm64.s)

Each 128-bit NEON register holding four float32 lanes is a `List ℚ` of
length 4.  `VLD1.P` post-indexed loads become `take`/`drop`, `VFMLA`
becomes lanewise fused multiply-add (`vfma`, exact over `ℚ`), `VEOR`
zeroing becomes `List.replicate 4 0`, the two `FADDP` reductions become
`hsum`, and the pointer/counter registers become the shrinking lists. -/

def vmul (x y : List ℚ) : List ℚ := List.zipWith (· * ·) x y

def vsub (x y : List ℚ) : List ℚ := List.zipWith (· - ·) x y

def vadd (x y : List ℚ) : List ℚ := List.zipWith (· + ·) x y

def vfma (acc x y : List ℚ) : List ℚ := List.zipWith (· + ·) acc (vmul x y)

/-- Horizontal sum of a 4-lane register: `faddp v0.4s` then `faddp s0, v0.2s`. -/
def hsum (v : List ℚ) : ℚ := (v.getD 0 0 + v.getD 1 0) + (v.getD 2 0 + v.getD 3 0)

/-- Register state of the NEON loops: remaining input (pointer+count) and the
four independent accumulators V0-V3. -/
structure NeonState where
  a : List ℚ
  b : List ℚ
  v0 : List ℚ
  v1 : List ℚ
  v2 : List ℚ
  v3 : List ℚ

/-- Main loop `dot_loop16`: 16 floats per iteration into 4 accumulators. -/
def dotLoop16 (st : NeonState) : NeonState :=
  if h : st.a.length < 16 then st
  else
    dotLoop16
      { a := st.a.drop 16, b := st.b.drop 16,
        v0 := vfma st.v0 (st.a.take 4) (st.b.take 4),
        v1 := vfma st.v1 ((st.a.drop 4).take 4) ((st.b.drop 4).take 4),
        v2 := vfma st.v2 ((st.a.drop 8).take 4) ((st.b.drop 8).take 4),
        v3 := vfma st.v3 ((st.a.drop 12).take 4) ((st.b.drop 12).take 4) }
termination_by st.a.length
decreasing_by
  simp only [List.length_drop]
  omega

/-- Tail loop `dot_loop4`: 4 floats per iteration into V0. -/
def dotLoop4 (a b v0 : List ℚ) : List ℚ × List ℚ × List ℚ :=
  if h : a.length < 4 then (a, b, v0)
  else dotLoop4 (a.drop 4) (b.drop 4) (vfma v0 (a.take 4) (b.take 4))
termination_by a.length
decreasing_by
  simp only [List.length_drop]
  omega

/-- Scalar epilogue `dot_scalar`: remaining 0-3 elements, one at a time. -/
def dotScalarTail : List ℚ → List ℚ → ℚ → ℚ
  | [], _, s => s
  | x :: a, b, s => dotScalarTail a (b.drop 1) (s + x * b.getD 0 0)

/-- `dotProductNEON` from distance_arm64.s. -/
def dotProductNEON (a b : List ℚ) : ℚ :=
  let z : List ℚ := List.replicate 4 0
  let st := dotLoop16 ⟨a, b, z, z, z, z⟩
  let t := dotLoop4 st.a st.b st.v0
  dotScalarTail t.1 t.2.1 (hsum (vadd (vadd t.2.2 st.v1) (vadd st.v2 st.v3)))

/-- Main loop `euc_loop16`: diff = a - b; acc += diff * diff. -/
def eucLoop16 (st : NeonState) : NeonState :=
  if h : st.a.length < 16 then st
  else
    eucLoop16
      { a := st.a.drop 16, b := st.b.drop 16,
        v0 := vfma st.v0 (vsub (st.a.take 4) (st.b.take 4))
          (vsub (st.a.take 4) (st.b.take 4)),
        v1 := vfma st.v1 (vsub ((st.a.drop 4).take 4) ((st.b.drop 4).take 4))
          (vsub ((st.a.drop 4).take 4) ((st.b.drop 4).take 4)),
        v2 := vfma st.v2 (vsub ((st.a.drop 8).take 4) ((st.b.drop 8).take 4))
          (vsub ((st.a.drop 8).take 4) ((st.b.drop 8).take 4)),
        v3 := vfma st.v3 (vsub ((st.a.drop 12).take 4) ((st.b.drop 12).take 4))
          (vsub ((st.a.drop 12).take 4) ((st.b.drop 12).take 4)) }
termination_by st.a.length
decreasing_by
  simp only [List.length_drop]
  omega

/-- Tail loop `euc_loop4`. -/
def eucLoop4 (a b v0 : List ℚ) : List ℚ × List ℚ × List ℚ :=
  if h : a.length < 4 then (a, b, v0)
  else
    eucLoop4 (a.drop 4) (b.drop 4)
      (vfma v0 (vsub (a.take 4) (b.take 4)) (vsub (a.take 4) (b.take 4)))
termination_by a.length
decreasing_by
  simp only [List.length_drop]
  omega

/-- Scalar epilogue `euc_scalar`. -/
def eucScalarTail : List ℚ → List ℚ → ℚ → ℚ
  | [], _, s => s
  | x :: a, b, s =>
    eucScalarTail a (b.drop 1) (s + (x - b.getD 0 0) * (x - b.getD 0 0))

/-- `euclideanDistanceSquaredNEON` from distance_arm64.s. -/
def euclideanDistanceSquaredNEON (a b : List ℚ) : ℚ :=
  let z : List ℚ := List.replicate 4 0
  let st := eucLoop16 ⟨a, b, z, z, z, z⟩
  let t := eucLoop4 st.a st.b st.v0
  eucScalarTail t.1 t.2.1 (hsum (vadd (vadd t.2.2 st.v1) (vadd st.v2 st.v3)))

/-! ### Platform dispatch (src/pkg/distance/distance_arm64.go) -/

def dotProductPlatform (a b : List ℚ) : ℚ :=
  if 4 ≤ a.length then dotProductNEON a b else DotProductScalar a b

def euclideanDistanceSquaredPlatform (a b : List ℚ) : ℚ :=
  if 4 ≤ a.length then euclideanDistanceSquaredNEON a b
  else EuclideanDistanceSquaredScalar a b

/-- `EuclideanDistanceSquared` (the exported entry point). -/
def EuclideanDistanceSquared (a b : List ℚ) : ℚ :=
  euclideanDistanceSquaredPlatform a b

/-- `DotProduct` (the exported entry point). -/
def DotProduct (a b : List ℚ) : ℚ := dotProductPlatform a b

/-! ### NEON path equals scalar path (exactly, over exact arithmetic) -/

theorem sum_zipWith_add :
    ∀ (v m : List ℚ), m.length = v.length →
      (List.zipWith (· + ·) v m).sum = v.sum + m.sum := by
  intro v
  induction v with
  | nil =>
    intro m h
    have : m = [] := List.length_eq_zero.mp (by simpa using h)
    subst this
    simp
  | cons x v ih =>
    intro m h
    match m, h with
    | y :: m, h =>
      have h' : m.length = v.length := by simpa using h
      simp only [List.zipWith_cons_cons, List.sum_cons, ih m h']
      ring

theorem vadd_sum {x y : List ℚ} (hy : y.length = x.length) :
    (vadd x y).sum = x.sum + y.sum := sum_zipWith_add x y hy

theorem vadd_length (x y : List ℚ) : (vadd x y).length = min x.length y.length := by
  simp [vadd]

theorem vfma_sum {v x y : List ℚ} (hx : x.length = v.length) (hy : y.length = v.length) :
    (vfma v x y).sum = v.sum + dotFull x y := by
  unfold vfma
  rw [sum_zipWith_add]
  · rfl
  · simp [vmul]
    omega

theorem vfma_length (v x y : List ℚ) :
    (vfma v x y).length = min v.length (min x.length y.length) := by
  simp [vfma, vmul]

theorem vmul_vsub_self :
    ∀ (x y : List ℚ), vmul (vsub x y) (vsub x y)
      = List.zipWith (fun p q => (p - q) * (p - q)) x y := by
  intro x
  induction x with
  | nil => intro y; rfl
  | cons p x ih =>
    intro y
    cases y with
    | nil => rfl
    | cons q y =>
      simp only [vmul, vsub, List.zipWith_cons_cons] at *
      rw [ih y]

theorem vfma_sq_sum {v x y : List ℚ} (hx : x.length = v.length) (hy : y.length = v.length)
    (hxy : y.length = x.length) :
    (vfma v (vsub x y) (vsub x y)).sum = v.sum + sqFull x y := by
  unfold vfma
  rw [vmul_vsub_self]
  rw [sum_zipWith_add]
  · rfl
  · simp [vsub]
    omega

theorem hsum_eq_sum {v : List ℚ} (h : v.length = 4) : hsum v = v.sum := by
  obtain ⟨p, q, r, s, rfl⟩ := four_elems h
  simp [hsum]
  ring

theorem combFull_split16 (f : ℚ → ℚ → ℚ) (a b : List ℚ) :
    combFull f a b
      = combFull f (a.take 4) (b.take 4)
        + combFull f ((a.drop 4).take 4) ((b.drop 4).take 4)
        + combFull f ((a.drop 8).take 4) ((b.drop 8).take 4)
        + combFull f ((a.drop 12).take 4) ((b.drop 12).take 4)
        + combFull f (a.drop 16) (b.drop 16) := by
  rw [combFull_split f a b 4]
  rw [combFull_split f (a.drop 4) (b.drop 4) 4]
  rw [combFull_split f ((a.drop 4).drop 4) ((b.drop 4).drop 4) 4]
  rw [combFull_split f (((a.drop 4).drop 4).drop 4) (((b.drop 4).drop 4).drop 4) 4]
  simp only [List.drop_drop]
  norm_num
  ring

theorem dotFull_split16 (a b : List ℚ) :
    dotFull a b
      = dotFull (a.take 4) (b.take 4)
        + dotFull ((a.drop 4).take 4) ((b.drop 4).take 4)
        + dotFull ((a.drop 8).take 4) ((b.drop 8).take 4)
        + dotFull ((a.drop 12).take 4) ((b.drop 12).take 4)
        + dotFull (a.drop 16) (b.drop 16) :=
  combFull_split16 (· * ·) a b

theorem sqFull_split16 (a b : List ℚ) :
    sqFull a b
      = sqFull (a.take 4) (b.take 4)
        + sqFull ((a.drop 4).take 4) ((b.drop 4).take 4)
        + sqFull ((a.drop 8).take 4) ((b.drop 8).take 4)
        + sqFull ((a.drop 12).take 4) ((b.drop 12).take 4)
        + sqFull (a.drop 16) (b.drop 16) :=
  combFull_split16 (fun x y => (x - y) * (x - y)) a b

theorem dotFull_split4 (a b : List ℚ) :
    dotFull a b = dotFull (a.take 4) (b.take 4) + dotFull (a.drop 4) (b.drop 4) :=
  combFull_split (· * ·) a b 4

theorem sqFull_split4 (a b : List ℚ) :
    sqFull a b = sqFull (a.take 4) (b.take 4) + sqFull (a.drop 4) (b.drop 4) :=
  combFull_split (fun x y => (x - y) * (x - y)) a b 4

/-- Accumulated lane total of the four NEON accumulators. -/
def accSum (st : NeonState) : ℚ := st.v0.sum + st.v1.sum + st.v2.sum + st.v3.sum

theorem dotLoop16_spec (st : NeonState) (hb : st.b.length = st.a.length)
    (h0 : st.v0.length = 4) (h1 : st.v1.length = 4)
    (h2 : st.v2.length = 4) (h3 : st.v3.length = 4) :
    (dotLoop16 st).a.length < 16 ∧
    (dotLoop16 st).b.length = (dotLoop16 st).a.length ∧
    (dotLoop16 st).v0.length = 4 ∧ (dotLoop16 st).v1.length = 4 ∧
    (dotLoop16 st).v2.length = 4 ∧ (dotLoop16 st).v3.length = 4 ∧
    accSum (dotLoop16 st) + dotFull (dotLoop16 st).a (dotLoop16 st).b
      = accSum st + dotFull st.a st.b := by
  induction st using dotLoop16.induct with
  | case1 st hlt =>
    rw [dotLoop16, dif_pos hlt]
    exact ⟨hlt, hb, h0, h1, h2, h3, rfl⟩
  | case2 st hlt ih =>
    rw [dotLoop16, dif_neg hlt]
    push_neg at hlt
    have hlen : 16 ≤ st.a.length := hlt
    have hblen : 16 ≤ st.b.length := by omega
    have ta0 : (st.a.take 4).length = st.v0.length := by
      simp only [List.length_take, h0]
      omega
    have tb0 : (st.b.take 4).length = st.v0.length := by
      simp only [List.length_take, h0]
      omega
    have ta1 : ((st.a.drop 4).take 4).length = st.v1.length := by
      simp only [List.length_take, List.length_drop, h1]
      omega
    have tb1 : ((st.b.drop 4).take 4).length = st.v1.length := by
      simp only [List.length_take, List.length_drop, h1]
      omega
    have ta2 : ((st.a.drop 8).take 4).length = st.v2.length := by
      simp only [List.length_take, List.length_drop, h2]
      omega
    have tb2 : ((st.b.drop 8).take 4).length = st.v2.length := by
      simp only [List.length_take, List.length_drop, h2]
      omega
    have ta3 : ((st.a.drop 12).take 4).length = st.v3.length := by
      simp only [List.length_take, List.length_drop, h3]
      omega
    have tb3 : ((st.b.drop 12).take 4).length = st.v3.length := by
      simp only [List.length_take, List.length_drop, h3]
      omega
    have hb' : (st.b.drop 16).length = (st.a.drop 16).length := by
      simp only [List.length_drop]
      omega
    have hv0 : (vfma st.v0 (st.a.take 4) (st.b.take 4)).length = 4 := by
      rw [vfma_length, ta0, tb0, h0]
      omega
    have hv1 : (vfma st.v1 ((st.a.drop 4).take 4) ((st.b.drop 4).take 4)).length = 4 := by
      rw [vfma_length, ta1, tb1, h1]
      omega
    have hv2 : (vfma st.v2 ((st.a.drop 8).take 4) ((st.b.drop 8).take 4)).length = 4 := by
      rw [vfma_length, ta2, tb2, h2]
      omega
    have hv3 : (vfma st.v3 ((st.a.drop 12).take 4) ((st.b.drop 12).take 4)).length = 4 := by
      rw [vfma_length, ta3, tb3, h3]
      omega
    obtain ⟨g1, g2, g3, g4, g5, g6, g7⟩ := ih hb' hv0 hv1 hv2 hv3
    refine ⟨g1, g2, g3, g4, g5, g6, ?_⟩
    rw [g7]
    unfold accSum
    simp only
    rw [vfma_sum ta0 tb0, vfma_sum ta1 tb1, vfma_sum ta2 tb2, vfma_sum ta3 tb3]
    rw [dotFull_split16 st.a st.b]
    ring

theorem dotLoop4_spec :
    ∀ (a b v0 : List ℚ), b.length = a.length → v0.length = 4 →
      (dotLoop4 a b v0).1.length < 4 ∧
      (dotLoop4 a b v0).2.1.length = (dotLoop4 a b v0).1.length ∧
      (dotLoop4 a b v0).2.2.length = 4 ∧
      (dotLoop4 a b v0).2.2.sum + dotFull (dotLoop4 a b v0).1 (dotLoop4 a b v0).2.1
        = v0.sum + dotFull a b := by
  intro a b v0 hb hv
  induction a, b, v0 using dotLoop4.induct with
  | case1 a b v0 hlt =>
    rw [dotLoop4, dif_pos hlt]
    exact ⟨hlt, hb, hv, rfl⟩
  | case2 a b v0 hlt ih =>
    rw [dotLoop4, dif_neg hlt]
    push_neg at hlt
    have ta : (a.take 4).length = v0.length := by
      simp only [List.length_take, hv]
      omega
    have tb : (b.take 4).length = v0.length := by
      simp only [List.length_take, hv]
      omega
    have hb' : (b.drop 4).length = (a.drop 4).length := by
      simp only [List.length_drop]
      omega
    have hv' : (vfma v0 (a.take 4) (b.take 4)).length = 4 := by
      rw [vfma_length, ta, tb, hv]
      omega
    obtain ⟨g1, g2, g3, g4⟩ := ih hb' hv'
    refine ⟨g1, g2, g3, ?_⟩
    rw [g4, vfma_sum ta tb, dotFull_split4 a b]
    ring

theorem dotScalarTail_spec :
    ∀ (a b : List ℚ) (s : ℚ), b.length = a.length →
      dotScalarTail a b s = s + dotFull a b := by
  intro a
  induction a with
  | nil =>
    intro b s hb
    simp [dotScalarTail, dotFull, combFull]
  | cons x a ih =>
    intro b s hb
    match b, hb with
    | y :: b, hb =>
      have hb' : b.length = a.length := by simpa using hb
      show dotScalarTail a b (s + x * (y :: b).getD 0 0) = _
      rw [ih b _ hb']
      simp [dotFull, combFull]
      ring

theorem dotProductNEON_eq {a b : List ℚ} (hb : b.length = a.length) :
    dotProductNEON a b = dotFull a b := by
  unfold dotProductNEON
  have hz : (List.replicate 4 (0 : ℚ)).length = 4 := by simp
  obtain ⟨g1, g2, g3, g4, g5, g6, g7⟩ :=
    dotLoop16_spec ⟨a, b, List.replicate 4 0, List.replicate 4 0,
      List.replicate 4 0, List.replicate 4 0⟩ hb hz hz hz hz
  set st := dotLoop16 ⟨a, b, List.replicate 4 0, List.replicate 4 0,
      List.replicate 4 0, List.replicate 4 0⟩ with hst
  obtain ⟨k1, k2, k3, k4⟩ := dotLoop4_spec st.a st.b st.v0 g2 g3
  set t := dotLoop4 st.a st.b st.v0 with ht
  have hw : (t.2.2).length = 4 := k3
  have l1 : (vadd t.2.2 st.v1).length = 4 := by
    rw [vadd_length, hw, g4]
    simp
  have l2 : (vadd st.v2 st.v3).length = 4 := by
    rw [vadd_length, g5, g6]
    simp
  have l3 : (vadd (vadd t.2.2 st.v1) (vadd st.v2 st.v3)).length = 4 := by
    rw [vadd_length, l1, l2]
    simp
  rw [dotScalarTail_spec t.1 t.2.1 _ k2]
  rw [hsum_eq_sum l3]
  rw [vadd_sum (by rw [l1, l2])]
  rw [vadd_sum (by rw [hw, g4])]
  rw [vadd_sum (by rw [g5, g6])]
  have haccz : accSum ⟨a, b, List.replicate 4 0, List.replicate 4 0,
      List.replicate 4 0, List.replicate 4 0⟩ = 0 := by
    simp [accSum]
  have hmain : accSum st + dotFull st.a st.b = dotFull a b := by
    rw [g7, haccz]
    ring
  unfold accSum at hmain
  have : t.2.2.sum + dotFull t.1 t.2.1 = st.v0.sum + dotFull st.a st.b := k4
  linarith

theorem eucLoop16_spec (st : NeonState) (hb : st.b.length = st.a.length)
    (h0 : st.v0.length = 4) (h1 : st.v1.length = 4)
    (h2 : st.v2.length = 4) (h3 : st.v3.length = 4) :
    (eucLoop16 st).a.length < 16 ∧
    (eucLoop16 st).b.length = (eucLoop16 st).a.length ∧
    (eucLoop16 st).v0.length = 4 ∧ (eucLoop16 st).v1.length = 4 ∧
    (eucLoop16 st).v2.length = 4 ∧ (eucLoop16 st).v3.length = 4 ∧
    accSum (eucLoop16 st) + sqFull (eucLoop16 st).a (eucLoop16 st).b
      = accSum st + sqFull st.a st.b := by
  induction st using eucLoop16.induct with
  | case1 st hlt =>
    rw [eucLoop16, dif_pos hlt]
    exact ⟨hlt, hb, h0, h1, h2, h3, rfl⟩
  | case2 st hlt ih =>
    rw [eucLoop16, dif_neg hlt]
    push_neg at hlt
    have hlen : 16 ≤ st.a.length := hlt
    have hblen : 16 ≤ st.b.length := by omega
    have ta0 : (st.a.take 4).length = st.v0.length := by
      simp only [List.length_take, h0]
      omega
    have tb0 : (st.b.take 4).length = st.v0.length := by
      simp only [List.length_take, h0]
      omega
    have ta1 : ((st.a.drop 4).take 4).length = st.v1.length := by
      simp only [List.length_take, List.length_drop, h1]
      omega
    have tb1 : ((st.b.drop 4).take 4).length = st.v1.length := by
      simp only [List.length_take, List.length_drop, h1]
      omega
    have ta2 : ((st.a.drop 8).take 4).length = st.v2.length := by
      simp only [List.length_take, List.length_drop, h2]
      omega
    have tb2 : ((st.b.drop 8).take 4).length = st.v2.length := by
      simp only [List.length_take, List.length_drop, h2]
      omega
    have ta3 : ((st.a.drop 12).take 4).length = st.v3.length := by
      simp only [List.length_take, List.length_drop, h3]
      omega
    have tb3 : ((st.b.drop 12).take 4).length = st.v3.length := by
      simp only [List.length_take, List.length_drop, h3]
      omega
    have hb' : (st.b.drop 16).length = (st.a.drop 16).length := by
      simp only [List.length_drop]
      omega
    have sub0 : (vsub (st.a.take 4) (st.b.take 4)).length = st.v0.length := by
      simp only [vsub, List.length_zipWith]
      omega
    have sub1 : (vsub ((st.a.drop 4).take 4) ((st.b.drop 4).take 4)).length = st.v1.length := by
      simp only [vsub, List.length_zipWith]
      simp only [List.length_take, List.length_drop, h1]
      omega
    have sub2 : (vsub ((st.a.drop 8).take 4) ((st.b.drop 8).take 4)).length = st.v2.length := by
      simp only [vsub, List.length_zipWith]
      simp only [List.length_take, List.length_drop, h2]
      omega
    have sub3 : (vsub ((st.a.drop 12).take 4) ((st.b.drop 12).take 4)).length = st.v3.length := by
      simp only [vsub, List.length_zipWith]
      simp only [List.length_take, List.length_drop, h3]
      omega
    have hv0 : (vfma st.v0 (vsub (st.a.take 4) (st.b.take 4))
        (vsub (st.a.take 4) (st.b.take 4))).length = 4 := by
      rw [vfma_length, sub0, h0]
      omega
    have hv1 : (vfma st.v1 (vsub ((st.a.drop 4).take 4) ((st.b.drop 4).take 4))
        (vsub ((st.a.drop 4).take 4) ((st.b.drop 4).take 4))).length = 4 := by
      rw [vfma_length, sub1, h1]
      omega
    have hv2 : (vfma st.v2 (vsub ((st.a.drop 8).take 4) ((st.b.drop 8).take 4))
        (vsub ((st.a.drop 8).take 4) ((st.b.drop 8).take 4))).length = 4 := by
      rw [vfma_length, sub2, h2]
      omega
    have hv3 : (vfma st.v3 (vsub ((st.a.drop 12).take 4) ((st.b.drop 12).take 4))
        (vsub ((st.a.drop 12).take 4) ((st.b.drop 12).take 4))).length = 4 := by
      rw [vfma_length, sub3, h3]
      omega
    obtain ⟨g1, g2, g3, g4, g5, g6, g7⟩ := ih hb' hv0 hv1 hv2 hv3
    refine ⟨g1, g2, g3, g4, g5, g6, ?_⟩
    rw [g7]
    unfold accSum
    simp only
    rw [vfma_sq_sum ta0 tb0 (by omega), vfma_sq_sum ta1 tb1 (by omega),
        vfma_sq_sum ta2 tb2 (by omega), vfma_sq_sum ta3 tb3 (by omega)]
    rw [sqFull_split16 st.a st.b]
    ring

theorem eucLoop4_spec :
    ∀ (a b v0 : List ℚ), b.length = a.length → v0.length = 4 →
      (eucLoop4 a b v0).1.length < 4 ∧
      (eucLoop4 a b v0).2.1.length = (eucLoop4 a b v0).1.length ∧
      (eucLoop4 a b v0).2.2.length = 4 ∧
      (eucLoop4 a b v0).2.2.sum + sqFull (eucLoop4 a b v0).1 (eucLoop4 a b v0).2.1
        = v0.sum + sqFull a b := by
  intro a b v0 hb hv
  induction a, b, v0 using eucLoop4.induct with
  | case1 a b v0 hlt =>
    rw [eucLoop4, dif_pos hlt]
    exact ⟨hlt, hb, hv, rfl⟩
  | case2 a b v0 hlt ih =>
    rw [eucLoop4, dif_neg hlt]
    push_neg at hlt
    have ta : (a.take 4).length = v0.length := by
      simp only [List.length_take, hv]
      omega
    have tb : (b.take 4).length = v0.length := by
      simp only [List.length_take, hv]
      omega
    have hb' : (b.drop 4).length = (a.drop 4).length := by
      simp only [List.length_drop]
      omega
    have hsub : (vsub (a.take 4) (b.take 4)).length = v0.length := by
      simp only [vsub, List.length_zipWith]
      omega
    have hv' : (vfma v0 (vsub (a.take 4) (b.take 4)) (vsub (a.take 4) (b.take 4))).length
        = 4 := by
      rw [vfma_length, hsub, hv]
      omega
    obtain ⟨g1, g2, g3, g4⟩ := ih hb' hv'
    refine ⟨g1, g2, g3, ?_⟩
    rw [g4, vfma_sq_sum ta tb (by omega), sqFull_split4 a b]
    ring

theorem eucScalarTail_spec :
    ∀ (a b : List ℚ) (s : ℚ), b.length = a.length →
      eucScalarTail a b s = s + sqFull a b := by
  intro a
  induction a with
  | nil =>
    intro b s hb
    simp [eucScalarTail, sqFull, combFull]
  | cons x a ih =>
    intro b s hb
    match b, hb with
    | y :: b, hb =>
      have hb' : b.length = a.length := by simpa using hb
      show eucScalarTail a b (s + (x - (y :: b).getD 0 0) * (x - (y :: b).getD 0 0)) = _
      rw [ih b _ hb']
      simp [sqFull, combFull]
      ring

theorem euclideanDistanceSquaredNEON_eq {a b : List ℚ} (hb : b.length = a.length) :
    euclideanDistanceSquaredNEON a b = sqFull a b := by
  unfold euclideanDistanceSquaredNEON
  have hz : (List.replicate 4 (0 : ℚ)).length = 4 := by simp
  obtain ⟨g1, g2, g3, g4, g5, g6, g7⟩ :=
    eucLoop16_spec ⟨a, b, List.replicate 4 0, List.replicate 4 0,
      List.replicate 4 0, List.replicate 4 0⟩ hb hz hz hz hz
  set st := eucLoop16 ⟨a, b, List.replicate 4 0, List.replicate 4 0,
      List.replicate 4 0, List.replicate 4 0⟩ with hst
  obtain ⟨k1, k2, k3, k4⟩ := eucLoop4_spec st.a st.b st.v0 g2 g3
  set t := eucLoop4 st.a st.b st.v0 with ht
  have hw : (t.2.2).length = 4 := k3
  have l1 : (vadd t.2.2 st.v1).length = 4 := by
    rw [vadd_length, hw, g4]
    simp
  have l2 : (vadd st.v2 st.v3).length = 4 := by
    rw [vadd_length, g5, g6]
    simp
  have l3 : (vadd (vadd t.2.2 st.v1) (vadd st.v2 st.v3)).length = 4 := by
    rw [vadd_length, l1, l2]
    simp
  rw [eucScalarTail_spec t.1 t.2.1 _ k2]
  rw [hsum_eq_sum l3]
  rw [vadd_sum (by rw [l1, l2])]
  rw [vadd_sum (by rw [hw, g4])]
  rw [vadd_sum (by rw [g5, g6])]
  have haccz : accSum ⟨a, b, List.replicate 4 0, List.replicate 4 0,
      List.replicate 4 0, List.replicate 4 0⟩ = 0 := by
    simp [accSum]
  have hmain : accSum st + sqFull st.a st.b = sqFull a b := by
    rw [g7, haccz]
    ring
  unfold accSum at hmain
  have : t.2.2.sum + sqFull t.1 t.2.1 = st.v0.sum + sqFull st.a st.b := k4
  linarith

/-- The dispatched dot product always agrees exactly with the scalar path. -/
theorem dotProductPlatform_eq {a b : List ℚ} (hb : b.length = a.length) :
    dotProductPlatform a b = DotProductScalar a b := by
  unfold dotProductPlatform
  split
  · rw [dotProductNEON_eq hb, DotProductScalar_eq_dotFull hb]
  · rfl

/-- The dispatched squared Euclidean distance always agrees exactly with the
scalar path. -/
theorem euclideanDistanceSquaredPlatform_eq {a b : List ℚ} (hb : b.length = a.length) :
    euclideanDistanceSquaredPlatform a b = EuclideanDistanceSquaredScalar a b := by
  unfold euclideanDistanceSquaredPlatform
  split
  · rw [euclideanDistanceSquaredNEON_eq hb, EuclideanScalar_eq_sqFull hb]
  · rfl

/-! ### Cosine functions (src/pkg/distance/distance.go)

`math.Sqrt` takes the model out of `ℚ` into `ℝ`, so these three are
noncomputable real-valued functions of rational vectors. -/

/-- `Magnitude(v) = float32(math.Sqrt(float64(DotProduct(v, v))))`. -/
noncomputable def Magnitude (v : List ℚ) : ℝ :=
  Real.sqrt ((dotProductPlatform v v : ℚ) : ℝ)

/-- `CosineSimilarity`: guard against zero magnitudes, otherwise
`dot / (magA * magB)`. -/
noncomputable def CosineSimilarity (a b : List ℚ) : ℝ :=
  if Magnitude a = 0 ∨ Magnitude b = 0 then 0
  else ((dotProductPlatform a b : ℚ) : ℝ) / (Magnitude a * Magnitude b)

/-- `CosineDistance = 1 - CosineSimilarity`. -/
noncomputable def CosineDistance (a b : List ℚ) : ℝ := 1 - CosineSimilarity a b

/-! ### Sharded vector store (src/pkg/store/store.go)

The Go map `idIndex map[string]int` is modelled as `String → Option Nat`
(map write = `Function.update` to `some`, `delete` = update to `none`).
The `sync.RWMutex` field guards concurrent access only and has no
sequential semantics, so it is not part of the state. -/

def numShards : Nat := 16

/-- UTF-8 encoding of one character, as Go produces for `[]byte(id)`. -/
def utf8Char (c : Char) : List Nat :=
  let n := c.toNat
  if n < 128 then [n]
  else if n < 2048 then [192 + n / 64, 128 + n % 64]
  else if n < 65536 then [224 + n / 4096, 128 + n / 64 % 64, 128 + n % 64]
  else [240 + n / 262144, 128 + n / 4096 % 64, 128 + n / 64 % 64, 128 + n % 64]

def utf8Bytes (s : String) : List Nat := (s.data.map utf8Char).flatten

/-- 32-bit FNV-1a over the identifier's UTF-8 bytes
(`hash/fnv`: offset basis 2166136261, prime 16777619, mod 2^32). -/
def fnv1a32 (id : String) : Nat :=
  (utf8Bytes id).foldl (fun h b => ((h ^^^ b) * 16777619) % 4294967296) 2166136261

/-- `shardIndex(id) = fnv1a32(id) mod 16`. -/
def shardIndex (id : String) : Nat := fnv1a32 id % numShards

/-- One shard: SoA layout, vector i's payload at `data[i*dim : (i+1)*dim]`. -/
structure Shard where
  ids : List String
  data : List ℚ
  idIndex : String → Option Nat

instance : Inhabited Shard := ⟨⟨[], [], fun _ => none⟩⟩

/-- `Vector` from store.go (named `Vec` here since Mathlib owns `Vector`). -/
structure Vec where
  id : String
  data : List ℚ

structure VectorStore where
  shards : List Shard
  dimension : Nat

def NewVectorStore (dimension : Nat) : VectorStore :=
  ⟨List.replicate numShards ⟨[], [], fun _ => none⟩, dimension⟩

inductive VErr where
  | dimensionMismatch
  | emptyID
  | notFound
deriving DecidableEq

/-- `copy(dst[off : off+len(src)], src)` on a contiguous buffer. -/
def writeSlice (dst : List ℚ) (off : Nat) (src : List ℚ) : List ℚ :=
  dst.take off ++ src ++ dst.drop (off + src.length)

/-- `Insert` returns the Go error value together with the post-call store
(the receiver is mutated in place in Go; error paths leave it untouched). -/
def VectorStore.Insert (s : VectorStore) (v : Vec) : Option VErr × VectorStore :=
  if v.id = "" then (some .emptyID, s)
  else if v.data.length ≠ s.dimension then (some .dimensionMismatch, s)
  else
    let si := shardIndex v.id
    let sh := s.shards.getD si default
    let dim := s.dimension
    match sh.idIndex v.id with
    | some idx =>
        let sh' := { sh with data := writeSlice sh.data (idx * dim) v.data }
        (none, { s with shards := s.shards.set si sh' })
    | none =>
        let sh' : Shard :=
          { ids := sh.ids ++ [v.id],
            data := sh.data ++ v.data,
            idIndex := Function.update sh.idIndex v.id (some sh.ids.length) }
        (none, { s with shards := s.shards.set si sh' })

/-- `Delete`: look up the row, swap-with-last when not last, truncate,
remove the key. -/
def VectorStore.Delete (s : VectorStore) (id : String) : Option VErr × VectorStore :=
  let si := shardIndex id
  let sh := s.shards.getD si default
  match sh.idIndex id with
  | none => (some .notFound, s)
  | some idx =>
      let dim := s.dimension
      let lastIdx := sh.ids.length - 1
      let sh1 :=
        if idx ≠ lastIdx then
          { sh with
            ids := sh.ids.set idx (sh.ids.getD lastIdx default),
            data := writeSlice sh.data (idx * dim)
              ((sh.data.drop (lastIdx * dim)).take dim),
            idIndex := Function.update sh.idIndex
              (sh.ids.getD lastIdx default) (some idx) }
        else sh
      let sh2 : Shard :=
        { ids := sh1.ids.take lastIdx,
          data := sh1.data.take (lastIdx * dim),
          idIndex := Function.update sh1.idIndex id none }
      (none, { s with shards := s.shards.set si sh2 })

/-- `Count`: sum of shard populations, accumulated shard by shard. -/
def VectorStore.Count (s : VectorStore) : Nat :=
  s.shards.foldl (fun total sh => total + sh.ids.length) 0

def VectorStore.Dimension (s : VectorStore) : Nat := s.dimension

/-- Store states built by `Insert`/`Delete` from a fresh store of dimension D. -/
inductive Reachable (D : Nat) : VectorStore → Prop where
  | new : Reachable D (NewVectorStore D)
  | insert (s : VectorStore) (v : Vec) : Reachable D s → Reachable D (s.Insert v).2
  | delete (s : VectorStore) (id : String) : Reachable D s → Reachable D (s.Delete id).2

/-! ### Store invariants -/

/-- Per-shard invariant (shard `si` of a store of dimension `D`). -/
structure ShardInv (D si : Nat) (sh : Shard) : Prop where
  lenData : sh.ids.length * D = sh.data.length
  indexSound : ∀ id i, sh.idIndex id = some i →
    i < sh.ids.length ∧ sh.ids.getD i default = id
  indexComplete : ∀ i, i < sh.ids.length → sh.idIndex (sh.ids.getD i default) = some i
  nodup : sh.ids.Nodup
  routed : ∀ id ∈ sh.ids, shardIndex id = si
  nonempty : ∀ id ∈ sh.ids, id ≠ ""

/-- Whole-store invariant. -/
structure StoreInv (D : Nat) (s : VectorStore) : Prop where
  numShardsEq : s.shards.length = numShards
  dimEq : s.dimension = D
  shard : ∀ si, si < numShards → ShardInv D si (s.shards.getD si default)

/-! ### List access helper lemmas -/

theorem getD_of_lt {β : Type} (l : List β) (d : β) (i : Nat) (h : i < l.length) :
    l.getD i d = l[i] := List.getD_eq_getElem l d h

theorem getD_set_self {β : Type} (l : List β) (i : Nat) (x d : β) (h : i < l.length) :
    (l.set i x).getD i d = x := by
  rw [List.getD_eq_getElem?_getD, List.getElem?_set_self h]
  rfl

theorem getD_set_ne {β : Type} (l : List β) (i j : Nat) (x d : β) (h : i ≠ j) :
    (l.set i x).getD j d = l.getD j d := by
  rw [List.getD_eq_getElem?_getD, List.getElem?_set_ne h, ← List.getD_eq_getElem?_getD]

theorem getD_take_lt {β : Type} (l : List β) (n i : Nat) (d : β) (h : i < n) :
    (l.take n).getD i d = l.getD i d := by
  rw [List.getD_eq_getElem?_getD, List.getElem?_take, if_pos h, ← List.getD_eq_getElem?_getD]

theorem getD_append_left {β : Type} (l l' : List β) (d : β) (i : Nat) (h : i < l.length) :
    (l ++ l').getD i d = l.getD i d := List.getD_append l l' d i h

theorem mem_iff_getD {β : Type} {x : β} {l : List β} (d : β) :
    x ∈ l ↔ ∃ i, i < l.length ∧ l.getD i d = x := by
  rw [List.mem_iff_getElem]
  constructor
  · rintro ⟨i, hi, hx⟩
    exact ⟨i, hi, by rw [getD_of_lt l d i hi, hx]⟩
  · rintro ⟨i, hi, hx⟩
    exact ⟨i, hi, by rw [← getD_of_lt l d i hi, hx]⟩

theorem writeSlice_length {dst src : List ℚ} {off : Nat}
    (h : off + src.length ≤ dst.length) :
    (writeSlice dst off src).length = dst.length := by
  simp only [writeSlice, List.length_append, List.length_take, List.length_drop]
  omega

/-- Reads inside the written window return the source
(note `++` is left-associated: `(take ++ src) ++ drop`). -/
theorem writeSlice_getD_in {dst src : List ℚ} {off j : Nat} (d : ℚ)
    (hoff : off + src.length ≤ dst.length) (hj : j < src.length) :
    (writeSlice dst off src).getD (off + j) d = src.getD j d := by
  unfold writeSlice
  have hto : (dst.take off).length = off := by
    simp only [List.length_take]
    omega
  rw [getD_append_left _ _ _ _ (by simp only [List.length_append, hto]; omega)]
  rw [List.getD_append_right _ _ _ _ (by omega : (dst.take off).length ≤ off + j)]
  rw [hto]
  congr 1
  omega

/-- Reads outside the written window return the original buffer. -/
theorem writeSlice_getD_out {dst src : List ℚ} {off j : Nat} (d : ℚ)
    (hoff : off + src.length ≤ dst.length)
    (hj : j < off ∨ off + src.length ≤ j) :
    (writeSlice dst off src).getD j d = dst.getD j d := by
  unfold writeSlice
  have hto : (dst.take off).length = off := by
    simp only [List.length_take]
    omega
  rcases hj with hj | hj
  · rw [getD_append_left _ _ _ _ (by simp only [List.length_append, hto]; omega)]
    rw [getD_append_left _ _ _ _ (by omega : j < (dst.take off).length)]
    exact getD_take_lt dst off j d hj
  · rw [List.getD_append_right _ _ _ _
      (by simp only [List.length_append, hto]; omega)]
    simp only [List.length_append, hto]
    rcases Nat.lt_or_ge j dst.length with hlt | hge
    · rw [List.getD_eq_getElem?_getD, List.getElem?_drop, ← List.getD_eq_getElem?_getD]
      congr 1
      omega
    · rw [List.getD_eq_getElem?_getD,
        List.getElem?_eq_none (by simp only [List.length_drop]; omega)]
      rw [List.getD_eq_getElem?_getD, List.getElem?_eq_none (by omega)]

/-- Swap-with-last removal: the original list is a permutation of the
truncated swapped list with the removed element appended. -/
theorem swapRemove_perm {β : Type} [Inhabited β] (l : List β) (idx : Nat)
    (h : idx < l.length) :
    l.Perm (((l.set idx (l.getD (l.length - 1) default)).take (l.length - 1))
      ++ [l.getD idx default]) := by
  rcases Nat.eq_or_lt_of_le (Nat.succ_le_of_lt h) with hlast | hmid
  · -- idx is the last index: the set is invisible after truncation
    have hidx : idx = l.length - 1 := by omega
    have hset : (l.set idx (l.getD (l.length - 1) default)).take (l.length - 1)
        = l.take (l.length - 1) := by
      apply List.ext_getElem?
      intro j
      rcases Nat.lt_or_ge j (l.length - 1) with hj | hj
      · rw [List.getElem?_take, if_pos hj, List.getElem?_take, if_pos hj,
          List.getElem?_set_ne (by omega)]
      · rw [List.getElem?_take, if_neg (by omega), List.getElem?_take, if_neg (by omega)]
    have hdrop : l.drop (l.length - 1) = [l.getD (l.length - 1) default] := by
      rw [List.drop_eq_getElem_cons (by omega : l.length - 1 < l.length)]
      have harg : l.length - 1 + 1 = l.length := by omega
      rw [harg, List.drop_length, getD_of_lt l default _ (by omega)]
    rw [hset, hidx, ← hdrop, List.take_append_drop]
  · -- idx strictly before the last index
    set L := l.length - 1 with hL
    set x := l.getD L default with hx
    have hidxL : idx < L := by omega
    have hLlen : L < l.length := by omega
    have hdecomp : l = l.take idx ++ l[idx] :: l.drop (idx + 1) := by
      conv_lhs => rw [← List.take_append_drop idx l]
      rw [List.drop_eq_getElem_cons h]
    have hset : l.set idx x = l.take idx ++ x :: l.drop (idx + 1) := by
      rw [List.set_eq_take_append_cons_drop, if_pos h]
    have htake_len : (l.take idx).length = idx := by
      simp only [List.length_take]
      omega
    have htail : l.drop (idx + 1)
        = (l.drop (idx + 1)).take (l.length - idx - 2) ++ [x] := by
      have h2 : (l.drop (idx + 1)).drop (l.length - idx - 2) = [x] := by
        rw [List.drop_eq_getElem_cons (by simp only [List.length_drop]; omega)]
        have e3 : (l.drop (idx + 1)).drop (l.length - idx - 2 + 1) = [] := by
          rw [List.drop_eq_nil_iff]
          simp only [List.length_drop]
          omega
        have hb1 : l.length - idx - 2 < (l.drop (idx + 1)).length := by
          simp only [List.length_drop]
          omega
        have hb2 : idx + 1 + (l.length - idx - 2) < l.length := by omega
        have e1 : (l.drop (idx + 1))[l.length - idx - 2]
            = l[idx + 1 + (l.length - idx - 2)] := List.getElem_drop l
        rw [e3, e1]
        have e4 : l[idx + 1 + (l.length - idx - 2)] = x := by
          rw [hx, getD_of_lt l default L hLlen]
          congr 1
          omega
        rw [e4]
      conv_lhs => rw [← List.take_append_drop (l.length - idx - 2) (l.drop (idx + 1))]
      rw [h2]
    have hsettake : (l.set idx x).take L
        = l.take idx ++ x :: (l.drop (idx + 1)).take (l.length - idx - 2) := by
      rw [hset]
      rw [List.take_append_eq_append_take]
      have e1 : (l.take idx).take L = l.take idx := by
        rw [List.take_take, min_eq_right (by omega)]
      have e2 : L - (l.take idx).length = l.length - idx - 1 := by
        rw [htake_len]
        omega
      rw [e1, e2]
      have e3 : (x :: l.drop (idx + 1)).take (l.length - idx - 1)
          = x :: (l.drop (idx + 1)).take (l.length - idx - 2) := by
        have harg : l.length - idx - 1 = (l.length - idx - 2) + 1 := by omega
        rw [harg, List.take_succ_cons]
      rw [e3]
    rw [hsettake, getD_of_lt l default idx h]
    have hperm_core :
        (l[idx] :: ((l.drop (idx + 1)).take (l.length - idx - 2) ++ [x])).Perm
          ((x :: (l.drop (idx + 1)).take (l.length - idx - 2)) ++ [l[idx]]) := by
      set T := (l.drop (idx + 1)).take (l.length - idx - 2) with hT
      have p1 : (l[idx] :: (T ++ [x])).Perm (l[idx] :: (x :: T)) :=
        List.Perm.cons _ List.perm_append_comm
      have p2 : (l[idx] :: x :: T).Perm (x :: l[idx] :: T) := List.Perm.swap _ _ _
      have p3 : (x :: (T ++ [l[idx]])).Perm (x :: (l[idx] :: T)) :=
        List.Perm.cons _ List.perm_append_comm
      have p4 : (x :: T) ++ [l[idx]] = x :: (T ++ [l[idx]]) := rfl
      rw [p4]
      exact (p1.trans p2).trans (p3.symm)
    have final :
        (l.take idx ++ (l[idx] :: ((l.drop (idx + 1)).take (l.length - idx - 2) ++ [x]))).Perm
          ((l.take idx ++ (x :: (l.drop (idx + 1)).take (l.length - idx - 2))) ++ [l[idx]]) := by
      rw [List.append_assoc]
      exact List.Perm.append_left _ hperm_core
    have hfix : l = l.take idx
        ++ (l[idx] :: ((l.drop (idx + 1)).take (l.length - idx - 2) ++ [x])) := by
      conv_lhs => rw [hdecomp]
      rw [← htail]
    conv_lhs => rw [hfix]
    exact final

/-! ### Branch characterizations of Insert and Delete -/

theorem Insert_emptyID {s : VectorStore} {v : Vec} (h : v.id = "") :
    s.Insert v = (some .emptyID, s) := by
  unfold VectorStore.Insert
  rw [if_pos h]

theorem Insert_dimMismatch {s : VectorStore} {v : Vec} (h1 : v.id ≠ "")
    (h2 : v.data.length ≠ s.dimension) :
    s.Insert v = (some .dimensionMismatch, s) := by
  unfold VectorStore.Insert
  rw [if_neg h1, if_pos h2]

theorem Insert_update {s : VectorStore} {v : Vec} {idx : Nat} (h1 : v.id ≠ "")
    (h2 : v.data.length = s.dimension)
    (h3 : (s.shards.getD (shardIndex v.id) default).idIndex v.id = some idx) :
    s.Insert v = (none, { s with
      shards := s.shards.set (shardIndex v.id)
        ({ s.shards.getD (shardIndex v.id) default with
           data := writeSlice (s.shards.getD (shardIndex v.id) default).data
             (idx * s.dimension) v.data }) }) := by
  unfold VectorStore.Insert
  rw [if_neg h1, if_neg (by omega)]
  simp only [h3]

theorem Insert_new {s : VectorStore} {v : Vec} (h1 : v.id ≠ "")
    (h2 : v.data.length = s.dimension)
    (h3 : (s.shards.getD (shardIndex v.id) default).idIndex v.id = none) :
    s.Insert v = (none, { s with
      shards := s.shards.set (shardIndex v.id)
        ({ ids := (s.shards.getD (shardIndex v.id) default).ids ++ [v.id],
           data := (s.shards.getD (shardIndex v.id) default).data ++ v.data,
           idIndex := Function.update (s.shards.getD (shardIndex v.id) default).idIndex
             v.id (some (s.shards.getD (shardIndex v.id) default).ids.length) }) }) := by
  unfold VectorStore.Insert
  rw [if_neg h1, if_neg (by omega)]
  simp only [h3]

theorem Delete_notFound {s : VectorStore} {id : String}
    (h : (s.shards.getD (shardIndex id) default).idIndex id = none) :
    s.Delete id = (some .notFound, s) := by
  unfold VectorStore.Delete
  simp only [h]

/-- The shard produced by a successful delete (swap-with-last then truncate). -/
def deletedShard (sh : Shard) (id : String) (idx dim : Nat) : Shard :=
  let lastIdx := sh.ids.length - 1
  let sh1 :=
    if idx ≠ lastIdx then
      { sh with
        ids := sh.ids.set idx (sh.ids.getD lastIdx default),
        data := writeSlice sh.data (idx * dim)
          ((sh.data.drop (lastIdx * dim)).take dim),
        idIndex := Function.update sh.idIndex
          (sh.ids.getD lastIdx default) (some idx) }
    else sh
  { ids := sh1.ids.take lastIdx,
    data := sh1.data.take (lastIdx * dim),
    idIndex := Function.update sh1.idIndex id none }

theorem Delete_found {s : VectorStore} {id : String} {idx : Nat}
    (h : (s.shards.getD (shardIndex id) default).idIndex id = some idx) :
    s.Delete id = (none, { s with
      shards := s.shards.set (shardIndex id)
        (deletedShard (s.shards.getD (shardIndex id) default) id idx s.dimension) }) := by
  unfold VectorStore.Delete deletedShard
  simp only [h]

/-! ### Invariant preservation -/

theorem ShardInv.not_mem_of_none {D si : Nat} {sh : Shard} (h : ShardInv D si sh)
    {id : String} (hn : sh.idIndex id = none) : id ∉ sh.ids := by
  intro hmem
  obtain ⟨i, hi, hgd⟩ := (mem_iff_getD default).mp hmem
  have hc := h.indexComplete i hi
  rw [hgd, hn] at hc
  cases hc

theorem StoreInv.setShard {D : Nat} {s : VectorStore} (hs : StoreInv D s) {si : Nat}
    (hsi : si < numShards) {sh' : Shard} (h' : ShardInv D si sh') :
    StoreInv D { s with shards := s.shards.set si sh' } := by
  constructor
  · simp [hs.numShardsEq]
  · exact hs.dimEq
  · intro sj hsj
    by_cases hji : sj = si
    · subst hji
      simp only
      rw [getD_set_self _ _ _ _ (by rw [hs.numShardsEq]; exact hsj)]
      exact h'
    · simp only
      rw [getD_set_ne _ _ _ _ _ (fun hh => hji hh.symm)]
      exact hs.shard sj hsj

theorem newStore_inv (D : Nat) : StoreInv D (NewVectorStore D) := by
  constructor
  · simp [NewVectorStore, numShards]
  · rfl
  · intro si hsi
    have : (NewVectorStore D).shards.getD si default = ⟨[], [], fun _ => none⟩ := by
      simp only [NewVectorStore]
      rw [List.getD_eq_getElem?_getD, List.getElem?_eq_getElem (by simpa [numShards] using hsi)]
      simp
    rw [this]
    constructor <;> simp

/-- In-place payload overwrite preserves the shard invariant. -/
theorem updateShard_inv {D si : Nat} {sh : Shard} (hinv : ShardInv D si sh)
    {idx : Nat} {payload : List ℚ} (hlen : payload.length = D)
    (hidx : idx < sh.ids.length) :
    ShardInv D si { sh with data := writeSlice sh.data (idx * D) payload } := by
  have hwlen : (writeSlice sh.data (idx * D) payload).length = sh.data.length := by
    apply writeSlice_length
    rw [hlen, ← hinv.lenData]
    calc idx * D + D = (idx + 1) * D := by ring
      _ ≤ sh.ids.length * D := Nat.mul_le_mul_right D hidx
  exact {
    lenData := by dsimp only; rw [hwlen]; exact hinv.lenData
    indexSound := hinv.indexSound
    indexComplete := hinv.indexComplete
    nodup := hinv.nodup
    routed := hinv.routed
    nonempty := hinv.nonempty }

/-- Appending a fresh vector preserves the shard invariant. -/
theorem appendShard_inv {D si : Nat} {sh : Shard} (hinv : ShardInv D si sh)
    {id : String} {payload : List ℚ} (hid : id ≠ "") (hlen : payload.length = D)
    (hroute : shardIndex id = si) (hnone : sh.idIndex id = none) :
    ShardInv D si ⟨sh.ids ++ [id], sh.data ++ payload,
      Function.update sh.idIndex id (some sh.ids.length)⟩ := by
  have hnot : id ∉ sh.ids := hinv.not_mem_of_none hnone
  constructor
  · -- lenData
    dsimp only
    simp only [List.length_append, List.length_cons, List.length_nil]
    rw [Nat.add_mul, hinv.lenData, hlen]
    ring
  · -- indexSound
    intro id' i hupd
    dsimp only at hupd ⊢
    by_cases hid' : id' = id
    · subst hid'
      rw [Function.update_same] at hupd
      have hieq : i = sh.ids.length := by
        cases hupd
        rfl
      subst hieq
      refine ⟨by simp, ?_⟩
      rw [List.getD_append_right _ _ _ _ (le_refl _)]
      simp
    · rw [Function.update_noteq hid'] at hupd
      obtain ⟨hlt, hval⟩ := hinv.indexSound id' i hupd
      refine ⟨by simp only [List.length_append, List.length_cons, List.length_nil]; omega, ?_⟩
      rw [getD_append_left _ _ _ _ hlt]
      exact hval
  · -- indexComplete
    intro i hi
    dsimp only at hi ⊢
    simp only [List.length_append, List.length_cons, List.length_nil] at hi
    rcases Nat.lt_or_ge i sh.ids.length with hlt | hge
    · rw [getD_append_left _ _ _ _ hlt]
      have hmem : sh.ids.getD i default ∈ sh.ids := by
        rw [getD_of_lt _ _ _ hlt]
        exact List.getElem_mem hlt
      have hne : sh.ids.getD i default ≠ id := fun hh => hnot (hh ▸ hmem)
      rw [Function.update_noteq hne]
      exact hinv.indexComplete i hlt
    · have hieq : i = sh.ids.length := by omega
      subst hieq
      rw [List.getD_append_right _ _ _ _ (le_refl _), Nat.sub_self,
        getD_cons_zero', Function.update_same]
  · -- nodup
    dsimp only
    rw [List.nodup_append]
    exact ⟨hinv.nodup, List.nodup_singleton _, List.disjoint_singleton.mpr hnot⟩
  · -- routed
    intro id' hmem
    dsimp only at hmem
    rcases List.mem_append.mp hmem with hmem | hmem
    · exact hinv.routed id' hmem
    · have : id' = id := by simpa using hmem
      rw [this]
      exact hroute
  · -- nonempty
    intro id' hmem
    dsimp only at hmem
    rcases List.mem_append.mp hmem with hmem | hmem
    · exact hinv.nonempty id' hmem
    · have : id' = id := by simpa using hmem
      rw [this]
      exact hid

theorem insert_inv {D : Nat} {s : VectorStore} (v : Vec) (hs : StoreInv D s) :
    StoreInv D (s.Insert v).2 := by
  by_cases h1 : v.id = ""
  · rw [Insert_emptyID h1]
    exact hs
  by_cases h2 : v.data.length = s.dimension
  swap
  · rw [Insert_dimMismatch h1 h2]
    exact hs
  have hsilt : shardIndex v.id < numShards := Nat.mod_lt _ (by norm_num [numShards])
  have hinv := hs.shard (shardIndex v.id) hsilt
  have hlenD : v.data.length = D := by rw [h2, hs.dimEq]
  cases h3 : (s.shards.getD (shardIndex v.id) default).idIndex v.id with
  | some idx =>
    rw [Insert_update h1 h2 h3]
    apply hs.setShard hsilt
    obtain ⟨hlt, hval⟩ := hinv.indexSound v.id idx h3
    have hDdim : idx * s.dimension = idx * D := by rw [hs.dimEq]
    rw [hDdim]
    exact updateShard_inv hinv hlenD hlt
  | none =>
    rw [Insert_new h1 h2 h3]
    apply hs.setShard hsilt
    exact appendShard_inv hinv h1 hlenD rfl h3

/-- Setting an element at or beyond the truncation point is invisible. -/
theorem take_set_outside {β : Type} (l : List β) (i n : Nat) (x : β) (h : n ≤ i) :
    (l.set i x).take n = l.take n := by
  apply List.ext_getElem?
  intro j
  rcases Nat.lt_or_ge j n with hj | hj
  · rw [List.getElem?_take, if_pos hj, List.getElem?_take, if_pos hj,
      List.getElem?_set_ne (by omega)]
  · rw [List.getElem?_take, if_neg (by omega), List.getElem?_take, if_neg (by omega)]

/-- Core facts about a successful shard deletion. -/
theorem deleteShard_spec {D si : Nat} {sh : Shard} (hinv : ShardInv D si sh)
    {id : String} {idx : Nat} (hfound : sh.idIndex id = some idx) :
    ShardInv D si (deletedShard sh id idx D) ∧
    (deletedShard sh id idx D).ids.length = sh.ids.length - 1 ∧
    id ∉ (deletedShard sh id idx D).ids ∧
    sh.ids.Perm ((deletedShard sh id idx D).ids ++ [id]) := by
  obtain ⟨hidx, hval⟩ := hinv.indexSound id idx hfound
  have hlen1 : 1 ≤ sh.ids.length := by omega
  set L := sh.ids.length - 1 with hL
  set lastID := sh.ids.getD L default with hlastID
  -- the ids of the result, uniformly in both branches
  have hids2 : (deletedShard sh id idx D).ids = (sh.ids.set idx lastID).take L := by
    unfold deletedShard
    simp only [← hL, ← hlastID]
    by_cases hc : idx ≠ L
    · rw [if_pos hc]
    · rw [if_neg hc]
      push_neg at hc
      rw [take_set_outside _ _ _ _ (by omega)]
  have hperm : sh.ids.Perm ((deletedShard sh id idx D).ids ++ [id]) := by
    rw [hids2]
    have := swapRemove_perm sh.ids idx hidx
    rw [hval] at this
    exact this
  have hnodup2 : (deletedShard sh id idx D).ids.Nodup ∧
      id ∉ (deletedShard sh id idx D).ids := by
    have hnd : ((deletedShard sh id idx D).ids ++ [id]).Nodup :=
      (List.Perm.nodup_iff hperm).mp hinv.nodup
    rw [List.nodup_append] at hnd
    exact ⟨hnd.1, fun hmem => (List.disjoint_singleton.mp hnd.2.2) hmem⟩
  have hlen2 : (deletedShard sh id idx D).ids.length = L := by
    rw [hids2]
    simp only [List.length_take, List.length_set]
    omega
  have hmem2 : ∀ x ∈ (deletedShard sh id idx D).ids, x ∈ sh.ids := by
    intro x hx
    exact (List.Perm.mem_iff hperm).mpr (List.mem_append.mpr (Or.inl hx))
  -- getD description of the new ids
  have hgetD2 : ∀ i, i < L →
      (deletedShard sh id idx D).ids.getD i default
        = if i = idx then lastID else sh.ids.getD i default := by
    intro i hi
    rw [hids2, getD_take_lt _ _ _ _ hi]
    by_cases hii : i = idx
    · subst hii
      rw [if_pos rfl, getD_set_self _ _ _ _ hidx]
    · rw [if_neg hii, getD_set_ne _ _ _ _ _ (fun hh => hii hh.symm)]
  -- idIndex description of the new shard
  have hidIndex2 : ∀ id', (deletedShard sh id idx D).idIndex id'
      = if id' = id then none
        else if id' = lastID ∧ idx ≠ L then some idx
        else sh.idIndex id' := by
    intro id'
    unfold deletedShard
    simp only [← hL, ← hlastID]
    by_cases hc : idx ≠ L
    · rw [if_pos hc]
      dsimp only
      by_cases h1 : id' = id
      · subst h1
        rw [Function.update_same, if_pos rfl]
      · rw [Function.update_noteq h1, if_neg h1]
        by_cases h2 : id' = lastID
        · subst h2
          rw [Function.update_same, if_pos ⟨rfl, hc⟩]
        · rw [Function.update_noteq h2, if_neg (by tauto)]
    · rw [if_neg hc]
      by_cases h1 : id' = id
      · subst h1
        rw [Function.update_same, if_pos rfl]
      · rw [Function.update_noteq h1, if_neg h1, if_neg (by tauto)]
  -- membership of lastID
  have hlastmem : lastID ∈ sh.ids := by
    rw [hlastID, getD_of_lt _ _ _ (by omega)]
    exact List.getElem_mem (by omega)
  have hlast_complete : sh.idIndex lastID = some L := by
    have := hinv.indexComplete L (by omega)
    rw [← hlastID] at this
    exact this
  -- id sits exactly at idx
  have hid_ne_last : idx ≠ L → id ≠ lastID := by
    intro hc heq
    have h2 := hlast_complete
    rw [← heq, hfound] at h2
    exact hc (Option.some.inj h2)
  refine ⟨?_, hlen2, hnodup2.2, hperm⟩
  constructor
  · -- lenData
    have hdata2 : (deletedShard sh id idx D).data.length = L * D := by
      unfold deletedShard
      simp only [← hL, ← hlastID]
      by_cases hc : idx ≠ L
      · rw [if_pos hc]
        dsimp only
        have hw : (writeSlice sh.data (idx * D) ((sh.data.drop (L * D)).take D)).length
            = sh.data.length := by
          apply writeSlice_length
          have hsrc : ((sh.data.drop (L * D)).take D).length = D := by
            simp only [List.length_take, List.length_drop, ← hinv.lenData]
            have : sh.ids.length * D - L * D = D := by
              have : sh.ids.length = L + 1 := by omega
              rw [this]
              ring_nf
              omega
            omega
          rw [hsrc, ← hinv.lenData]
          have hidxL : idx < L := by omega
          calc idx * D + D = (idx + 1) * D := by ring
            _ ≤ sh.ids.length * D := Nat.mul_le_mul_right D (by omega)
        simp only [List.length_take, hw, ← hinv.lenData]
        have : L * D ≤ sh.ids.length * D := Nat.mul_le_mul_right D (by omega)
        omega
      · rw [if_neg hc]
        simp only [List.length_take, ← hinv.lenData]
        have : L * D ≤ sh.ids.length * D := Nat.mul_le_mul_right D (by omega)
        omega
    rw [hlen2, hdata2]
  · -- indexSound
    intro id' i hlook
    rw [hidIndex2 id'] at hlook
    by_cases h1 : id' = id
    · rw [if_pos h1] at hlook
      cases hlook
    · rw [if_neg h1] at hlook
      by_cases h2 : id' = lastID ∧ idx ≠ L
      · rw [if_pos h2] at hlook
        cases hlook
        have hidxL : idx < L := by omega
        refine ⟨by omega, ?_⟩
        rw [hgetD2 idx (by omega), if_pos rfl, h2.1]
      · rw [if_neg h2] at hlook
        obtain ⟨hlt, hval'⟩ := hinv.indexSound id' i hlook
        -- i cannot be idx (that slot held id) nor L (that slot held lastID)
        have hne_idx : i ≠ idx := by
          intro hh
          subst hh
          rw [hval] at hval'
          exact h1 hval'.symm
        have hne_L : i ≠ L ∨ (id' = lastID ∧ idx = L) := by
          by_cases hiL : i = L
          · subst hiL
            right
            constructor
            · rw [← hval', hlastID]
            · by_contra hcc
              exact h2 ⟨by rw [← hval', hlastID], hcc⟩
          · exact Or.inl hiL
        rcases hne_L with hne_L | ⟨hlast, hidxL⟩
        · refine ⟨by omega, ?_⟩
          rw [hgetD2 i (by omega), if_neg hne_idx]
          exact hval'
        · -- id' = lastID and idx = L: but then i = L = idx, contradicting hne_idx
          exfalso
          have : sh.idIndex id' = some L := by
            rw [hlast]
            exact hlast_complete
          rw [hlook] at this
          cases this
          exact hne_idx hidxL.symm
  · -- indexComplete
    intro i hi
    rw [hlen2] at hi
    rw [hidIndex2]
    by_cases hii : i = idx
    · subst hii
      rw [hgetD2 i hi, if_pos rfl]
      have hne_id : lastID ≠ id := by
        intro hh
        exact (hid_ne_last (by omega) hh.symm)
      rw [if_neg hne_id, if_pos ⟨rfl, by omega⟩]
    · rw [hgetD2 i hi, if_neg hii]
      have hvi : sh.ids.getD i default ∈ sh.ids := by
        rw [getD_of_lt _ _ _ (by omega)]
        exact List.getElem_mem (by omega)
      have hne_id : sh.ids.getD i default ≠ id := by
        intro hh
        have := hinv.indexComplete i (by omega)
        rw [hh, hfound] at this
        cases this
        exact hii rfl
      rw [if_neg hne_id]
      have hne_last : ¬(sh.ids.getD i default = lastID ∧ idx ≠ L) := by
        rintro ⟨hh, -⟩
        have := hinv.indexComplete i (by omega)
        rw [hh, hlast_complete] at this
        cases this
        omega
      rw [if_neg hne_last]
      exact hinv.indexComplete i (by omega)
  · -- nodup
    exact hnodup2.1
  · -- routed
    intro id' hmem
    exact hinv.routed id' (hmem2 id' hmem)
  · -- nonempty
    intro id' hmem
    exact hinv.nonempty id' (hmem2 id' hmem)

theorem delete_inv {D : Nat} {s : VectorStore} (id : String) (hs : StoreInv D s) :
    StoreInv D (s.Delete id).2 := by
  have hsilt : shardIndex id < numShards := Nat.mod_lt _ (by norm_num [numShards])
  have hinv := hs.shard (shardIndex id) hsilt
  cases h3 : (s.shards.getD (shardIndex id) default).idIndex id with
  | none =>
    rw [Delete_notFound h3]
    exact hs
  | some idx =>
    rw [Delete_found h3]
    apply hs.setShard hsilt
    rw [hs.dimEq]
    exact (deleteShard_spec hinv h3).1

/-- Every reachable store satisfies the invariant. -/
theorem reachable_inv {D : Nat} {s : VectorStore} (h : Reachable D s) : StoreInv D s := by
  induction h with
  | new => exact newStore_inv D
  | insert s v _ ih => exact insert_inv v ih
  | delete s id _ ih => exact delete_inv id ih

/-! ### Bounded max-heap (container/heap on `maxHeap`, store.go)

`maxHeap` is a slice of results ordered by `Less(i, j) = h[i].Distance >
h[j].Distance`.  The distance type is generic: squared-Euclidean search
instantiates it with `ℚ`, cosine search with `ℝ`.  The sift algorithms
`upH`/`downH` are the loops `up`/`down` of Go's container/heap package,
which store.go invokes through `heap.Push`/`heap.Pop`
(`heap.Init` is only ever called on an empty heap, a no-op). -/

/-- `SearchResult`: an identifier and its distance under the query metric. -/
structure SResult (α : Type) where
  id : String
  dist : α
deriving DecidableEq

section HeapMachinery

variable {α : Type} [LinearOrder α] [Inhabited α] [DecidableEq α]

instance : Inhabited (SResult α) := ⟨⟨default, default⟩⟩

/-- Go slice read `h[i]` (in-range in all reachable uses). -/
def gIx (h : List (SResult α)) (i : Nat) : SResult α := h.getD i default

/-- `maxHeap.Less(i, j) = h[i].Distance > h[j].Distance`. -/
def hLess (h : List (SResult α)) (i j : Nat) : Prop := (gIx h i).dist > (gIx h j).dist

instance hLessDec (h : List (SResult α)) (i j : Nat) : Decidable (hLess h i j) := by
  unfold hLess
  infer_instance

/-- `maxHeap.Swap(i, j)`. -/
def hSwap (h : List (SResult α)) (i j : Nat) : List (SResult α) :=
  (h.set i (gIx h j)).set j (gIx h i)

/-- Parent index in the implicit binary tree. -/
def parentIdx (j : Nat) : Nat := (j - 1) / 2

/-- container/heap `up(h, j)`. -/
def upH (h : List (SResult α)) (j : Nat) : List (SResult α) :=
  if _hij : parentIdx j = j then h
  else if ¬ hLess h j (parentIdx j) then h
  else upH (hSwap h (parentIdx j) j) (parentIdx j)
termination_by j
decreasing_by
  unfold parentIdx at *
  omega

/-- The child `down` selects: the larger of the two children in range. -/
def pickChild (h : List (SResult α)) (i n : Nat) : Nat :=
  if 2 * i + 2 < n ∧ hLess h (2 * i + 2) (2 * i + 1) then 2 * i + 2 else 2 * i + 1

/-- container/heap `down(h, i, n)` (its Boolean result is unused by store.go). -/
def downH (h : List (SResult α)) (i n : Nat) : List (SResult α) :=
  if _h1 : n ≤ 2 * i + 1 then h
  else if ¬ hLess h (pickChild h i n) i then h
  else downH (hSwap h i (pickChild h i n)) (pickChild h i n) n
termination_by n - i
decreasing_by
  unfold pickChild
  split
  · omega
  · omega

/-- `heap.Push`: append then sift up from the last position. -/
def heapPush (h : List (SResult α)) (x : SResult α) : List (SResult α) :=
  upH (h ++ [x]) h.length

/-- `heap.Pop`: swap root with last, sift down the prefix, detach the last
element (the returned maximum) from the remaining heap. -/
def heapPop (h : List (SResult α)) : SResult α × List (SResult α) :=
  ((downH (hSwap h 0 (h.length - 1)) 0 (h.length - 1)).getD (h.length - 1) default,
   (downH (hSwap h 0 (h.length - 1)) 0 (h.length - 1)).take (h.length - 1))

/-- The bounded push used by both the per-worker scan loop and the merge loop:
push when below capacity k, else replace the root when strictly closer. -/
def pushBounded (k : Nat) (h : List (SResult α)) (x : SResult α) : List (SResult α) :=
  if h.length < k then heapPush h x
  else if x.dist < (gIx h 0).dist then heapPush (heapPop h).2 x
  else h

/-! #### Length and permutation lemmas -/

theorem length_hSwap (h : List (SResult α)) (i j : Nat) :
    (hSwap h i j).length = h.length := by
  simp [hSwap]

theorem gIx_hSwap_left {h : List (SResult α)} {i j : Nat} (hi : i < h.length)
    (hij : i ≠ j) : gIx (hSwap h i j) i = gIx h j := by
  unfold hSwap gIx
  rw [List.getD_eq_getElem?_getD, List.getElem?_set_ne hij.symm,
    List.getElem?_set_self hi, Option.getD_some]

theorem gIx_hSwap_right {h : List (SResult α)} {i j : Nat} (hj : j < h.length) :
    gIx (hSwap h i j) j = gIx h i := by
  unfold hSwap gIx
  rw [List.getD_eq_getElem?_getD, List.getElem?_set_self (by simpa using hj),
    Option.getD_some]

theorem gIx_hSwap_other {h : List (SResult α)} {i j c : Nat} (hci : c ≠ i)
    (hcj : c ≠ j) : gIx (hSwap h i j) c = gIx h c := by
  unfold hSwap gIx
  rw [List.getD_eq_getElem?_getD, List.getElem?_set_ne (fun hh => hcj hh.symm),
    List.getElem?_set_ne (fun hh => hci hh.symm), ← List.getD_eq_getElem?_getD]

theorem set_getD_self {β : Type} [Inhabited β] (l : List β) (i : Nat)
    (h : i < l.length) : l.set i (l.getD i default) = l := by
  apply List.ext_getElem?
  intro j
  by_cases hji : j = i
  · subst hji
    rw [List.getElem?_set_self h, getD_of_lt _ _ _ h, List.getElem?_eq_getElem h]
  · rw [List.getElem?_set_ne (fun hh => hji hh.symm)]

theorem hSwap_self {h : List (SResult α)} {i : Nat} (hi : i < h.length) :
    hSwap h i i = h := by
  unfold hSwap gIx
  rw [List.set_set, set_getD_self _ _ hi]

theorem hSwap_perm {h : List (SResult α)} {i j : Nat} (hi : i < h.length)
    (hj : j < h.length) : (hSwap h i j).Perm h := by
  by_cases hij : i = j
  · subst hij
    rw [hSwap_self hi]
  · rw [List.perm_iff_count]
    intro x
    unfold hSwap gIx
    rw [getD_of_lt _ _ _ hi, getD_of_lt _ _ _ hj]
    have h1 : (h.set i h[j]).length = h.length := by simp
    have e2 := List.count_set (h[i]) x (h.set i h[j]) j (by omega)
    have e1 := List.count_set (h[j]) x h i hi
    have hbj : j < (h.set i h[j]).length := by
      rw [List.length_set]
      omega
    have e3 : (h.set i h[j])[j] = h[j] := List.getElem_set_ne hij _
    rw [e3] at e2
    have hcnti : (h[i] == x) = true → 1 ≤ h.count x := by
      intro hh
      have : h[i] = x := by simpa using hh
      subst this
      exact List.count_pos_iff.mpr (List.getElem_mem hi)
    have hcntj : (h[j] == x) = true → 1 ≤ h.count x := by
      intro hh
      have : h[j] = x := by simpa using hh
      subst this
      exact List.count_pos_iff.mpr (List.getElem_mem hj)
    rw [e2, e1]
    split_ifs with b1 b2 b3 b4 b5 b6 <;>
      first
        | omega
        | (have h21 := hcnti (by assumption); omega)
        | (have h22 := hcntj (by assumption); omega)
        | (have h21 := hcnti (by assumption)
           have h22 := hcntj (by assumption)
           omega)

theorem length_upH : ∀ (h : List (SResult α)) (j : Nat), (upH h j).length = h.length := by
  intro h j
  induction h, j using upH.induct with
  | case1 h j hij =>
    rw [upH, dif_pos hij]
  | case2 h j hij hl =>
    rw [upH, dif_neg hij, if_pos hl]
  | case3 h j hij hl ih =>
    rw [upH, dif_neg hij, if_neg hl]
    rw [ih, length_hSwap]

theorem upH_perm : ∀ (h : List (SResult α)) (j : Nat), j < h.length →
    (upH h j).Perm h := by
  intro h j
  induction h, j using upH.induct with
  | case1 h j hij =>
    intro hj
    rw [upH, dif_pos hij]
  | case2 h j hij hl =>
    intro hj
    rw [upH, dif_neg hij, if_pos hl]
  | case3 h j hij hl ih =>
    intro hj
    rw [upH, dif_neg hij, if_neg hl]
    have hp : parentIdx j < j := by
      unfold parentIdx at *
      omega
    have h1 : parentIdx j < (hSwap h (parentIdx j) j).length := by
      rw [length_hSwap]
      omega
    exact (ih h1).trans (hSwap_perm (by omega) hj)

theorem pickChild_facts (h : List (SResult α)) (i n : Nat) (hc : ¬ n ≤ 2 * i + 1) :
    pickChild h i n < n ∧ i < pickChild h i n ∧
      (pickChild h i n = 2 * i + 1 ∨ pickChild h i n = 2 * i + 2) := by
  unfold pickChild
  split
  · next hh => exact ⟨hh.1, by omega, Or.inr rfl⟩
  · exact ⟨by omega, by omega, Or.inl rfl⟩

theorem length_downH : ∀ (h : List (SResult α)) (i n : Nat),
    (downH h i n).length = h.length := by
  intro h i n
  induction h, i, n using downH.induct with
  | case1 h i n h1 =>
    rw [downH, dif_pos h1]
  | case2 h i n h1 hl =>
    rw [downH, dif_neg h1, if_pos hl]
  | case3 h i n h1 hl ih =>
    rw [downH, dif_neg h1, if_neg hl]
    rw [ih, length_hSwap]

theorem drop_set_outside {β : Type} (l : List β) (i n : Nat) (x : β) (h : i < n) :
    (l.set i x).drop n = l.drop n := by
  apply List.ext_getElem?
  intro m
  rw [List.getElem?_drop, List.getElem?_drop, List.getElem?_set_ne (by omega)]

theorem downH_drop : ∀ (h : List (SResult α)) (i n : Nat), i < n →
    (downH h i n).drop n = h.drop n := by
  intro h i n
  induction h, i, n using downH.induct with
  | case1 h i n h1 =>
    intro hin
    rw [downH, dif_pos h1]
  | case2 h i n h1 hl =>
    intro hin
    rw [downH, dif_neg h1, if_pos hl]
  | case3 h i n h1 hl ih =>
    intro hin
    obtain ⟨hcn, hci, hcval⟩ := pickChild_facts h i n h1
    rw [downH, dif_neg h1, if_neg hl, ih hcn]
    unfold hSwap
    rw [drop_set_outside _ _ _ _ hcn, drop_set_outside _ _ _ _ hin]

theorem downH_perm : ∀ (h : List (SResult α)) (i n : Nat), i < n → n ≤ h.length →
    (downH h i n).Perm h := by
  intro h i n
  induction h, i, n using downH.induct with
  | case1 h i n h1 =>
    intro hin hn
    rw [downH, dif_pos h1]
  | case2 h i n h1 hl =>
    intro hin hn
    rw [downH, dif_neg h1, if_pos hl]
  | case3 h i n h1 hl ih =>
    intro hin hn
    obtain ⟨hcn, hci, hcval⟩ := pickChild_facts h i n h1
    rw [downH, dif_neg h1, if_neg hl]
    have hlen : n ≤ (hSwap h i (pickChild h i n)).length := by
      rw [length_hSwap]
      exact hn
    exact (ih hcn hlen).trans (hSwap_perm (by omega) (by omega))

theorem perm_take_of_perm_drop {β : Type} [DecidableEq β] {l l' : List β} {n : Nat}
    (hp : l.Perm l') (hd : l.drop n = l'.drop n) :
    (l.take n).Perm (l'.take n) := by
  have h1 : ((l.take n) ++ (l.drop n)).Perm ((l'.take n) ++ (l'.drop n)) := by
    rw [List.take_append_drop, List.take_append_drop]
    exact hp
  rw [hd] at h1
  have h2 : (↑(l.take n) : Multiset β) + ↑(l'.drop n)
      = ↑(l'.take n) + ↑(l'.drop n) := by
    rw [Multiset.coe_add, Multiset.coe_add]
    exact Multiset.coe_eq_coe.mpr h1
  exact Multiset.coe_eq_coe.mp (add_right_cancel h2)

/-! #### The heap-order property and sift correctness -/

/-- Max-heap order on the length-`n` prefix: every non-root node is
dominated by its parent. -/
def IsHeap (h : List (SResult α)) (n : Nat) : Prop :=
  ∀ j, j < n → j ≠ 0 → (gIx h j).dist ≤ (gIx h (parentIdx j)).dist

theorem parentIdx_lt {j : Nat} (h : j ≠ 0) : parentIdx j < j := by
  unfold parentIdx
  omega

theorem parentIdx_eq_iff {i c : Nat} (hc : c ≠ 0) :
    parentIdx c = i ↔ (c = 2 * i + 1 ∨ c = 2 * i + 2) := by
  unfold parentIdx
  omega

theorem isHeap_root_max {h : List (SResult α)} {n : Nat} (hh : IsHeap h n) :
    ∀ j, j < n → (gIx h j).dist ≤ (gIx h 0).dist := by
  intro j
  induction j using Nat.strong_induction_on with
  | _ j ih =>
    intro hj
    by_cases hj0 : j = 0
    · subst hj0
      exact le_refl _
    · exact le_trans (hh j hj hj0)
        (ih (parentIdx j) (parentIdx_lt hj0) (lt_trans (parentIdx_lt hj0) hj))

/-- Invariant of the sift-up loop: the array is heap-ordered except possibly
at `j`, and `j`'s children are dominated by `j`'s parent. -/
def UpInv (h : List (SResult α)) (j : Nat) : Prop :=
  (∀ c, c < h.length → c ≠ 0 → c ≠ j →
    (gIx h c).dist ≤ (gIx h (parentIdx c)).dist) ∧
  (j ≠ 0 → ∀ c, c < h.length → c ≠ j → parentIdx c = j →
    (gIx h c).dist ≤ (gIx h (parentIdx j)).dist)

theorem upH_isHeap : ∀ (h : List (SResult α)) (j : Nat), j < h.length →
    UpInv h j → IsHeap (upH h j) h.length := by
  intro h j
  induction h, j using upH.induct with
  | case1 h j hij =>
    intro hj hinv
    rw [upH, dif_pos hij]
    have hj0 : j = 0 := by
      unfold parentIdx at hij
      omega
    subst hj0
    intro c hc hc0
    exact hinv.1 c hc hc0 hc0
  | case2 h j hij hl =>
    intro hj hinv
    rw [upH, dif_neg hij, if_pos hl]
    intro c hc hc0
    by_cases hcj : c = j
    · subst hcj
      unfold hLess at hl
      push_neg at hl
      exact hl
    · exact hinv.1 c hc hc0 hcj
  | case3 h j hij hl ih =>
    intro hj hinv
    rw [upH, dif_neg hij, if_neg hl]
    push_neg at hl
    unfold hLess at hl
    have hj0 : j ≠ 0 := by
      intro hh
      subst hh
      exact hij rfl
    have hp : parentIdx j < j := parentIdx_lt hj0
    have hlen : (hSwap h (parentIdx j) j).length = h.length := length_hSwap h _ j
    have hgp : gIx (hSwap h (parentIdx j) j) (parentIdx j) = gIx h j :=
      gIx_hSwap_left (by omega) (by omega)
    have hgj : gIx (hSwap h (parentIdx j) j) j = gIx h (parentIdx j) :=
      gIx_hSwap_right hj
    have hother : ∀ c, c ≠ parentIdx j → c ≠ j →
        gIx (hSwap h (parentIdx j) j) c = gIx h c := fun c h1 h2 =>
      gIx_hSwap_other h1 h2
    have harg : IsHeap (upH (hSwap h (parentIdx j) j) (parentIdx j))
        (hSwap h (parentIdx j) j).length := by
      apply ih (by omega)
      constructor
      · -- part 1 of the new invariant
        intro c hc hc0 hcp
        rw [hlen] at hc
        by_cases hcj : c = j
        · -- the edge (parentIdx j, j) now holds
          subst hcj
          rw [hgj, hgp]
          exact le_of_lt hl
        · by_cases hpcj : parentIdx c = j
          · -- children of j are bounded by the old parent of j
            have hcgtj : j < c := by
              have := parentIdx_lt hc0
              omega
            rw [hother c (by omega) hcj, hpcj, hgj]
            exact hinv.2 hj0 c hc hcj hpcj
          · by_cases hpcp : parentIdx c = parentIdx j
            · -- siblings of j are bounded by h[parentIdx j] < h[j]
              have hedge := hinv.1 c hc hc0 hcj
              rw [hpcp] at hedge
              rw [hother c hcp hcj, hpcp, hgp]
              exact le_trans hedge (le_of_lt hl)
            · -- untouched edges
              rw [hother c hcp hcj, hother (parentIdx c) hpcp hpcj]
              exact hinv.1 c hc hc0 hcj
      · -- part 2 of the new invariant
        intro hp0 c hc hcp hpcp
        rw [hlen] at hc
        have hqlt : parentIdx (parentIdx j) < parentIdx j := parentIdx_lt hp0
        have hqp : parentIdx (parentIdx j) ≠ parentIdx j := by omega
        have hqj : parentIdx (parentIdx j) ≠ j := by omega
        have hgq : gIx (hSwap h (parentIdx j) j) (parentIdx (parentIdx j))
            = gIx h (parentIdx (parentIdx j)) := gIx_hSwap_other hqp hqj
        have hpq : (gIx h (parentIdx j)).dist ≤ (gIx h (parentIdx (parentIdx j))).dist :=
          hinv.1 (parentIdx j) (by omega) hp0 (by omega)
        by_cases hcj : c = j
        · subst hcj
          rw [hgj, hgq]
          exact hpq
        · have hc0 : c ≠ 0 := by
            intro hh
            subst hh
            have : parentIdx 0 = 0 := rfl
            rw [this] at hpcp
            exact hp0 hpcp.symm
          have hedge := hinv.1 c hc hc0 hcj
          rw [hpcp] at hedge
          rw [hother c hcp hcj, hgq]
          exact le_trans hedge hpq
    rw [← hlen]
    exact harg

theorem gIx_append_left {h l' : List (SResult α)} {c : Nat} (hc : c < h.length) :
    gIx (h ++ l') c = gIx h c := getD_append_left h l' default c hc

theorem length_heapPush (h : List (SResult α)) (x : SResult α) :
    (heapPush h x).length = h.length + 1 := by
  rw [heapPush, length_upH]
  simp

theorem heapPush_perm (h : List (SResult α)) (x : SResult α) :
    (heapPush h x).Perm (h ++ [x]) :=
  upH_perm _ _ (by simp)

theorem heapPush_isHeap {h : List (SResult α)} (x : SResult α)
    (hh : IsHeap h h.length) : IsHeap (heapPush h x) (heapPush h x).length := by
  rw [length_heapPush]
  have hlen : (h ++ [x]).length = h.length + 1 := by simp
  have := upH_isHeap (h ++ [x]) h.length (by simp) ?inv
  · rw [hlen] at this
    exact this
  case inv =>
    constructor
    · intro c hc hc0 hcj
      rw [hlen] at hc
      have hclt : c < h.length := by omega
      have hplt : parentIdx c < h.length := lt_trans (parentIdx_lt hc0) hclt
      rw [gIx_append_left hclt, gIx_append_left hplt]
      exact hh c hclt hc0
    · intro hj0 c hc hcj hpc
      rw [hlen] at hc
      have hc0 : c ≠ 0 := by
        intro hh0
        subst hh0
        have : parentIdx 0 = 0 := rfl
        rw [this] at hpc
        exact hj0 hpc.symm
      have := (parentIdx_eq_iff hc0).mp hpc
      omega

/-- The selected child dominates every in-range child of `i`. -/
theorem pickChild_max {h : List (SResult α)} {i n : Nat} (hc : ¬ n ≤ 2 * i + 1) :
    ∀ j, j < n → j ≠ 0 → parentIdx j = i →
      (gIx h j).dist ≤ (gIx h (pickChild h i n)).dist := by
  intro j hj hj0 hpj
  have hjc := (parentIdx_eq_iff hj0).mp hpj
  unfold pickChild
  split
  · next hcond =>
    rcases hjc with hj1 | hj2
    · subst hj1
      exact le_of_lt hcond.2
    · subst hj2
      exact le_refl _
  · next hcond =>
    rcases hjc with hj1 | hj2
    · subst hj1
      exact le_refl _
    · subst hj2
      push_neg at hcond
      have := hcond (by omega)
      unfold hLess at this
      push_neg at this
      exact this

/-- Invariant of the sift-down loop: heap-ordered except at the edges from
`i` to its children, which are bounded by `i`'s parent. -/
def DownInv (h : List (SResult α)) (n i : Nat) : Prop :=
  (∀ c, c < n → c ≠ 0 → parentIdx c ≠ i →
    (gIx h c).dist ≤ (gIx h (parentIdx c)).dist) ∧
  (i ≠ 0 → ∀ c, c < n → c ≠ i → parentIdx c = i →
    (gIx h c).dist ≤ (gIx h (parentIdx i)).dist)

theorem downH_isHeap : ∀ (h : List (SResult α)) (i n : Nat), n ≤ h.length →
    DownInv h n i → IsHeap (downH h i n) n := by
  intro h i n
  induction h, i, n using downH.induct with
  | case1 h i n h1 =>
    intro hn hinv
    rw [downH, dif_pos h1]
    intro j hj hj0
    by_cases hpj : parentIdx j = i
    · have := (parentIdx_eq_iff hj0).mp hpj
      omega
    · exact hinv.1 j hj hj0 hpj
  | case2 h i n h1 hl =>
    intro hn hinv
    rw [downH, dif_neg h1, if_pos hl]
    unfold hLess at hl
    push_neg at hl
    intro j hj hj0
    by_cases hpj : parentIdx j = i
    · rw [hpj]
      exact le_trans (pickChild_max h1 j hj hj0 hpj) hl
    · exact hinv.1 j hj hj0 hpj
  | case3 h i n h1 hl ih =>
    intro hn hinv
    rw [downH, dif_neg h1, if_neg hl]
    push_neg at hl
    unfold hLess at hl
    obtain ⟨hcn, hci, hcval⟩ := pickChild_facts h i n h1
    have hc0 : pickChild h i n ≠ 0 := by omega
    have hpci : parentIdx (pickChild h i n) = i :=
      (parentIdx_eq_iff hc0).mpr hcval
    have hg_i : gIx (hSwap h i (pickChild h i n)) i = gIx h (pickChild h i n) :=
      gIx_hSwap_left (by omega) (by omega)
    have hg_c : gIx (hSwap h i (pickChild h i n)) (pickChild h i n) = gIx h i :=
      gIx_hSwap_right (by omega)
    have hother : ∀ c, c ≠ i → c ≠ pickChild h i n →
        gIx (hSwap h i (pickChild h i n)) c = gIx h c := fun c ha hb =>
      gIx_hSwap_other ha hb
    apply ih
    · rw [length_hSwap]
      exact hn
    constructor
    · -- part 1 for the new center
      intro c hc hc0 hpc
      by_cases hcc : c = pickChild h i n
      · -- the edge (i, pickChild) now holds
        subst hcc
        rw [hpci, hg_c, hg_i]
        exact le_of_lt hl
      · by_cases hcio : c = i
        · -- the edge (parentIdx i, i) still holds: new h[i] = old child value
          have hi0 : i ≠ 0 := by
            rw [← hcio]
            exact hc0
          have hplt : parentIdx i < i := parentIdx_lt hi0
          rw [hcio, hg_i, hother (parentIdx i) (by omega) (by omega)]
          exact hinv.2 hi0 (pickChild h i n) (by omega) (by omega) hpci
        · by_cases hpcio : parentIdx c = i
          · -- siblings of the chosen child
            rw [hother c hcio hcc, hpcio, hg_i]
            exact pickChild_max h1 c hc hc0 hpcio
          · -- untouched edges
            rw [hother c hcio hcc, hother (parentIdx c) hpcio hpc]
            exact hinv.1 c hc hc0 hpcio
    · -- part 2 for the new center
      intro _ c hc hcc hpc
      have hcgt : pickChild h i n < c := by
        have hc0' : c ≠ 0 := by
          intro hh
          subst hh
          have : parentIdx 0 = 0 := rfl
          rw [this] at hpc
          omega
        have := (parentIdx_eq_iff hc0').mp hpc
        omega
      rw [hpci, hother c (by omega) (by omega), hg_i]
      have hc0' : c ≠ 0 := by omega
      have hedge := hinv.1 c hc hc0' (by rw [hpc]; omega)
      rw [hpc] at hedge
      exact hedge

theorem getD_drop_zero {β : Type} (l : List β) (n : Nat) (d : β) :
    (l.drop n).getD 0 d = l.getD n d := by
  rw [List.getD_eq_getElem?_getD, List.getElem?_drop, Nat.add_zero,
    ← List.getD_eq_getElem?_getD]

theorem gIx_take {h : List (SResult α)} {n i : Nat} (hi : i < n) :
    gIx (h.take n) i = gIx h i := getD_take_lt h n i default hi

theorem heapPop_rest_length (h : List (SResult α)) (hne : h ≠ []) :
    (heapPop h).2.length = h.length - 1 := by
  unfold heapPop
  simp only [List.length_take, length_downH, length_hSwap]
  omega

theorem heapPop_top {h : List (SResult α)} (hne : h ≠ []) :
    (heapPop h).1 = gIx h 0 := by
  have hlen : 1 ≤ h.length := List.length_pos.mpr hne
  unfold heapPop
  simp only
  by_cases hn0 : h.length - 1 = 0
  · rw [hn0, hSwap_self (by omega), downH, dif_pos (by omega)]
    rfl
  · have hgd : (downH (hSwap h 0 (h.length - 1)) 0 (h.length - 1)).getD
        (h.length - 1) default
        = ((downH (hSwap h 0 (h.length - 1)) 0 (h.length - 1)).drop
            (h.length - 1)).getD 0 default := (getD_drop_zero _ _ _).symm
    rw [hgd, downH_drop _ _ _ (by omega), getD_drop_zero]
    exact gIx_hSwap_right (by omega)

theorem drop_last_singleton {β : Type} [Inhabited β] (l : List β) (hne : l ≠ []) :
    l.drop (l.length - 1) = [l.getD (l.length - 1) default] := by
  have hlen : 1 ≤ l.length := List.length_pos.mpr hne
  rw [List.drop_eq_getElem_cons (by omega : l.length - 1 < l.length)]
  have harg : l.length - 1 + 1 = l.length := by omega
  rw [harg, List.drop_length, getD_of_lt l default _ (by omega)]

theorem heapPop_perm {h : List (SResult α)} (hne : h ≠ []) :
    h.Perm ((heapPop h).1 :: (heapPop h).2) := by
  have hlen : 1 ≤ h.length := List.length_pos.mpr hne
  rw [heapPop_top hne]
  by_cases hn0 : h.length - 1 = 0
  · -- singleton heap
    have h1 : h.length = 1 := by omega
    obtain ⟨a, ha⟩ := List.length_eq_one.mp h1
    subst ha
    have hrl := heapPop_rest_length [a] hne
    rw [h1] at hrl
    have : (heapPop [a]).2 = [] := List.length_eq_zero.mp (by omega)
    rw [this]
    exact List.Perm.refl _
  · set n := h.length - 1 with hn
    have hswlen : (hSwap h 0 n).length = h.length := length_hSwap h 0 n
    have hperm1 : (hSwap h 0 n).Perm h := hSwap_perm (by omega) (by omega)
    have hd : (downH (hSwap h 0 n) 0 n).drop n = (hSwap h 0 n).drop n :=
      downH_drop _ _ _ (by omega)
    have hp2 : (downH (hSwap h 0 n) 0 n).Perm (hSwap h 0 n) :=
      downH_perm _ _ _ (by omega) (by omega)
    have htakeperm : ((downH (hSwap h 0 n) 0 n).take n).Perm ((hSwap h 0 n).take n) :=
      perm_take_of_perm_drop hp2 hd
    have hdropswap : (hSwap h 0 n).drop n = [gIx h 0] := by
      have hswne : hSwap h 0 n ≠ [] := by
        intro hh
        rw [hh] at hswlen
        simp at hswlen
        omega
      have := drop_last_singleton (hSwap h 0 n) hswne
      rw [hswlen] at this
      rw [this]
      congr 1
      exact gIx_hSwap_right (by omega)
    -- assemble: h ~ swap = take ++ drop = take ++ [root]
    have hassemble : (hSwap h 0 n).Perm (((heapPop h).2) ++ [gIx h 0]) := by
      conv_lhs => rw [← List.take_append_drop n (hSwap h 0 n)]
      rw [hdropswap]
      exact List.Perm.append_right _ htakeperm.symm
    have final : h.Perm (((heapPop h).2) ++ [gIx h 0]) :=
      hperm1.symm.trans hassemble
    exact final.trans List.perm_append_comm

theorem heapPop_isHeap {h : List (SResult α)} (hne : h ≠ [])
    (hh : IsHeap h h.length) :
    IsHeap (heapPop h).2 (heapPop h).2.length := by
  have hlen : 1 ≤ h.length := List.length_pos.mpr hne
  rw [heapPop_rest_length h hne]
  by_cases hn0 : h.length - 1 = 0
  · rw [hn0]
    intro j hj _
    omega
  · set n := h.length - 1 with hn
    have hinv : DownInv (hSwap h 0 n) n 0 := by
      constructor
      · intro c hc hc0 hpc
        have hplt : parentIdx c < c := parentIdx_lt hc0
        rw [gIx_hSwap_other hc0 (by omega), gIx_hSwap_other hpc (by omega)]
        exact hh c (by omega) hc0
      · intro h0
        exact absurd rfl h0
    have hih := downH_isHeap (hSwap h 0 n) 0 n (by rw [length_hSwap]; omega) hinv
    intro j hj hj0
    have hjlt : parentIdx j < j := parentIdx_lt hj0
    unfold heapPop
    simp only
    rw [gIx_take (by omega), gIx_take (by omega)]
    exact hih j hj hj0

theorem heapPop_root_max {h : List (SResult α)} (hne : h ≠ [])
    (hh : IsHeap h h.length) :
    ∀ y ∈ h, y.dist ≤ (heapPop h).1.dist := by
  intro y hy
  rw [heapPop_top hne]
  obtain ⟨j, hj, hgd⟩ := (mem_iff_getD (default : SResult α)).mp hy
  have := isHeap_root_max hh j hj
  rw [← hgd]
  exact this

/-- Final extraction: pop repeatedly into descending slots, i.e. the reversed
pop order — ascending distances. -/
def drainH (h : List (SResult α)) : List (SResult α) :=
  if hne : h = [] then []
  else drainH (heapPop h).2 ++ [(heapPop h).1]
termination_by h.length
decreasing_by
  rw [heapPop_rest_length h hne]
  have : 1 ≤ h.length := List.length_pos.mpr hne
  omega

theorem drainH_perm : ∀ h : List (SResult α), (drainH h).Perm h := by
  intro h
  induction h using drainH.induct with
  | case1 =>
    rw [drainH, dif_pos rfl]
  | case2 h hne ih =>
    rw [drainH, dif_neg hne]
    have h1 : ((drainH (heapPop h).2) ++ [(heapPop h).1]).Perm
        ((heapPop h).2 ++ [(heapPop h).1]) := List.Perm.append_right _ ih
    have h2 : ((heapPop h).2 ++ [(heapPop h).1]).Perm ((heapPop h).1 :: (heapPop h).2) :=
      List.perm_append_comm
    exact (h1.trans h2).trans (heapPop_perm hne).symm

theorem length_drainH (h : List (SResult α)) : (drainH h).length = h.length :=
  (drainH_perm h).length_eq

theorem drainH_sorted : ∀ h : List (SResult α), IsHeap h h.length →
    List.Pairwise (fun x y : SResult α => x.dist ≤ y.dist) (drainH h) := by
  intro h
  induction h using drainH.induct with
  | case1 =>
    intro _
    rw [drainH, dif_pos rfl]
    exact List.Pairwise.nil
  | case2 h hne ih =>
    intro hh
    rw [drainH, dif_neg hne]
    rw [List.pairwise_append]
    refine ⟨ih (heapPop_isHeap hne hh), List.pairwise_singleton _ _, ?_⟩
    intro x hx y hy
    have hy' : y = (heapPop h).1 := by simpa using hy
    subst hy'
    have hxrest : x ∈ (heapPop h).2 := (drainH_perm _).mem_iff.mp hx
    have hxh : x ∈ h := (heapPop_perm hne).mem_iff.mpr (List.mem_cons_of_mem _ hxrest)
    exact heapPop_root_max hne hh x hxh

/-! #### Bounded top-k selection -/

/-- `sel` is a valid top-`k` selection from `pool`: a sub-multiset of the
right size all of whose members are no farther than anything left behind
(ties broken arbitrarily). -/
def IsTopK (k : Nat) (pool sel : Multiset (SResult α)) : Prop :=
  sel ≤ pool ∧ Multiset.card sel = min k (Multiset.card pool) ∧
  ∀ x ∈ pool - sel, ∀ y ∈ sel, y.dist ≤ x.dist

theorem isTopK_empty (k : Nat) : IsTopK k (0 : Multiset (SResult α)) 0 := by
  refine ⟨le_refl _, by simp, ?_⟩
  intro x hx
  simp at hx

theorem pushBounded_topk {k : Nat} (hk : 1 ≤ k) {cs : Multiset (SResult α)}
    {h : List (SResult α)} (hheap : IsHeap h h.length)
    (htop : IsTopK k cs (↑h : Multiset (SResult α))) (x : SResult α) :
    IsHeap (pushBounded k h x) (pushBounded k h x).length ∧
    IsTopK k (x ::ₘ cs) (↑(pushBounded k h x) : Multiset (SResult α)) := by
  obtain ⟨hle, hcard, hbound⟩ := htop
  have hcards : Multiset.card (↑h : Multiset (SResult α)) = h.length := by simp
  unfold pushBounded
  by_cases h1 : h.length < k
  · rw [if_pos h1]
    have hpm : (↑(heapPush h x) : Multiset (SResult α)) = x ::ₘ ↑h := by
      rw [Multiset.coe_eq_coe.mpr (heapPush_perm h x), ← Multiset.coe_add]
      rw [show ((↑[x] : Multiset (SResult α)) = {x}) from rfl]
      rw [add_comm, Multiset.singleton_add]
    have hfull : cs = ↑h := by
      symm
      apply Multiset.eq_of_le_of_card_le hle
      rw [hcards]
      omega
    refine ⟨heapPush_isHeap x hheap, ?_, ?_, ?_⟩
    · rw [hpm, hfull]
    · rw [hpm, hfull]
      simp only [Multiset.card_cons, Multiset.coe_card]
      omega
    · intro z hz y _
      rw [hpm, hfull] at hz
      have hzero : x ::ₘ (↑h : Multiset (SResult α)) - (x ::ₘ ↑h) = 0 := by simp
      rw [hzero] at hz
      simp at hz
  · rw [if_neg h1]
    push_neg at h1
    have hne : h ≠ [] := by
      intro hh
      rw [hh] at h1
      simp at h1
      omega
    have hkcs : k ≤ Multiset.card cs := by
      by_contra hcc
      push_neg at hcc
      rw [min_eq_right (by omega)] at hcard
      rw [hcards] at hcard
      omega
    have hlek : h.length = k := by
      rw [hcards, min_eq_left (by omega)] at hcard
      omega
    have hpop := heapPop_perm hne
    have hpopm : (↑h : Multiset (SResult α)) = (heapPop h).1 ::ₘ ↑(heapPop h).2 := by
      have := Multiset.coe_eq_coe.mpr hpop
      simpa using this
    have hrest_le : (↑(heapPop h).2 : Multiset (SResult α)) ≤ ↑h := by
      rw [hpopm]
      exact Multiset.le_cons_self _ _
    have hrootmax := heapPop_root_max hne hheap
    by_cases h2 : x.dist < (gIx h 0).dist
    · rw [if_pos h2]
      rw [← heapPop_top hne] at h2
      have hpm : (↑(heapPush (heapPop h).2 x) : Multiset (SResult α))
          = x ::ₘ ↑(heapPop h).2 := by
        rw [Multiset.coe_eq_coe.mpr (heapPush_perm _ x), ← Multiset.coe_add]
        rw [show ((↑[x] : Multiset (SResult α)) = {x}) from rfl]
        rw [add_comm, Multiset.singleton_add]
      have hrheap := heapPop_isHeap hne hheap
      refine ⟨heapPush_isHeap x hrheap, ?_, ?_, ?_⟩
      · rw [hpm]
        exact Multiset.cons_le_cons x (le_trans hrest_le hle)
      · rw [hpm]
        simp only [Multiset.card_cons, Multiset.coe_card]
        rw [heapPop_rest_length h hne]
        have hcs1 : min k (Multiset.card (x ::ₘ cs)) = k := by
          rw [Multiset.card_cons]
          omega
        rw [Multiset.card_cons] at hcs1
        rw [hcs1]
        omega
      · intro z hz y hy
        rw [hpm] at hz hy
        rw [Multiset.sub_cons, Multiset.erase_cons_head] at hz
        -- z is either the popped maximum or an old leftover
        have hz' : z ∈ ((heapPop h).1 ::ₘ (cs - ↑h)) := by
          have hsub : cs - ↑(heapPop h).2 ≤ (heapPop h).1 ::ₘ (cs - ↑h) := by
            rw [tsub_le_iff_right]
            have e1 : ((heapPop h).1 ::ₘ (cs - ↑h)) + ↑(heapPop h).2
                = (cs - ↑h) + ↑h := by
              set m := cs - (↑h : Multiset (SResult α)) with hm
              rw [hpopm, ← Multiset.singleton_add, ← Multiset.singleton_add]
              abel
            rw [e1]
            exact le_tsub_add
          exact Multiset.mem_of_le hsub hz
        rcases Multiset.mem_cons.mp hz' with hz1 | hz1
        · -- z is the popped root
          subst hz1
          rcases Multiset.mem_cons.mp hy with hy1 | hy1
          · subst hy1
            exact le_of_lt h2
          · have : y ∈ h := by
              rw [← Multiset.mem_coe, hpopm]
              exact Multiset.mem_cons_of_mem hy1
            exact hrootmax y this
        · -- z was already a leftover of the old selection
          rcases Multiset.mem_cons.mp hy with hy1 | hy1
          · subst hy1
            have htopmem : (heapPop h).1 ∈ (↑h : Multiset (SResult α)) := by
              rw [hpopm]
              exact Multiset.mem_cons_self _ _
            exact le_of_lt (lt_of_lt_of_le h2 (hbound z hz1 _ htopmem))
          · have hymem : y ∈ (↑h : Multiset (SResult α)) := by
              rw [hpopm]
              exact Multiset.mem_cons_of_mem hy1
            exact hbound z hz1 y hymem
    · rw [if_neg h2]
      push_neg at h2
      refine ⟨hheap, ?_, ?_, ?_⟩
      · exact le_trans hle (Multiset.le_cons_self _ _)
      · rw [hcards, hlek]
        rw [Multiset.card_cons]
        omega
      · intro z hz y hy
        have hz' : z ∈ x ::ₘ (cs - ↑h) := by
          have hsub : (x ::ₘ cs) - ↑h ≤ x ::ₘ (cs - ↑h) := by
            rw [tsub_le_iff_right, ← Multiset.singleton_add, ← Multiset.singleton_add,
              add_assoc]
            exact add_le_add_left le_tsub_add _
          exact Multiset.mem_of_le hsub hz
        rcases Multiset.mem_cons.mp hz' with hz1 | hz1
        · subst hz1
          -- everything retained is at most the root, which is at most x
          have hroot : (gIx h 0) ∈ (↑h : Multiset (SResult α)) := by
            rw [← heapPop_top hne, hpopm]
            exact Multiset.mem_cons_self _ _
          have hymem : y ∈ h := hy
          obtain ⟨j, hj, hgd⟩ := (mem_iff_getD (default : SResult α)).mp hymem
          have hroot2 := isHeap_root_max hheap j hj
          rw [← hgd]
          exact le_trans hroot2 h2
        · exact hbound z hz1 y hy

theorem foldl_pushBounded_topk {k : Nat} (hk : 1 ≤ k) :
    ∀ (cs : List (SResult α)) (h : List (SResult α)) (seen : Multiset (SResult α)),
      IsHeap h h.length → IsTopK k seen ↑h →
      IsHeap (cs.foldl (pushBounded k) h) (cs.foldl (pushBounded k) h).length ∧
      IsTopK k (seen + (↑cs : Multiset (SResult α)))
        (↑(cs.foldl (pushBounded k) h) : Multiset (SResult α)) := by
  intro cs
  induction cs with
  | nil =>
    intro h seen hh ht
    simp only [List.foldl_nil]
    refine ⟨hh, ?_⟩
    have : seen + (↑([] : List (SResult α)) : Multiset (SResult α)) = seen := by
      simp
    rw [this]
    exact ht
  | cons x cs ih =>
    intro h seen hh ht
    simp only [List.foldl_cons]
    obtain ⟨hh', ht'⟩ := pushBounded_topk hk hh ht x
    have hres := ih (pushBounded k h x) (x ::ₘ seen) hh' ht'
    have he : seen + (↑(x :: cs) : Multiset (SResult α)) = (x ::ₘ seen) + ↑cs := by
      rw [← Multiset.cons_coe, ← Multiset.singleton_add, ← Multiset.singleton_add]
      abel
    rw [he]
    exact hres

/-- Replacing the pool by a superset whose k best were already selected
preserves being a valid top-k. -/
theorem isTopK_trans {k : Nat} {A S B T : Multiset (SResult α)}
    (h1 : IsTopK k A S) (h2 : IsTopK k (S + B) T) : IsTopK k (A + B) T := by
  obtain ⟨hS_le, hS_card, hS_bd⟩ := h1
  obtain ⟨hT_le, hT_card, hT_bd⟩ := h2
  have hcard_mono : Multiset.card (S + B) ≤ Multiset.card (A + B) := by
    simp only [Multiset.card_add]
    have := Multiset.card_le_card hS_le
    omega
  refine ⟨le_trans hT_le (add_le_add_right hS_le _), ?_, ?_⟩
  · rcases le_or_lt k (Multiset.card (S + B)) with hc | hc
    · rw [min_eq_left hc] at hT_card
      rw [min_eq_left (by omega), hT_card]
    · have hSfull : S = A := by
        have hcS : Multiset.card S < k := by
          have := Multiset.card_le_card (Multiset.le_add_right S B)
          omega
        have hSA := Multiset.card_le_card hS_le
        have hcc : Multiset.card S = Multiset.card A := by omega
        exact Multiset.eq_of_le_of_card_le hS_le (le_of_eq hcc.symm)
      rw [← hSfull]
      exact hT_card
  · intro z hz y hy
    have hdecomp : (A + B) - T = (A - S) + ((S + B) - T) := by
      have hA : A = (A - S) + S := (tsub_add_cancel_of_le hS_le).symm
      calc (A + B) - T = ((A - S) + (S + B)) - T := by
            conv_lhs => rw [hA]
            rw [add_assoc]
        _ = (A - S) + ((S + B) - T) := add_tsub_assoc_of_le hT_le _
    rw [hdecomp] at hz
    rcases Multiset.mem_add.mp hz with hzA | hzSB
    · -- z is a pool element never offered to the merge
      have hzS : ∀ w ∈ S, w.dist ≤ z.dist := fun w hw => hS_bd z hzA w hw
      by_cases hST : S ≤ T
      · have hcSk : Multiset.card S = k := by
          by_contra hne
          have hSA0 := Multiset.card_le_card hS_le
          have hcc : Multiset.card S = Multiset.card A := by omega
          have hSA : S = A := Multiset.eq_of_le_of_card_le hS_le (le_of_eq hcc.symm)
          rw [hSA] at hzA
          simp at hzA
        have hSeqT : S = T := by
          apply Multiset.eq_of_le_of_card_le hST
          have hTk : Multiset.card T ≤ k := by
            rw [hT_card]
            exact min_le_left _ _
          omega
        exact hzS y (hSeqT ▸ hy)
      · rw [Multiset.le_iff_count] at hST
        push_neg at hST
        obtain ⟨a, ha⟩ := hST
        have haST : a ∈ S - T := by
          rw [← Multiset.count_pos, Multiset.count_sub]
          omega
        have haSB : a ∈ (S + B) - T :=
          Multiset.mem_of_le (tsub_le_tsub_right (Multiset.le_add_right S B) T) haST
        have haS : a ∈ S := Multiset.mem_of_le tsub_le_self haST
        exact le_trans (hT_bd a haSB y hy) (hzS a haS)
    · exact hT_bd z hzSB y hy

/-- Iterated composition over a list of (pool, selection) pairs. -/
theorem isTopK_compose_list {k : Nat} :
    ∀ (ws : List (Multiset (SResult α) × Multiset (SResult α)))
      (C T : Multiset (SResult α)),
      (∀ p ∈ ws, IsTopK k p.1 p.2) →
      IsTopK k ((ws.map Prod.snd).sum + C) T →
      IsTopK k ((ws.map Prod.fst).sum + C) T := by
  intro ws
  induction ws with
  | nil =>
    intro C T _ h
    simpa using h
  | cons p ws ih =>
    intro C T hall hT
    have e1 : ((p :: ws).map Prod.snd).sum + C = (ws.map Prod.snd).sum + (p.2 + C) := by
      simp only [List.map_cons, List.sum_cons]
      abel
    rw [e1] at hT
    have hTail := ih (p.2 + C) T (fun q hq => hall q (List.mem_cons_of_mem _ hq)) hT
    have e2 : (ws.map Prod.fst).sum + (p.2 + C) = p.2 + ((ws.map Prod.fst).sum + C) := by
      abel
    rw [e2] at hTail
    have hHead := isTopK_trans (hall p (List.mem_cons_self _ _)) hTail
    have e3 : p.1 + ((ws.map Prod.fst).sum + C) = ((p :: ws).map Prod.fst).sum + C := by
      simp only [List.map_cons, List.sum_cons]
      abel
    rw [e3] at hHead
    exact hHead

end HeapMachinery

/-! ### Parallel k-NN search (store.go `Search` / `SearchCosine`)

Goroutines synchronised by a WaitGroup compute independent worker results;
the sequential model runs the workers in index order, which produces the
same `workerResults` array as the parallel code.  `nw` stands for
`runtime.GOMAXPROCS(0)` (any value ≥ 1). -/

section SearchPipeline

variable {α : Type} [LinearOrder α] [Inhabited α] [DecidableEq α]

/-- Candidate for row `i` of a shard: `(ids[i], df(query, data[i*dim:(i+1)*dim]))`. -/
def rowCand (df : List ℚ → List ℚ → α) (query : List ℚ) (dim : Nat)
    (sh : Shard) (i : Nat) : SResult α :=
  ⟨sh.ids.getD i default, df query ((sh.data.drop (i * dim)).take dim)⟩

/-- The candidate stream a scan of one shard produces, in row order. -/
def shardCands (df : List ℚ → List ℚ → α) (query : List ℚ) (dim : Nat)
    (sh : Shard) : List (SResult α) :=
  (List.range sh.ids.length).map (rowCand df query dim sh)

/-- Shard indices assigned to worker `w`:
`start := w*spw; end := min(16, start+spw)` with `spw = ⌈16/nWorkers⌉`. -/
def workerShards (nWorkers w : Nat) : List Nat :=
  List.range' (w * ((numShards + nWorkers - 1) / nWorkers))
    (min numShards (w * ((numShards + nWorkers - 1) / nWorkers)
        + (numShards + nWorkers - 1) / nWorkers)
      - w * ((numShards + nWorkers - 1) / nWorkers))

/-- Worker `w`'s local bounded max-heap after scanning its shards. -/
def workerHeap (df : List ℚ → List ℚ → α) (nWorkers : Nat) (s : VectorStore)
    (query : List ℚ) (k w : Nat) : List (SResult α) :=
  (workerShards nWorkers w).foldl
    (fun h si =>
      (shardCands df query s.dimension (s.shards.getD si default)).foldl
        (pushBounded k) h)
    []

/-- Worker `w`'s result list, drained in ascending distance order. -/
def workerRes (df : List ℚ → List ℚ → α) (nWorkers : Nat) (s : VectorStore)
    (query : List ℚ) (k w : Nat) : List (SResult α) :=
  drainH (workerHeap df nWorkers s query k w)

/-- The single-threaded merge of all worker results into the final heap. -/
def mergeHeap (df : List ℚ → List ℚ → α) (nWorkers : Nat) (s : VectorStore)
    (query : List ℚ) (k : Nat) : List (SResult α) :=
  (List.range nWorkers).foldl
    (fun fh w => (workerRes df nWorkers s query k w).foldl (pushBounded k) fh)
    []

/-- The generic search pipeline shared by `Search` and `SearchCosine`:
dimension check, `k ≤ 0` guard, worker cap at 16, scan, merge, drain. -/
def SearchG (df : List ℚ → List ℚ → α) (nw : Nat) (s : VectorStore)
    (query : List ℚ) (k : Int) : Except VErr (List (SResult α)) :=
  if query.length ≠ s.dimension then .error .dimensionMismatch
  else if k ≤ 0 then .ok []
  else .ok (drainH (mergeHeap df (if nw > numShards then numShards else nw)
    s query k.toNat))

/-- The multiset of candidates a single shard contributes. -/
def shardPool (df : List ℚ → List ℚ → α) (query : List ℚ) (dim : Nat)
    (sh : Shard) : Multiset (SResult α) :=
  ↑(shardCands df query dim sh)

/-- The full candidate pool: one entry per resident vector. -/
def storePool (df : List ℚ → List ℚ → α) (s : VectorStore) (query : List ℚ) :
    Multiset (SResult α) :=
  ((List.range numShards).map
    (fun si => shardPool df query s.dimension (s.shards.getD si default))).sum

/-- Folding bounded pushes of a family of candidate lists accumulates a
valid top-k of their combined pool. -/
theorem foldl_lists_topk {k : Nat} (hk : 1 ≤ k) {β : Type}
    (f : β → List (SResult α)) :
    ∀ (xs : List β) (h : List (SResult α)) (seen : Multiset (SResult α)),
      IsHeap h h.length → IsTopK k seen ↑h →
      IsHeap (xs.foldl (fun acc x => (f x).foldl (pushBounded k) acc) h)
        (xs.foldl (fun acc x => (f x).foldl (pushBounded k) acc) h).length ∧
      IsTopK k (seen + (xs.map (fun x => (↑(f x) : Multiset (SResult α)))).sum)
        (↑(xs.foldl (fun acc x => (f x).foldl (pushBounded k) acc) h) :
          Multiset (SResult α)) := by
  intro xs
  induction xs with
  | nil =>
    intro h seen hh ht
    simp only [List.foldl_nil, List.map_nil, List.sum_nil, add_zero]
    exact ⟨hh, ht⟩
  | cons x xs ih =>
    intro h seen hh ht
    simp only [List.foldl_cons, List.map_cons, List.sum_cons]
    obtain ⟨hh', ht'⟩ := foldl_pushBounded_topk hk (f x) h seen hh ht
    have hres := ih ((f x).foldl (pushBounded k) h) (seen + ↑(f x)) hh' ht'
    have he : seen + ((↑(f x) : Multiset (SResult α))
        + (xs.map (fun x => (↑(f x) : Multiset (SResult α)))).sum)
        = (seen + ↑(f x)) + (xs.map (fun x => (↑(f x) : Multiset (SResult α)))).sum := by
      abel
    rw [he]
    exact hres

/-- The per-worker contiguous ranges cover exactly the 16 shard indices. -/
theorem workerShards_cover {nW : Nat} (h1 : 1 ≤ nW) (h2 : nW ≤ numShards) :
    ((List.range nW).map (workerShards nW)).flatten = List.range numShards := by
  have hspw1 : 1 ≤ (numShards + nW - 1) / nW := by
    apply (Nat.le_div_iff_mul_le (by omega)).mpr
    simp only [numShards]
    omega
  have hcover : numShards ≤ nW * ((numShards + nW - 1) / nW) := by
    have hd := Nat.div_add_mod (numShards + nW - 1) nW
    have hm := Nat.mod_lt (numShards + nW - 1) (by omega : 0 < nW)
    simp only [numShards] at *
    omega
  have key : ∀ m, m ≤ nW →
      ((List.range m).map (workerShards nW)).flatten
        = List.range' 0 (min numShards (m * ((numShards + nW - 1) / nW))) := by
    intro m
    induction m with
    | zero =>
      intro _
      simp
    | succ m ihm =>
      intro hm
      rw [List.range_succ, List.map_append, List.flatten_append, ihm (by omega)]
      simp only [List.map_cons, List.map_nil, List.flatten_cons, List.flatten_nil,
        List.append_nil]
      unfold workerShards
      rcases Nat.lt_or_ge (m * ((numShards + nW - 1) / nW)) numShards with hlt | hge
      · have hmin1 : min numShards (m * ((numShards + nW - 1) / nW))
            = m * ((numShards + nW - 1) / nW) := by omega
        rw [hmin1]
        have := List.range'_append 0 (m * ((numShards + nW - 1) / nW))
          (min numShards (m * ((numShards + nW - 1) / nW)
            + (numShards + nW - 1) / nW) - m * ((numShards + nW - 1) / nW)) 1
        simp only [one_mul, zero_add] at this
        rw [this]
        congr 1
        have hsucc : (m + 1) * ((numShards + nW - 1) / nW)
            = m * ((numShards + nW - 1) / nW) + (numShards + nW - 1) / nW := by ring
        omega
      · have hmin1 : min numShards (m * ((numShards + nW - 1) / nW)) = numShards := by
          omega
        have hempty : min numShards (m * ((numShards + nW - 1) / nW)
            + (numShards + nW - 1) / nW) - m * ((numShards + nW - 1) / nW) = 0 := by
          omega
        rw [hmin1, hempty]
        simp only [List.range'_zero, List.append_nil]
        congr 1
        have hsucc : (m + 1) * ((numShards + nW - 1) / nW)
            = m * ((numShards + nW - 1) / nW) + (numShards + nW - 1) / nW := by ring
        omega
  have := key nW (le_refl _)
  rw [this]
  have hmin : min numShards (nW * ((numShards + nW - 1) / nW)) = numShards := by
    omega
  rw [hmin, List.range_eq_range']

/-- The worker pools sum to the full store pool. -/
theorem workerPools_sum (df : List ℚ → List ℚ → α) (s : VectorStore)
    (query : List ℚ) {nW : Nat} (h1 : 1 ≤ nW) (h2 : nW ≤ numShards) :
    ((List.range nW).map (fun w =>
      ((workerShards nW w).map (fun si =>
        shardPool df query s.dimension (s.shards.getD si default))).sum)).sum
      = storePool df s query := by
  unfold storePool
  rw [← workerShards_cover h1 h2]
  rw [List.map_flatten, List.sum_flatten, List.map_map, List.map_map]
  rfl

/-- Main correctness of the generic pipeline: success plus a sorted valid
top-k of the full pool. -/
theorem searchG_spec (df : List ℚ → List ℚ → α) {s : VectorStore} {nw : Nat}
    (hnw : 1 ≤ nw) {query : List ℚ} (hq : query.length = s.dimension) {k : Int}
    (hk : 1 ≤ k) :
    SearchG df nw s query k
      = .ok (drainH (mergeHeap df (if nw > numShards then numShards else nw)
          s query k.toNat)) ∧
    IsTopK k.toNat (storePool df s query)
      (↑(drainH (mergeHeap df (if nw > numShards then numShards else nw)
          s query k.toNat)) : Multiset (SResult α)) ∧
    List.Pairwise (fun x y : SResult α => x.dist ≤ y.dist)
      (drainH (mergeHeap df (if nw > numShards then numShards else nw)
        s query k.toNat)) := by
  have hkn : 1 ≤ k.toNat := by omega
  set nW := if nw > numShards then numShards else nw with hnW
  have hnW1 : 1 ≤ nW := by
    rw [hnW]
    split
    · simp [numShards]
    · omega
  have hnW2 : nW ≤ numShards := by
    rw [hnW]
    split
    · exact le_refl _
    · omega
  have hok : SearchG df nw s query k
      = .ok (drainH (mergeHeap df nW s query k.toNat)) := by
    unfold SearchG
    rw [if_neg (by omega), if_neg (by omega)]
  -- per-worker correctness
  have hworker : ∀ w, IsHeap (workerHeap df nW s query k.toNat w)
        (workerHeap df nW s query k.toNat w).length ∧
      IsTopK k.toNat
        (((workerShards nW w).map (fun si =>
          shardPool df query s.dimension (s.shards.getD si default))).sum)
        (↑(workerHeap df nW s query k.toNat w) : Multiset (SResult α)) := by
    intro w
    obtain ⟨hh, ht⟩ := foldl_lists_topk hkn
      (fun si => shardCands df query s.dimension (s.shards.getD si default))
      (workerShards nW w) [] 0 (by intro j hj _; simp at hj) (isTopK_empty _)
    rw [zero_add] at ht
    exact ⟨hh, ht⟩
  have hworkerRes : ∀ w,
      (↑(workerRes df nW s query k.toNat w) : Multiset (SResult α))
        = ↑(workerHeap df nW s query k.toNat w) := by
    intro w
    exact Multiset.coe_eq_coe.mpr (drainH_perm _)
  -- merge correctness over the worker-result multisets
  obtain ⟨hmheap, hmtop⟩ := foldl_lists_topk hkn (workerRes df nW s query k.toNat)
    (List.range nW) [] 0 (by intro j hj _; simp at hj) (isTopK_empty _)
  rw [zero_add] at hmtop
  have hmheap' : IsHeap (mergeHeap df nW s query k.toNat)
      (mergeHeap df nW s query k.toNat).length := hmheap
  have hmtop' : IsTopK k.toNat
      (((List.range nW).map (fun w =>
        (↑(workerRes df nW s query k.toNat w) : Multiset (SResult α)))).sum)
      (↑(mergeHeap df nW s query k.toNat) : Multiset (SResult α)) := hmtop
  -- swap worker selections for worker pools
  have hcompose := isTopK_compose_list
    ((List.range nW).map (fun w =>
      (((workerShards nW w).map (fun si =>
          shardPool df query s.dimension (s.shards.getD si default))).sum,
        (↑(workerRes df nW s query k.toNat w) : Multiset (SResult α)))))
    0 (↑(mergeHeap df nW s query k.toNat) : Multiset (SResult α))
    (by
      intro p hp
      rw [List.mem_map] at hp
      obtain ⟨w, _, hweq⟩ := hp
      subst hweq
      simp only
      rw [hworkerRes w]
      exact (hworker w).2)
    (by
      rw [List.map_map, add_zero]
      exact hmtop')
  rw [List.map_map, add_zero] at hcompose
  have hpools : ((List.range nW).map
      ((fun p : Multiset (SResult α) × Multiset (SResult α) => p.1) ∘ fun w =>
        (((workerShards nW w).map (fun si =>
          shardPool df query s.dimension (s.shards.getD si default))).sum,
          (↑(workerRes df nW s query k.toNat w) : Multiset (SResult α))))).sum
      = storePool df s query := by
    have : ((fun p : Multiset (SResult α) × Multiset (SResult α) => p.1) ∘ fun w =>
        (((workerShards nW w).map (fun si =>
          shardPool df query s.dimension (s.shards.getD si default))).sum,
          (↑(workerRes df nW s query k.toNat w) : Multiset (SResult α))))
        = fun w => ((workerShards nW w).map (fun si =>
          shardPool df query s.dimension (s.shards.getD si default))).sum := rfl
    rw [this]
    exact workerPools_sum df s query hnW1 hnW2
  rw [hpools] at hcompose
  -- transfer to the drained output
  have hdrainm : (↑(drainH (mergeHeap df nW s query k.toNat)) : Multiset (SResult α))
      = ↑(mergeHeap df nW s query k.toNat) :=
    Multiset.coe_eq_coe.mpr (drainH_perm _)
  refine ⟨hok, ?_, ?_⟩
  · rw [hdrainm]
    exact hcompose
  · exact drainH_sorted _ hmheap'

end SearchPipeline

/-- `SearchSq`: the Euclidean search pipeline on squared distances, i.e.
store.go `Search` up to (but not including) the final `sqrt32` applied to
each drained result — the square root leaves `ℚ`, see `Search` below. -/
def SearchSq (nw : Nat) (s : VectorStore) (query : List ℚ) (k : Int) :
    Except VErr (List (SResult ℚ)) :=
  SearchG EuclideanDistanceSquared nw s query k

/-- store.go `Search`: squared-distance pipeline, then `sqrt32` on every
returned distance during the final extraction. -/
noncomputable def Search (nw : Nat) (s : VectorStore) (query : List ℚ) (k : Int) :
    Except VErr (List (SResult ℝ)) :=
  (SearchSq nw s query k).map (List.map (fun r => ⟨r.id, Real.sqrt (r.dist : ℝ)⟩))

/-- store.go `SearchCosine`: the same pipeline with `CosineDistance` and no
post-processing. -/
noncomputable def SearchCosine (nw : Nat) (s : VectorStore) (query : List ℚ)
    (k : Int) : Except VErr (List (SResult ℝ)) :=
  SearchG CosineDistance nw s query k

/-! ### Fueled computation mirrors

The sift loops are defined by well-founded recursion, which the kernel does
not unfold during `decide`.  These structurally recursive mirrors compute
the same functions (proved below) so that concrete scenarios can be settled
by evaluation. -/

section FueledMirrors

variable {α : Type} [LinearOrder α] [Inhabited α] [DecidableEq α]

def upHFuel : Nat → List (SResult α) → Nat → List (SResult α)
  | 0, h, _ => h
  | fuel + 1, h, j =>
    if parentIdx j = j then h
    else if ¬ hLess h j (parentIdx j) then h
    else upHFuel fuel (hSwap h (parentIdx j) j) (parentIdx j)

theorem upHFuel_eq : ∀ (fuel : Nat) (h : List (SResult α)) (j : Nat), j < fuel →
    upHFuel fuel h j = upH h j := by
  intro fuel
  induction fuel with
  | zero =>
    intro h j hj
    omega
  | succ fuel ih =>
    intro h j hj
    rw [upH]
    show (if parentIdx j = j then h
      else if ¬ hLess h j (parentIdx j) then h
      else upHFuel fuel (hSwap h (parentIdx j) j) (parentIdx j)) = _
    by_cases h1 : parentIdx j = j
    · rw [if_pos h1, dif_pos h1]
    · rw [if_neg h1, dif_neg h1]
      by_cases h2 : ¬ hLess h j (parentIdx j)
      · rw [if_pos h2, if_pos h2]
      · rw [if_neg h2, if_neg h2]
        have hj0 : j ≠ 0 := by
          intro hh
          subst hh
          exact h1 rfl
        exact ih _ _ (by have := parentIdx_lt hj0; omega)

def downHFuel : Nat → List (SResult α) → Nat → Nat → List (SResult α)
  | 0, h, _, _ => h
  | fuel + 1, h, i, n =>
    if n ≤ 2 * i + 1 then h
    else if ¬ hLess h (pickChild h i n) i then h
    else downHFuel fuel (hSwap h i (pickChild h i n)) (pickChild h i n) n

theorem downHFuel_eq : ∀ (fuel : Nat) (h : List (SResult α)) (i n : Nat),
    n - i ≤ fuel → downHFuel fuel h i n = downH h i n := by
  intro fuel
  induction fuel with
  | zero =>
    intro h i n hn
    have hni : n ≤ i := by omega
    rw [downH, dif_pos (by omega)]
    rfl
  | succ fuel ih =>
    intro h i n hn
    rw [downH]
    show (if n ≤ 2 * i + 1 then h
      else if ¬ hLess h (pickChild h i n) i then h
      else downHFuel fuel (hSwap h i (pickChild h i n)) (pickChild h i n) n) = _
    by_cases h1 : n ≤ 2 * i + 1
    · rw [if_pos h1, dif_pos h1]
    · rw [if_neg h1, dif_neg h1]
      by_cases h2 : ¬ hLess h (pickChild h i n) i
      · rw [if_pos h2, if_pos h2]
      · rw [if_neg h2, if_neg h2]
        obtain ⟨hcn, hci, _⟩ := pickChild_facts h i n h1
        exact ih _ _ _ (by omega)

def heapPushF (h : List (SResult α)) (x : SResult α) : List (SResult α) :=
  upHFuel (h.length + 1) (h ++ [x]) h.length

theorem heapPushF_eq (h : List (SResult α)) (x : SResult α) :
    heapPushF h x = heapPush h x :=
  upHFuel_eq _ _ _ (by omega)

def heapPopF (h : List (SResult α)) : SResult α × List (SResult α) :=
  ((downHFuel (h.length - 1) (hSwap h 0 (h.length - 1)) 0 (h.length - 1)).getD
      (h.length - 1) default,
   (downHFuel (h.length - 1) (hSwap h 0 (h.length - 1)) 0 (h.length - 1)).take
      (h.length - 1))

theorem heapPopF_eq (h : List (SResult α)) : heapPopF h = heapPop h := by
  unfold heapPopF heapPop
  rw [downHFuel_eq _ _ _ _ (by omega)]

def pushBoundedF (k : Nat) (h : List (SResult α)) (x : SResult α) :
    List (SResult α) :=
  if h.length < k then heapPushF h x
  else if x.dist < (gIx h 0).dist then heapPushF (heapPopF h).2 x
  else h

theorem pushBoundedF_eq : pushBoundedF (α := α) = pushBounded := by
  funext k h x
  unfold pushBoundedF pushBounded
  rw [heapPushF_eq, heapPopF_eq, heapPushF_eq]

def drainHF : Nat → List (SResult α) → List (SResult α)
  | 0, _ => []
  | fuel + 1, h =>
    if h = [] then []
    else drainHF fuel (heapPopF h).2 ++ [(heapPopF h).1]

theorem drainHF_eq : ∀ (fuel : Nat) (h : List (SResult α)), h.length ≤ fuel →
    drainHF fuel h = drainH h := by
  intro fuel
  induction fuel with
  | zero =>
    intro h hl
    have : h = [] := List.length_eq_zero.mp (by omega)
    subst this
    rw [drainH, dif_pos rfl]
    rfl
  | succ fuel ih =>
    intro h hl
    rw [drainH]
    show (if h = [] then [] else drainHF fuel (heapPopF h).2 ++ [(heapPopF h).1]) = _
    by_cases hne : h = []
    · rw [if_pos hne, dif_pos hne]
    · rw [if_neg hne, dif_neg hne, heapPopF_eq]
      rw [ih _ (by rw [heapPop_rest_length h hne]; omega)]

def workerHeapF (df : List ℚ → List ℚ → α) (nWorkers : Nat) (s : VectorStore)
    (query : List ℚ) (k w : Nat) : List (SResult α) :=
  (workerShards nWorkers w).foldl
    (fun h si =>
      (shardCands df query s.dimension (s.shards.getD si default)).foldl
        (pushBoundedF k) h)
    []

theorem workerHeapF_eq (df : List ℚ → List ℚ → α) (nW : Nat) (s : VectorStore)
    (query : List ℚ) (k w : Nat) :
    workerHeapF df nW s query k w = workerHeap df nW s query k w := by
  unfold workerHeapF workerHeap
  rw [pushBoundedF_eq]

def workerResF (df : List ℚ → List ℚ → α) (nWorkers : Nat) (s : VectorStore)
    (query : List ℚ) (k w : Nat) : List (SResult α) :=
  drainHF (workerHeapF df nWorkers s query k w).length
    (workerHeapF df nWorkers s query k w)

theorem workerResF_eq (df : List ℚ → List ℚ → α) (nW : Nat) (s : VectorStore)
    (query : List ℚ) (k w : Nat) :
    workerResF df nW s query k w = workerRes df nW s query k w := by
  unfold workerResF workerRes
  rw [drainHF_eq _ _ (le_refl _), workerHeapF_eq]

def mergeHeapF (df : List ℚ → List ℚ → α) (nWorkers : Nat) (s : VectorStore)
    (query : List ℚ) (k : Nat) : List (SResult α) :=
  (List.range nWorkers).foldl
    (fun fh w => (workerResF df nWorkers s query k w).foldl (pushBoundedF k) fh)
    []

theorem mergeHeapF_eq (df : List ℚ → List ℚ → α) (nW : Nat) (s : VectorStore)
    (query : List ℚ) (k : Nat) :
    mergeHeapF df nW s query k = mergeHeap df nW s query k := by
  unfold mergeHeapF mergeHeap
  have hfun : (fun (fh : List (SResult α)) (w : Nat) =>
      (workerResF df nW s query k w).foldl (pushBoundedF k) fh)
      = fun fh w => (workerRes df nW s query k w).foldl (pushBounded k) fh := by
    funext fh w
    rw [workerResF_eq, pushBoundedF_eq]
  rw [hfun]

/-- Computable mirror of the whole pipeline. -/
def SearchGC (df : List ℚ → List ℚ → α) (nw : Nat) (s : VectorStore)
    (query : List ℚ) (k : Int) : Except VErr (List (SResult α)) :=
  if query.length ≠ s.dimension then .error .dimensionMismatch
  else if k ≤ 0 then .ok []
  else .ok (drainHF
    (mergeHeapF df (if nw > numShards then numShards else nw) s query k.toNat).length
    (mergeHeapF df (if nw > numShards then numShards else nw) s query k.toNat))

theorem SearchGC_eq (df : List ℚ → List ℚ → α) (nw : Nat) (s : VectorStore)
    (query : List ℚ) (k : Int) :
    SearchGC df nw s query k = SearchG df nw s query k := by
  unfold SearchGC SearchG
  by_cases h1 : query.length ≠ s.dimension
  · rw [if_pos h1, if_pos h1]
  · rw [if_neg h1, if_neg h1]
    by_cases h2 : k ≤ 0
    · rw [if_pos h2, if_pos h2]
    · rw [if_neg h2, if_neg h2, drainHF_eq _ _ (le_refl _), mergeHeapF_eq]

/-- Computable mirror of `SearchSq`. -/
def SearchSqC (nw : Nat) (s : VectorStore) (query : List ℚ) (k : Int) :
    Except VErr (List (SResult ℚ)) :=
  SearchGC EuclideanDistanceSquared nw s query k

theorem SearchSqC_eq (nw : Nat) (s : VectorStore) (query : List ℚ) (k : Int) :
    SearchSqC nw s query k = SearchSq nw s query k :=
  SearchGC_eq _ _ _ _ _

instance {ε β : Type} [DecidableEq ε] [DecidableEq β] : DecidableEq (Except ε β) :=
  fun a b =>
  match a, b with
  | .ok x, .ok y =>
    decidable_of_iff (x = y) (by
      constructor
      · intro h
        rw [h]
      · intro h
        injection h)
  | .error x, .error y =>
    decidable_of_iff (x = y) (by
      constructor
      · intro h
        rw [h]
      · intro h
        injection h)
  | .ok _, .error _ => isFalse (fun h => Except.noConfusion h)
  | .error _, .ok _ => isFalse (fun h => Except.noConfusion h)

end FueledMirrors

/-! ### Rows, entries and pools

Glue between the store representation (flat SoA `data`) and the logical
content: the multiset of `(id, payload)` rows, and its relation to the
search candidate pools. -/

theorem getD_drop {β : Type} (l : List β) (n i : Nat) (d : β) :
    (l.drop n).getD i d = l.getD (n + i) d := by
  rcases Nat.lt_or_ge (n + i) l.length with h | h
  · rw [getD_of_lt _ _ _ h, getD_of_lt _ _ _ (by rw [List.length_drop]; omega)]
    rw [List.getElem_drop]
  · have h1 : (l.drop n).length ≤ i := by rw [List.length_drop]; omega
    rw [List.getD_eq_default _ _ h1, List.getD_eq_default _ _ (by omega)]

theorem ext_getD {β : Type} {l l' : List β} (d : β) (hlen : l.length = l'.length)
    (h : ∀ i, i < l.length → l.getD i d = l'.getD i d) : l = l' := by
  apply List.ext_getElem hlen
  intro i h1 h2
  have hx := h i h1
  rwa [getD_of_lt _ _ _ h1, getD_of_lt _ _ _ h2] at hx

theorem map_eq_map_range {β γ : Type} [Inhabited β] (g : β → γ) (l : List β) :
    l.map g = (List.range l.length).map (fun i => g (l.getD i default)) := by
  apply List.ext_getElem (by simp)
  intro i h1 h2
  simp only [List.getElem_map, List.getElem_range]
  rw [getD_of_lt _ _ _ (by simpa using h1)]

theorem foldl_add_eq_sum : ∀ (l : List Shard) (n : Nat),
    l.foldl (fun total sh => total + sh.ids.length) n
      = n + (l.map (fun sh => sh.ids.length)).sum := by
  intro l
  induction l with
  | nil => intro n; simp
  | cons x l ih =>
    intro n
    rw [List.foldl_cons, ih, List.map_cons, List.sum_cons]
    omega

/-- `Count` as the sum of the 16 shard populations. -/
theorem count_eq_sum {s : VectorStore} (h : s.shards.length = numShards) :
    s.Count = ((List.range numShards).map
      (fun si => (s.shards.getD si default).ids.length)).sum := by
  unfold VectorStore.Count
  have hm := map_eq_map_range (fun sh : Shard => sh.ids.length) s.shards
  rw [foldl_add_eq_sum, Nat.zero_add, hm, h]

/-- `data[i*dim : (i+1)*dim]`: the payload slice of row `i`. -/
def rowSlice (dim : Nat) (data : List ℚ) (i : Nat) : List ℚ :=
  (data.drop (i * dim)).take dim

theorem rowSlice_getD {dim : Nat} (data : List ℚ) (j i : Nat) (hi : i < dim) (d : ℚ) :
    (rowSlice dim data j).getD i d = data.getD (j * dim + i) d := by
  unfold rowSlice
  rw [getD_take_lt _ _ _ _ hi, getD_drop]

theorem rowSlice_length (dim : Nat) (data : List ℚ) (i : Nat) :
    (rowSlice dim data i).length = min dim (data.length - i * dim) := by
  unfold rowSlice
  simp

theorem rowSlice_length_full {D si : Nat} {sh : Shard} (hinv : ShardInv D si sh)
    {i : Nat} (hi : i < sh.ids.length) : (rowSlice D sh.data i).length = D := by
  rw [rowSlice_length]
  have h1 : (i + 1) * D ≤ sh.ids.length * D := Nat.mul_le_mul_right D (by omega)
  have h2 : (i + 1) * D = i * D + D := by ring
  have h3 := hinv.lenData
  omega

/-- The `(id, payload)` rows of one shard, in row order. -/
def shardEntries (dim : Nat) (sh : Shard) : List (String × List ℚ) :=
  (List.range sh.ids.length).map
    (fun i => (sh.ids.getD i default, rowSlice dim sh.data i))

/-- All `(id, payload)` rows of the store, as a multiset. -/
def storeEntries (s : VectorStore) : Multiset (String × List ℚ) :=
  ((List.range numShards).map
    (fun si => (↑(shardEntries s.dimension (s.shards.getD si default)) :
      Multiset (String × List ℚ)))).sum

theorem map_list_sum {β γ : Type} (g : β → γ) :
    ∀ l : List (Multiset β), (l.sum).map g = (l.map (fun m => m.map g)).sum := by
  intro l
  induction l with
  | nil => simp
  | cons x l ih => simp [Multiset.map_add, ih]

theorem mem_list_sum {β : Type} {x : β} :
    ∀ {l : List (Multiset β)}, x ∈ l.sum ↔ ∃ m ∈ l, x ∈ m := by
  intro l
  induction l with
  | nil => simp
  | cons a l ih => simp [Multiset.mem_add, ih]

theorem card_list_sum {β : Type} :
    ∀ l : List (Multiset β), Multiset.card l.sum = (l.map Multiset.card).sum := by
  intro l
  induction l with
  | nil => simp
  | cons a l ih => simp [ih]

section PoolGlue

variable {α : Type} [LinearOrder α] [Inhabited α] [DecidableEq α]

/-- The candidate pool is the entry multiset with the distance applied. -/
theorem storePool_eq_entries (df : List ℚ → List ℚ → α) (s : VectorStore)
    (query : List ℚ) :
    storePool df s query
      = (storeEntries s).map (fun e => ⟨e.1, df query e.2⟩) := by
  unfold storePool storeEntries
  rw [map_list_sum, List.map_map]
  congr 1
  apply List.map_congr_left
  intro si _
  simp only [Function.comp_apply, shardPool, shardCands, shardEntries,
    Multiset.map_coe, List.map_map]
  rfl

theorem card_storeEntries_eq_count {s : VectorStore}
    (h : s.shards.length = numShards) :
    Multiset.card (storeEntries s) = s.Count := by
  unfold storeEntries
  rw [card_list_sum, List.map_map, count_eq_sum h]
  congr 1
  apply List.map_congr_left
  intro si _
  simp [shardEntries]

theorem card_storePool_eq_count (df : List ℚ → List ℚ → α) {s : VectorStore}
    (query : List ℚ) (h : s.shards.length = numShards) :
    Multiset.card (storePool df s query) = s.Count := by
  rw [storePool_eq_entries, Multiset.card_map, card_storeEntries_eq_count h]

/-- Every pool member is the candidate of some resident row. -/
theorem storePool_mem {df : List ℚ → List ℚ → α} {s : VectorStore}
    {query : List ℚ} {r : SResult α} (hr : r ∈ storePool df s query) :
    ∃ si, si < numShards ∧ ∃ i, i < (s.shards.getD si default).ids.length ∧
      r = ⟨(s.shards.getD si default).ids.getD i default,
           df query (rowSlice s.dimension (s.shards.getD si default).data i)⟩ := by
  unfold storePool at hr
  rw [mem_list_sum] at hr
  obtain ⟨m, hm, hrm⟩ := hr
  rw [List.mem_map] at hm
  obtain ⟨si, hsi, rfl⟩ := hm
  rw [List.mem_range] at hsi
  unfold shardPool shardCands at hrm
  rw [Multiset.mem_coe, List.mem_map] at hrm
  obtain ⟨i, hi, rfl⟩ := hrm
  rw [List.mem_range] at hi
  exact ⟨si, hsi, i, hi, rfl⟩

/-- Conversely, every resident row contributes its candidate to the pool. -/
theorem mem_storePool_intro (df : List ℚ → List ℚ → α) {s : VectorStore}
    (query : List ℚ) {si i : Nat} (hsi : si < numShards)
    (hi : i < (s.shards.getD si default).ids.length) :
    (⟨(s.shards.getD si default).ids.getD i default,
      df query (rowSlice s.dimension (s.shards.getD si default).data i)⟩ : SResult α)
      ∈ storePool df s query := by
  unfold storePool
  rw [mem_list_sum]
  refine ⟨shardPool df query s.dimension (s.shards.getD si default), ?_, ?_⟩
  · rw [List.mem_map]
    exact ⟨si, by rw [List.mem_range]; exact hsi, rfl⟩
  · unfold shardPool shardCands
    rw [Multiset.mem_coe, List.mem_map]
    exact ⟨i, by rw [List.mem_range]; exact hi, rfl⟩

end PoolGlue

/-! ### Sign facts about the distance kernels -/

theorem mem_zipWith {β γ δ : Type} {f : β → γ → δ} :
    ∀ {a : List β} {b : List γ} {x : δ}, x ∈ List.zipWith f a b →
      ∃ p q, x = f p q := by
  intro a
  induction a with
  | nil =>
    intro b x hx
    simp at hx
  | cons u a ih =>
    intro b x hx
    cases b with
    | nil => simp at hx
    | cons v b =>
      rw [List.zipWith_cons_cons] at hx
      rcases List.mem_cons.mp hx with h | h
      · exact ⟨u, v, h⟩
      · exact ih h

theorem sqFull_nonneg (a b : List ℚ) : 0 ≤ sqFull a b := by
  unfold sqFull combFull
  apply List.sum_nonneg
  intro x hx
  obtain ⟨p, q, rfl⟩ := mem_zipWith hx
  exact mul_self_nonneg _

theorem sqFull_self (a : List ℚ) : sqFull a a = 0 := by
  unfold sqFull combFull
  induction a with
  | nil => simp
  | cons x a ih => simp only [List.zipWith_cons_cons, List.sum_cons, sub_self,
      mul_zero, zero_add, ih]

theorem dotFull_zeros (n : Nat) :
    dotFull (List.replicate n 0) (List.replicate n 0) = 0 := by
  unfold dotFull combFull
  induction n with
  | zero => simp
  | succ n ih => simp only [List.replicate_succ, List.zipWith_cons_cons,
      List.sum_cons, mul_zero, zero_add, ih]

/-- `squared_euclidean(v, v) == 0` exactly, through the dispatcher. -/
theorem euclid_self (v : List ℚ) : EuclideanDistanceSquared v v = 0 := by
  unfold EuclideanDistanceSquared
  rw [euclideanDistanceSquaredPlatform_eq rfl, EuclideanScalar_eq_sqFull rfl,
    sqFull_self]

/-- Squared distances of equal-length vectors are non-negative. -/
theorem euclid_nonneg {a b : List ℚ} (h : b.length = a.length) :
    0 ≤ EuclideanDistanceSquared a b := by
  unfold EuclideanDistanceSquared
  rw [euclideanDistanceSquaredPlatform_eq h, EuclideanScalar_eq_sqFull h]
  exact sqFull_nonneg a b

/-! ### Top-k transformations -/

section TopKGlue

variable {α : Type} [LinearOrder α] [Inhabited α] [DecidableEq α]
variable {β : Type} [LinearOrder β] [Inhabited β] [DecidableEq β]

theorem isTopK_zero_sel (pool : Multiset (SResult α)) : IsTopK 0 pool 0 := by
  refine ⟨Multiset.zero_le _, by simp, ?_⟩
  intro x hx y hy
  simp at hy

/-- A monotone distance transformation preserves valid top-k selections. -/
theorem isTopK_map (g : α → β) (hg : Monotone g) {k : Nat}
    {pool sel : Multiset (SResult α)} (h : IsTopK k pool sel) :
    IsTopK k (pool.map (fun r => ⟨r.id, g r.dist⟩))
      (sel.map (fun r => ⟨r.id, g r.dist⟩)) := by
  obtain ⟨hle, hcard, hmax⟩ := h
  have hsplit : pool = (pool - sel) + sel := (tsub_add_cancel_of_le hle).symm
  refine ⟨Multiset.map_le_map hle, by simp [hcard], ?_⟩
  intro x hx y hy
  have hsub : pool.map (fun r : SResult α => (⟨r.id, g r.dist⟩ : SResult β))
      - sel.map (fun r => ⟨r.id, g r.dist⟩)
      = (pool - sel).map (fun r => ⟨r.id, g r.dist⟩) := by
    conv_lhs => rw [hsplit]
    rw [Multiset.map_add, add_tsub_cancel_right]
  rw [hsub] at hx
  rw [Multiset.mem_map] at hx hy
  obtain ⟨x0, hx0, rfl⟩ := hx
  obtain ⟨y0, hy0, rfl⟩ := hy
  exact hg (hmax x0 hx0 y0 hy0)

end TopKGlue

/-! ### Cosine similarity is bounded (Cauchy–Schwarz) -/

theorem zipWith_sum_finset (f : ℚ → ℚ → ℚ) :
    ∀ (a b : List ℚ), (List.zipWith f a b).sum
      = ∑ i in Finset.range (min a.length b.length),
          f (a.getD i 0) (b.getD i 0) := by
  intro a
  induction a with
  | nil =>
    intro b
    simp
  | cons x a ih =>
    intro b
    cases b with
    | nil => simp
    | cons y b =>
      rw [List.zipWith_cons_cons, List.sum_cons, ih b]
      simp only [List.length_cons, Nat.succ_min_succ, Finset.sum_range_succ',
        getD_cons_succ', getD_cons_zero']
      exact add_comm _ _

theorem Magnitude_nonneg (v : List ℚ) : 0 ≤ Magnitude v := Real.sqrt_nonneg _

theorem abs_dot_le_mag_mul_mag {a b : List ℚ} (h : b.length = a.length) :
    |((dotProductPlatform a b : ℚ) : ℝ)| ≤ Magnitude a * Magnitude b := by
  have hab : dotProductPlatform a b = dotFull a b := by
    rw [dotProductPlatform_eq h, DotProductScalar_eq_dotFull h]
  have haa : dotProductPlatform a a = dotFull a a := by
    rw [dotProductPlatform_eq rfl, DotProductScalar_eq_dotFull rfl]
  have hbb : dotProductPlatform b b = dotFull b b := by
    rw [dotProductPlatform_eq rfl, DotProductScalar_eq_dotFull rfl]
  unfold Magnitude
  rw [hab, haa, hbb]
  set n := a.length with hn
  have hfin : ∀ (u v : List ℚ), min u.length v.length = n →
      ((dotFull u v : ℚ) : ℝ) = ∑ i in Finset.range n,
        ((u.getD i 0 : ℚ) : ℝ) * ((v.getD i 0 : ℚ) : ℝ) := by
    intro u v huv
    unfold dotFull combFull
    rw [zipWith_sum_finset, huv]
    push_cast
    rfl
  rw [hfin a b (by omega), hfin a a (by omega), hfin b b (by omega)]
  set A := fun i => ((a.getD i 0 : ℚ) : ℝ) with hA
  set B := fun i => ((b.getD i 0 : ℚ) : ℝ) with hB
  have hcs := Finset.sum_mul_sq_le_sq_mul_sq (Finset.range n) A B
  have h1 : |∑ i in Finset.range n, A i * B i|
      = Real.sqrt ((∑ i in Finset.range n, A i * B i) ^ 2) :=
    (Real.sqrt_sq_eq_abs _).symm
  have h2 : ∑ i in Finset.range n, A i * A i
      = ∑ i in Finset.range n, A i ^ 2 := by
    apply Finset.sum_congr rfl
    intro i _
    ring
  have h3 : ∑ i in Finset.range n, B i * B i
      = ∑ i in Finset.range n, B i ^ 2 := by
    apply Finset.sum_congr rfl
    intro i _
    ring
  rw [h1, h2, h3]
  have h4 : Real.sqrt ((∑ i in Finset.range n, A i * B i) ^ 2)
      ≤ Real.sqrt ((∑ i in Finset.range n, A i ^ 2)
          * (∑ i in Finset.range n, B i ^ 2)) := Real.sqrt_le_sqrt hcs
  have h5 : Real.sqrt ((∑ i in Finset.range n, A i ^ 2)
        * (∑ i in Finset.range n, B i ^ 2))
      = Real.sqrt (∑ i in Finset.range n, A i ^ 2)
        * Real.sqrt (∑ i in Finset.range n, B i ^ 2) :=
    Real.sqrt_mul (Finset.sum_nonneg (fun i _ => sq_nonneg _)) _
  rw [h5] at h4
  exact h4

theorem cosineSim_abs_le {a b : List ℚ} (h : b.length = a.length) :
    |CosineSimilarity a b| ≤ 1 := by
  unfold CosineSimilarity
  split
  · simp
  · rename_i hmz
    push_neg at hmz
    obtain ⟨hma, hmb⟩ := hmz
    have hma0 : 0 < Magnitude a := lt_of_le_of_ne (Magnitude_nonneg a) (Ne.symm hma)
    have hmb0 : 0 < Magnitude b := lt_of_le_of_ne (Magnitude_nonneg b) (Ne.symm hmb)
    rw [abs_div, abs_of_pos (mul_pos hma0 hmb0), div_le_one (mul_pos hma0 hmb0)]
    exact abs_dot_le_mag_mul_mag h

/-- Cosine distance of equal-length vectors lies in `[0, 2]`. -/
theorem cosineDist_bounds {a b : List ℚ} (h : b.length = a.length) :
    0 ≤ CosineDistance a b ∧ CosineDistance a b ≤ 2 := by
  have hb := cosineSim_abs_le h
  rw [abs_le] at hb
  unfold CosineDistance
  constructor
  · linarith [hb.2]
  · linarith [hb.1]

/-! ### What Delete removes, at the level of entries -/

theorem shardIndex_lt (id : String) : shardIndex id < numShards :=
  Nat.mod_lt _ (by decide)

theorem sum_map_range_exchange {M : Type} [AddCommMonoid M] (f g : Nat → M) :
    ∀ (n i : Nat), i < n → (∀ j, j < n → j ≠ i → f j = g j) →
    ((List.range n).map f).sum + g i = ((List.range n).map g).sum + f i := by
  intro n
  induction n with
  | zero =>
    intro i hi
    omega
  | succ n ih =>
    intro i hi hagree
    rw [List.range_succ, List.map_append, List.map_append, List.sum_append,
      List.sum_append]
    simp only [List.map_cons, List.map_nil, List.sum_cons, List.sum_nil, add_zero]
    by_cases hin : i = n
    · subst hin
      have hmaps : (List.range i).map f = (List.range i).map g := by
        apply List.map_congr_left
        intro j hj
        rw [List.mem_range] at hj
        exact hagree j (by omega) (by omega)
      rw [hmaps]
      abel
    · have hi' : i < n := by omega
      have hfg : f n = g n := hagree n (by omega) (by omega)
      have hrec := ih i hi' (fun j hj hne => hagree j (by omega) hne)
      rw [hfg]
      calc ((List.range n).map f).sum + g n + g i
          = ((List.range n).map f).sum + g i + g n := by abel
        _ = ((List.range n).map g).sum + f i + g n := by rw [hrec]
        _ = ((List.range n).map g).sum + g n + f i := by abel

theorem shardEntries_length (dim : Nat) (sh : Shard) :
    (shardEntries dim sh).length = sh.ids.length := by
  simp [shardEntries]

theorem shardEntries_getD {dim : Nat} {sh : Shard} {i : Nat}
    (hi : i < sh.ids.length) (d : String × List ℚ) :
    (shardEntries dim sh).getD i d
      = (sh.ids.getD i default, rowSlice dim sh.data i) := by
  unfold shardEntries
  rw [getD_of_lt _ _ _ (by simp [hi]), List.getElem_map, List.getElem_range]

theorem deletedShard_ids (sh : Shard) (id : String) (idx D : Nat) :
    (deletedShard sh id idx D).ids
      = (sh.ids.set idx (sh.ids.getD (sh.ids.length - 1) default)).take
          (sh.ids.length - 1) := by
  unfold deletedShard
  by_cases hc : idx ≠ sh.ids.length - 1
  · simp only [if_pos hc]
  · simp only [if_neg hc]
    push_neg at hc
    rw [take_set_outside _ _ _ _ (by omega)]

theorem deletedShard_data (sh : Shard) (id : String) (idx D : Nat) :
    (deletedShard sh id idx D).data
      = (if idx ≠ sh.ids.length - 1
          then writeSlice sh.data (idx * D) (rowSlice D sh.data (sh.ids.length - 1))
          else sh.data).take ((sh.ids.length - 1) * D) := by
  unfold deletedShard rowSlice
  by_cases hc : idx ≠ sh.ids.length - 1
  · simp only [if_pos hc]
  · simp only [if_neg hc]

theorem rowSlice_take {D : Nat} (data : List ℚ) (L j : Nat) (hj : j < L) :
    rowSlice D (data.take (L * D)) j = rowSlice D data j := by
  unfold rowSlice
  rw [List.drop_take, List.take_take]
  congr 1
  have h1 : (j + 1) * D ≤ L * D := Nat.mul_le_mul_right D (by omega)
  have h2 : (j + 1) * D = j * D + D := by ring
  omega

theorem rowSlice_writeSlice_self {D : Nat} {data src : List ℚ} {idx : Nat}
    (hsrc : src.length = D) (hbound : idx * D + D ≤ data.length) :
    rowSlice D (writeSlice data (idx * D) src) idx = src := by
  apply ext_getD 0
  · rw [rowSlice_length, writeSlice_length (by omega)]
    omega
  · intro i hi
    rw [rowSlice_length, writeSlice_length (by omega)] at hi
    have hiD : i < D := by omega
    rw [rowSlice_getD _ _ _ hiD, writeSlice_getD_in 0 (by omega) (by omega)]

theorem rowSlice_writeSlice_other {D : Nat} {data src : List ℚ} {off j : Nat}
    (hbound : off + src.length ≤ data.length)
    (hdisj : ∀ i, i < D → j * D + i < off ∨ off + src.length ≤ j * D + i) :
    rowSlice D (writeSlice data off src) j = rowSlice D data j := by
  apply ext_getD 0
  · rw [rowSlice_length, rowSlice_length, writeSlice_length hbound]
  · intro i hi
    rw [rowSlice_length, writeSlice_length hbound] at hi
    have hiD : i < D := by omega
    rw [rowSlice_getD _ _ _ hiD, rowSlice_getD _ _ _ hiD,
      writeSlice_getD_out 0 hbound (hdisj i hiD)]

/-- A successful shard deletion removes exactly the row of the deleted id:
the old entries are a permutation of the new ones plus that row. -/
theorem deletedShard_entries {D si : Nat} {sh : Shard} (hinv : ShardInv D si sh)
    {id : String} {idx : Nat} (hfound : sh.idIndex id = some idx) :
    (shardEntries D sh).Perm
      (shardEntries D (deletedShard sh id idx D)
        ++ [(id, rowSlice D sh.data idx)]) := by
  obtain ⟨hidx, hval⟩ := hinv.indexSound id idx hfound
  have hlen1 : 1 ≤ sh.ids.length := by omega
  have hentlen : (shardEntries D sh).length = sh.ids.length :=
    shardEntries_length D sh
  have hdlen : (deletedShard sh id idx D).ids.length = sh.ids.length - 1 := by
    rw [deletedShard_ids]
    simp only [List.length_take, List.length_set]
    omega
  have hbound : ∀ j, j < sh.ids.length → j * D + D ≤ sh.data.length := by
    intro j hj
    have h1 : (j + 1) * D ≤ sh.ids.length * D := Nat.mul_le_mul_right D (by omega)
    have h2 : (j + 1) * D = j * D + D := by ring
    have h3 := hinv.lenData
    omega
  have hsrclen : (rowSlice D sh.data (sh.ids.length - 1)).length = D :=
    rowSlice_length_full hinv (by omega)
  have hkey : shardEntries D (deletedShard sh id idx D)
      = ((shardEntries D sh).set idx
          ((shardEntries D sh).getD (sh.ids.length - 1) default)).take
          (sh.ids.length - 1) := by
    apply ext_getD default
    · rw [shardEntries_length, hdlen, List.length_take, List.length_set, hentlen]
      omega
    · intro j hj
      rw [shardEntries_length, hdlen] at hj
      have hL1 : (shardEntries D (deletedShard sh id idx D)).getD j default
          = ((deletedShard sh id idx D).ids.getD j default,
             rowSlice D (deletedShard sh id idx D).data j) :=
        shardEntries_getD (by omega) default
      have hR1 : (shardEntries D sh).getD (sh.ids.length - 1) default
          = (sh.ids.getD (sh.ids.length - 1) default,
             rowSlice D sh.data (sh.ids.length - 1)) :=
        shardEntries_getD (by omega) default
      rw [hL1, getD_take_lt _ _ _ _ hj, hR1]
      by_cases hji : j = idx
      · subst hji
        have hjne : j ≠ sh.ids.length - 1 := by omega
        rw [getD_set_self _ _ _ _ (by rw [hentlen]; omega)]
        rw [deletedShard_ids, deletedShard_data, if_pos hjne]
        rw [getD_take_lt _ _ _ _ hj, getD_set_self _ _ _ _ (by omega)]
        rw [rowSlice_take _ _ _ hj,
          rowSlice_writeSlice_self hsrclen (hbound j (by omega))]
      · have hR2 : (shardEntries D sh).getD j default
            = (sh.ids.getD j default, rowSlice D sh.data j) :=
          shardEntries_getD (by omega) default
        rw [getD_set_ne _ _ _ _ _ (fun h => hji h.symm), hR2]
        rw [deletedShard_ids, deletedShard_data]
        rw [getD_take_lt _ _ _ _ hj, getD_set_ne _ _ _ _ _ (fun h => hji h.symm)]
        by_cases hil : idx ≠ sh.ids.length - 1
        · rw [if_pos hil, rowSlice_take _ _ _ hj]
          rw [rowSlice_writeSlice_other
            (by rw [hsrclen]; exact hbound idx (by omega))
            ?_]
          intro i hiD
          rw [hsrclen]
          rcases Nat.lt_or_ge j idx with hji2 | hji2
          · left
            have h1 : (j + 1) * D ≤ idx * D := Nat.mul_le_mul_right D (by omega)
            have h2 : (j + 1) * D = j * D + D := by ring
            omega
          · right
            have hji3 : idx < j := by omega
            have h1 : (idx + 1) * D ≤ j * D := Nat.mul_le_mul_right D (by omega)
            have h2 : (idx + 1) * D = idx * D + D := by ring
            omega
        · rw [if_neg hil, rowSlice_take _ _ _ hj]
  have hperm := swapRemove_perm (shardEntries D sh) idx (by omega)
  rw [hentlen] at hperm
  rw [hkey]
  have hlast : (shardEntries D sh).getD idx default
      = (id, rowSlice D sh.data idx) := by
    rw [shardEntries_getD hidx default, hval]
  rw [← hlast]
  exact hperm

/-- Store-level: a successful Delete removes exactly one `(id, payload)` row. -/
theorem delete_entries {D : Nat} {s : VectorStore} (hs : StoreInv D s)
    {id : String} {idx : Nat}
    (hfound : (s.shards.getD (shardIndex id) default).idIndex id = some idx) :
    storeEntries (s.Delete id).2
      + {(id, rowSlice D (s.shards.getD (shardIndex id) default).data idx)}
      = storeEntries s := by
  have hsi : shardIndex id < numShards := shardIndex_lt id
  have hshlen : s.shards.length = numShards := hs.numShardsEq
  have hinv := hs.shard (shardIndex id) hsi
  rw [Delete_found hfound]
  unfold storeEntries
  simp only [hs.dimEq]
  have hsetself : ((s.shards.set (shardIndex id)
      (deletedShard (s.shards.getD (shardIndex id) default) id idx D)).getD
        (shardIndex id) default)
      = deletedShard (s.shards.getD (shardIndex id) default) id idx D :=
    getD_set_self _ _ _ _ (by rw [hshlen]; exact hsi)
  have hexch := sum_map_range_exchange
    (fun sj => (↑(shardEntries D
      ((s.shards.set (shardIndex id)
        (deletedShard (s.shards.getD (shardIndex id) default) id idx D)).getD
          sj default)) : Multiset (String × List ℚ)))
    (fun sj => (↑(shardEntries D (s.shards.getD sj default)) :
      Multiset (String × List ℚ)))
    numShards (shardIndex id) hsi
    (by
      intro j hj hne
      have hx : (s.shards.set (shardIndex id)
          (deletedShard (s.shards.getD (shardIndex id) default) id idx D)).getD
            j default = s.shards.getD j default :=
        getD_set_ne _ _ _ _ _ (fun h => hne h.symm)
      simp only [hx])
  simp only [hsetself] at hexch
  have hdperm := deletedShard_entries hinv hfound
  have hdeq : (↑(shardEntries D (s.shards.getD (shardIndex id) default)) :
      Multiset (String × List ℚ))
      = ↑(shardEntries D (deletedShard (s.shards.getD (shardIndex id) default)
          id idx D))
        + {(id, rowSlice D (s.shards.getD (shardIndex id) default).data idx)} := by
    rw [Multiset.coe_eq_coe.mpr hdperm, ← Multiset.coe_singleton
      (α := String × List ℚ) (id, rowSlice D
        (s.shards.getD (shardIndex id) default).data idx), ← Multiset.coe_add]
  rw [hdeq] at hexch
  apply add_right_cancel
    (b := (↑(shardEntries D (deletedShard
      (s.shards.getD (shardIndex id) default) id idx D)) :
        Multiset (String × List ℚ)))
  calc ((List.range numShards).map
        (fun sj => (↑(shardEntries D
          ((s.shards.set (shardIndex id)
            (deletedShard (s.shards.getD (shardIndex id) default) id idx
              D)).getD sj default)) : Multiset (String × List ℚ)))).sum
        + {(id, rowSlice D (s.shards.getD (shardIndex id) default).data idx)}
        + ↑(shardEntries D (deletedShard
            (s.shards.getD (shardIndex id) default) id idx D))
      = ((List.range numShards).map
        (fun sj => (↑(shardEntries D
          ((s.shards.set (shardIndex id)
            (deletedShard (s.shards.getD (shardIndex id) default) id idx
              D)).getD sj default)) : Multiset (String × List ℚ)))).sum
        + (↑(shardEntries D (deletedShard
            (s.shards.getD (shardIndex id) default) id idx D))
          + {(id, rowSlice D
              (s.shards.getD (shardIndex id) default).data idx)}) := by abel
    _ = ((List.range numShards).map
        (fun sj => (↑(shardEntries D (s.shards.getD sj default)) :
          Multiset (String × List ℚ)))).sum
        + ↑(shardEntries D (deletedShard
            (s.shards.getD (shardIndex id) default) id idx D)) := hexch

/-! ### Insert facts used by the upsert claim -/

theorem setShard_ids_eq {s : VectorStore} {si : Nat} {sh' : Shard}
    (hids : sh'.ids = (s.shards.getD si default).ids) (sj : Nat) :
    ((s.shards.set si sh').getD sj default).ids
      = (s.shards.getD sj default).ids := by
  by_cases hje : sj = si
  · subst hje
    by_cases hjlt : sj < s.shards.length
    · rw [getD_set_self _ _ _ _ hjlt, hids]
    · rw [List.getD_eq_default _ _ (by rw [List.length_set]; omega),
        List.getD_eq_default _ _ (by omega)]
  · rw [getD_set_ne _ _ _ _ _ (fun h => hje h.symm)]

theorem count_congr_ids {s s' : VectorStore}
    (hlen : s.shards.length = numShards) (hlen' : s'.shards.length = numShards)
    (h : ∀ sj, sj < numShards →
      (s'.shards.getD sj default).ids.length
        = (s.shards.getD sj default).ids.length) :
    s'.Count = s.Count := by
  rw [count_eq_sum hlen, count_eq_sum hlen']
  congr 1
  apply List.map_congr_left
  intro sj hsj
  rw [List.mem_range] at hsj
  exact h sj hsj

/-- After a successful Insert the id is indexed in its routed shard. -/
theorem insert_resident {D : Nat} {s : VectorStore} (hs : StoreInv D s) {v : Vec}
    (h1 : v.id ≠ "") (h2 : v.data.length = D) :
    ∃ idx, ((s.Insert v).2.shards.getD (shardIndex v.id) default).idIndex v.id
      = some idx := by
  have h2' : v.data.length = s.dimension := by rw [hs.dimEq]; exact h2
  have hsi : shardIndex v.id < numShards := shardIndex_lt v.id
  have hlen : s.shards.length = numShards := hs.numShardsEq
  cases hop : (s.shards.getD (shardIndex v.id) default).idIndex v.id with
  | some idx =>
    rw [Insert_update h1 h2' hop]
    refine ⟨idx, ?_⟩
    simp only
    rw [getD_set_self _ _ _ _ (by rw [hlen]; exact hsi)]
    exact hop
  | none =>
    rw [Insert_new h1 h2' hop]
    refine ⟨(s.shards.getD (shardIndex v.id) default).ids.length, ?_⟩
    simp only
    rw [getD_set_self _ _ _ _ (by rw [hlen]; exact hsi)]
    simp [Function.update_same]

/-- An Insert that hits an existing row overwrites the payload in place:
success, identical ids everywhere, unchanged Count, and the routed row now
holds the new payload. -/
theorem insert_update_facts {D : Nat} {s : VectorStore} (hs : StoreInv D s) {v : Vec}
    (h1 : v.id ≠ "") (h2 : v.data.length = D) {idx : Nat}
    (hop : (s.shards.getD (shardIndex v.id) default).idIndex v.id = some idx) :
    (s.Insert v).1 = none ∧
    (∀ sj, ((s.Insert v).2.shards.getD sj default).ids
      = (s.shards.getD sj default).ids) ∧
    (s.Insert v).2.Count = s.Count ∧
    rowSlice D ((s.Insert v).2.shards.getD (shardIndex v.id) default).data idx
      = v.data := by
  have h2' : v.data.length = s.dimension := by rw [hs.dimEq]; exact h2
  have hsi : shardIndex v.id < numShards := shardIndex_lt v.id
  have hlen : s.shards.length = numShards := hs.numShardsEq
  have hinv := hs.shard _ hsi
  obtain ⟨hidx, hval⟩ := hinv.indexSound v.id idx hop
  rw [Insert_update h1 h2' hop]
  have hids : ∀ sj, ((s.shards.set (shardIndex v.id)
      ({ s.shards.getD (shardIndex v.id) default with
         data := writeSlice (s.shards.getD (shardIndex v.id) default).data
           (idx * s.dimension) v.data })).getD sj default).ids
      = (s.shards.getD sj default).ids := setShard_ids_eq rfl
  have hbound : idx * D + D
      ≤ (s.shards.getD (shardIndex v.id) default).data.length := by
    have ha : (idx + 1) * D
        ≤ (s.shards.getD (shardIndex v.id) default).ids.length * D :=
      Nat.mul_le_mul_right D (by omega)
    have hb : (idx + 1) * D = idx * D + D := by ring
    have hc := hinv.lenData
    omega
  have h4 : rowSlice D ((s.shards.set (shardIndex v.id)
      ({ s.shards.getD (shardIndex v.id) default with
         data := writeSlice (s.shards.getD (shardIndex v.id) default).data
           (idx * s.dimension) v.data })).getD
        (shardIndex v.id) default).data idx = v.data := by
    rw [getD_set_self _ _ _ _ (by rw [hlen]; exact hsi)]
    simp only [hs.dimEq]
    exact rowSlice_writeSlice_self h2 hbound
  have hcnt : VectorStore.Count
      { s with
        shards := s.shards.set (shardIndex v.id)
            ({ s.shards.getD (shardIndex v.id) default with
               data := writeSlice (s.shards.getD (shardIndex v.id) default).data
                 (idx * s.dimension) v.data }) } = s.Count := by
    apply count_congr_ids hlen (by simp only [List.length_set]; exact hlen)
    intro sj hsj
    exact congrArg List.length (hids sj)
  exact ⟨rfl, hids, hcnt, h4⟩

/-! ### Search output characterizations -/

/-- A successful squared-distance search output, characterized:
empty for `k ≤ 0`, and otherwise a sorted top-k of the squared pool. -/
theorem searchSq_ok {s : VectorStore} {q : List ℚ} {k : Int} {nw : Nat}
    (hnw : 1 ≤ nw) {res : List (SResult ℚ)}
    (hres : SearchSq nw s q k = .ok res) :
    q.length = s.dimension ∧
    ((k ≤ 0 ∧ res = []) ∨
      (1 ≤ k ∧ IsTopK k.toNat (storePool EuclideanDistanceSquared s q) ↑res ∧
        List.Pairwise (fun x y : SResult ℚ => x.dist ≤ y.dist) res)) := by
  by_cases hdim : q.length = s.dimension
  · refine ⟨hdim, ?_⟩
    by_cases hk : k ≤ 0
    · left
      refine ⟨hk, ?_⟩
      unfold SearchSq SearchG at hres
      rw [if_neg (by omega), if_pos hk] at hres
      exact (Except.ok.inj hres).symm
    · right
      have hk1 : 1 ≤ k := by omega
      obtain ⟨hok, htop, hsort⟩ := searchG_spec EuclideanDistanceSquared hnw hdim hk1
      unfold SearchSq at hres
      rw [hok] at hres
      have hreseq := Except.ok.inj hres
      rw [← hreseq]
      exact ⟨hk1, htop, hsort⟩
  · unfold SearchSq SearchG at hres
    rw [if_pos hdim] at hres
    nomatch hres

/-- A successful Search output is the image of a successful squared search
under the final square root. -/
theorem search_ok {s : VectorStore} {q : List ℚ} {k : Int} {nw : Nat}
    {res : List (SResult ℝ)} (hres : Search nw s q k = .ok res) :
    ∃ resq : List (SResult ℚ), SearchSq nw s q k = .ok resq ∧
      res = resq.map (fun r => ⟨r.id, Real.sqrt (r.dist : ℝ)⟩) := by
  unfold Search at hres
  cases hsq : SearchSq nw s q k with
  | error e =>
    rw [hsq] at hres
    nomatch hres
  | ok l =>
    rw [hsq] at hres
    exact ⟨l, rfl, (Except.ok.inj hres).symm⟩

/-- A pool holding a zero-distance element over a non-negative pool forces a
zero-distance element into any valid non-trivial selection. -/
theorem isTopK_exists_zero {k : Nat} {pool sel : Multiset (SResult ℚ)}
    (h : IsTopK k pool sel) (hk : 1 ≤ k) {z : SResult ℚ} (hz : z ∈ pool)
    (hz0 : z.dist = 0) (hnn : ∀ r ∈ pool, 0 ≤ r.dist) :
    ∃ r ∈ sel, r.dist = 0 := by
  obtain ⟨hle, hcard, hmax⟩ := h
  have hpool1 : 1 ≤ Multiset.card pool := by
    have hne : pool ≠ 0 := fun h0 => by
      rw [h0] at hz
      simp at hz
    have := Multiset.card_pos.mpr hne
    omega
  have hsel1 : 1 ≤ Multiset.card sel := by omega
  by_cases hzs : z ∈ sel
  · exact ⟨z, hzs, hz0⟩
  · have hzrest : z ∈ pool - sel := by
      rw [← Multiset.count_pos, Multiset.count_sub]
      have hc1 : 0 < Multiset.count z pool := Multiset.count_pos.mpr hz
      have hc2 : Multiset.count z sel = 0 := Multiset.count_eq_zero.mpr hzs
      omega
    obtain ⟨y, hy⟩ := Multiset.card_pos_iff_exists_mem.mp
      (by omega : 0 < Multiset.card sel)
    refine ⟨y, hy, ?_⟩
    have hle1 := hmax z hzrest y hy
    rw [hz0] at hle1
    have hge1 := hnn y (Multiset.mem_of_le hle hy)
    exact le_antisymm hle1 hge1

/-- After a successful Delete, the id is resident in no shard. -/
theorem delete_not_resident {D : Nat} {s : VectorStore} (hs : StoreInv D s)
    {id : String} {idx : Nat}
    (hfound : (s.shards.getD (shardIndex id) default).idIndex id = some idx) :
    ∀ sj, sj < numShards → id ∉ ((s.Delete id).2.shards.getD sj default).ids := by
  have hsi : shardIndex id < numShards := shardIndex_lt id
  have hinv := hs.shard (shardIndex id) hsi
  intro sj hsj
  rw [Delete_found hfound]
  simp only [hs.dimEq]
  by_cases hje : sj = shardIndex id
  · subst hje
    rw [getD_set_self _ _ _ _ (by rw [hs.numShardsEq]; exact hsj)]
    exact (deleteShard_spec hinv hfound).2.2.1
  · rw [getD_set_ne _ _ _ _ _ (fun h => hje h.symm)]
    intro hmem
    exact hje ((hs.shard sj hsj).routed id hmem).symm

/-! ## The claims -/

/-- C1: on every reachable store of dimension D, every query of length D and
every integer k, `Search` succeeds; the returned results are a valid top-k
selection (by true Euclidean distance, ties arbitrary) of the store's
`(id, payload)` entries, sorted by non-decreasing distance, of size
`min k Count`; for `k ≤ 0` the result is empty. -/
theorem c1 {D : Nat} {s : VectorStore} (hs : Reachable D s) (q : List ℚ)
    (hq : q.length = D) (k : Int) (nw : Nat) (hnw : 1 ≤ nw) :
    ∃ res : List (SResult ℝ), Search nw s q k = .ok res ∧
      IsTopK k.toNat
        ((storeEntries s).map (fun e =>
          (⟨e.1, Real.sqrt ((EuclideanDistanceSquared q e.2 : ℚ) : ℝ)⟩ :
            SResult ℝ)))
        ↑res ∧
      List.Pairwise (fun x y : SResult ℝ => x.dist ≤ y.dist) res ∧
      res.length = min k.toNat s.Count ∧
      (k ≤ 0 → res = []) := by
  have hinv := reachable_inv hs
  have hdim : q.length = s.dimension := by rw [hinv.dimEq]; exact hq
  have hcount : Multiset.card (storePool EuclideanDistanceSquared s q) = s.Count :=
    card_storePool_eq_count _ _ hinv.numShardsEq
  have hpoolmap : (storePool EuclideanDistanceSquared s q).map
        (fun r : SResult ℚ => (⟨r.id, Real.sqrt (r.dist : ℝ)⟩ : SResult ℝ))
      = (storeEntries s).map (fun e =>
          ⟨e.1, Real.sqrt ((EuclideanDistanceSquared q e.2 : ℚ) : ℝ)⟩) := by
    rw [storePool_eq_entries, Multiset.map_map]
    rfl
  by_cases hk : k ≤ 0
  · refine ⟨[], ?_, ?_, List.Pairwise.nil, ?_, fun _ => rfl⟩
    · unfold Search SearchSq SearchG
      rw [if_neg (by omega), if_pos hk]
      rfl
    · rw [Int.toNat_of_nonpos hk]
      have hz := isTopK_zero_sel ((storeEntries s).map (fun e =>
        (⟨e.1, Real.sqrt ((EuclideanDistanceSquared q e.2 : ℚ) : ℝ)⟩ :
          SResult ℝ)))
      rw [← Multiset.coe_nil] at hz
      exact hz
    · rw [List.length_nil, Int.toNat_of_nonpos hk, Nat.zero_min]
  · have hk1 : 1 ≤ k := by omega
    obtain ⟨hok, htop, hsort⟩ := searchG_spec EuclideanDistanceSquared hnw hdim hk1
    refine ⟨(drainH (mergeHeap EuclideanDistanceSquared
      (if nw > numShards then numShards else nw) s q k.toNat)).map
        (fun r => ⟨r.id, Real.sqrt (r.dist : ℝ)⟩), ?_, ?_, ?_, ?_, ?_⟩
    · unfold Search SearchSq
      rw [hok]
      rfl
    · have hmap := isTopK_map (fun x : ℚ => Real.sqrt (x : ℝ))
        (by
          intro x y hxy
          exact Real.sqrt_le_sqrt (by exact_mod_cast hxy)) htop
      rw [hpoolmap, Multiset.map_coe] at hmap
      exact hmap
    · exact List.Pairwise.map _
        (fun x y hxy => Real.sqrt_le_sqrt (by exact_mod_cast hxy)) hsort
    · have hsz := htop.2.1
      rw [Multiset.coe_card] at hsz
      rw [List.length_map, hsz, hcount]
    · intro hk0
      exact absurd hk0 hk

/-- C2: after any sequence of Insert/Delete from a fresh store of dimension
D, every shard satisfies the SoA length law, soundness and completeness of
`idIndex`, no duplicate ids, and FNV-1a routing. -/
theorem c2 {D : Nat} {s : VectorStore} (hs : Reachable D s) (si : Nat)
    (hsi : si < numShards) :
    (s.shards.getD si default).ids.length * D
        = (s.shards.getD si default).data.length ∧
    (∀ id i, (s.shards.getD si default).idIndex id = some i →
      i < (s.shards.getD si default).ids.length ∧
      (s.shards.getD si default).ids.getD i default = id) ∧
    (∀ i, i < (s.shards.getD si default).ids.length →
      (s.shards.getD si default).idIndex
        ((s.shards.getD si default).ids.getD i default) = some i) ∧
    (s.shards.getD si default).ids.Nodup ∧
    (∀ id ∈ (s.shards.getD si default).ids, shardIndex id = si) := by
  have hinv := (reachable_inv hs).shard si hsi
  exact ⟨hinv.lenData, hinv.indexSound, hinv.indexComplete, hinv.nodup,
    hinv.routed⟩

/-- C3: Insert returns EmptyID iff the id is empty (checked first), then
DimensionMismatch iff the payload length differs from the store dimension,
otherwise success; every error leaves the store unchanged. -/
theorem c3 (s : VectorStore) (v : Vec) :
    ((s.Insert v).1 = some VErr.emptyID ↔ v.id = "") ∧
    (v.id ≠ "" → ((s.Insert v).1 = some VErr.dimensionMismatch
      ↔ v.data.length ≠ s.dimension)) ∧
    (v.id ≠ "" → v.data.length = s.dimension → (s.Insert v).1 = none) ∧
    (∀ e, (s.Insert v).1 = some e → (s.Insert v).2 = s) := by
  by_cases h1 : v.id = ""
  · rw [Insert_emptyID h1]
    exact ⟨⟨fun _ => h1, fun _ => rfl⟩, fun hne => absurd h1 hne,
      fun hne => absurd h1 hne, fun e _ => rfl⟩
  · by_cases h2 : v.data.length = s.dimension
    · cases hop : (s.shards.getD (shardIndex v.id) default).idIndex v.id with
      | some idx =>
        rw [Insert_update h1 h2 hop]
        exact ⟨⟨fun h => Option.noConfusion h, fun h => absurd h h1⟩,
          fun _ => ⟨fun h => Option.noConfusion h, fun hlen => absurd h2 hlen⟩,
          fun _ _ => rfl, fun e he => Option.noConfusion he⟩
      | none =>
        rw [Insert_new h1 h2 hop]
        exact ⟨⟨fun h => Option.noConfusion h, fun h => absurd h h1⟩,
          fun _ => ⟨fun h => Option.noConfusion h, fun hlen => absurd h2 hlen⟩,
          fun _ _ => rfl, fun e he => Option.noConfusion he⟩
    · rw [Insert_dimMismatch h1 h2]
      exact ⟨⟨fun h => absurd (Option.some.inj h) (by decide),
          fun h => absurd h h1⟩,
        fun _ => ⟨fun _ => h2, fun _ => rfl⟩,
        fun _ hlen => absurd hlen h2, fun e _ => rfl⟩

/-- C4: Delete returns NotFound and changes nothing iff the id is absent
from its routed shard; otherwise it succeeds, Count drops by exactly one,
exactly that vector's `(id, payload)` row leaves the entry multiset, and the
id never appears in any subsequent Search result. -/
theorem c4 {D : Nat} {s : VectorStore} (hs : Reachable D s) (id : String) :
    (((s.Delete id).1 = some VErr.notFound ∧ (s.Delete id).2 = s) ↔
      id ∉ (s.shards.getD (shardIndex id) default).ids) ∧
    (id ∈ (s.shards.getD (shardIndex id) default).ids →
      (s.Delete id).1 = none ∧
      (s.Delete id).2.Count + 1 = s.Count ∧
      (∃ payload, storeEntries (s.Delete id).2 + {(id, payload)}
        = storeEntries s) ∧
      (∀ (q : List ℚ) (k : Int) (nw : Nat) (res : List (SResult ℝ)), 1 ≤ nw →
        Search nw (s.Delete id).2 q k = .ok res → ∀ r ∈ res, r.id ≠ id)) := by
  have hinv := reachable_inv hs
  have hsi : shardIndex id < numShards := shardIndex_lt id
  have hshinv := hinv.shard _ hsi
  constructor
  · constructor
    · rintro ⟨hnf, _⟩
      cases hop : (s.shards.getD (shardIndex id) default).idIndex id with
      | none => exact hshinv.not_mem_of_none hop
      | some idx =>
        rw [Delete_found hop] at hnf
        exact Option.noConfusion hnf
    · intro hnm
      have hop : (s.shards.getD (shardIndex id) default).idIndex id = none := by
        cases hop : (s.shards.getD (shardIndex id) default).idIndex id with
        | none => rfl
        | some idx =>
          obtain ⟨hlt, hval⟩ := hshinv.indexSound id idx hop
          have hmem2 : (s.shards.getD (shardIndex id) default).ids.getD idx default
              ∈ (s.shards.getD (shardIndex id) default).ids :=
            (mem_iff_getD default).mpr ⟨idx, hlt, rfl⟩
          rw [hval] at hmem2
          exact absurd hmem2 hnm
      rw [Delete_notFound hop]
      exact ⟨rfl, rfl⟩
  · intro hmem
    obtain ⟨i, hi, hgd⟩ := (mem_iff_getD default).mp hmem
    have hop : (s.shards.getD (shardIndex id) default).idIndex id = some i := by
      have hc := hshinv.indexComplete i hi
      rw [hgd] at hc
      exact hc
    have hinv' : StoreInv D (s.Delete id).2 := delete_inv id hinv
    refine ⟨?_, ?_, ⟨_, delete_entries hinv hop⟩, ?_⟩
    · rw [Delete_found hop]
    · have hent := delete_entries hinv hop
      have hcard := congrArg Multiset.card hent
      rw [Multiset.card_add, Multiset.card_singleton,
        card_storeEntries_eq_count hinv'.numShardsEq,
        card_storeEntries_eq_count hinv.numShardsEq] at hcard
      exact hcard
    · intro q k nw res hnw hres r hr hrid
      obtain ⟨resq, hsq, hmap⟩ := search_ok hres
      rw [hmap, List.mem_map] at hr
      obtain ⟨r0, hr0, hfr⟩ := hr
      obtain ⟨hdim2, hchar⟩ := searchSq_ok hnw hsq
      rcases hchar with ⟨hk0, hnil⟩ | ⟨hk1, htop, hsort⟩
      · rw [hnil] at hr0
        simp at hr0
      · have hr0p : r0 ∈ storePool EuclideanDistanceSquared (s.Delete id).2 q :=
          Multiset.mem_of_le htop.1 (Multiset.mem_coe.mpr hr0)
        obtain ⟨sj, hsj, i2, hi2, hreq⟩ := storePool_mem hr0p
        have hrid0 : r0.id = id := by
          rw [← hfr] at hrid
          exact hrid
        have hmem2 : ((s.Delete id).2.shards.getD sj default).ids.getD i2 default
            ∈ ((s.Delete id).2.shards.getD sj default).ids :=
          (mem_iff_getD default).mpr ⟨i2, hi2, rfl⟩
        have helem : ((s.Delete id).2.shards.getD sj default).ids.getD i2 default
            = id := by
          have hre : r0.id = ((s.Delete id).2.shards.getD sj default).ids.getD
              i2 default := by
            rw [hreq]
          rw [← hre, hrid0]
        rw [helem] at hmem2
        exact delete_not_resident hinv hop sj hsj hmem2

/-- C5 (corrected): inserting the same vector twice succeeds, leaves Count
and all shard id lists unchanged (the row is overwritten in place), and a
subsequent Search with query `v.data` and `k ≥ 1` contains a result at
distance 0 — but (see the counterexample) that result need not carry
`v.id` when another vector ties at distance 0. -/
theorem c5 {D : Nat} {s : VectorStore} (hs : Reachable D s) (v : Vec)
    (h1 : v.id ≠ "") (h2 : v.data.length = D) (k : Int) (hk : 1 ≤ k)
    (nw : Nat) (hnw : 1 ≤ nw) :
    ((s.Insert v).2.Insert v).1 = none ∧
    ((s.Insert v).2.Insert v).2.Count = (s.Insert v).2.Count ∧
    (∀ sj, (((s.Insert v).2.Insert v).2.shards.getD sj default).ids
      = ((s.Insert v).2.shards.getD sj default).ids) ∧
    (∃ res : List (SResult ℝ),
      Search nw ((s.Insert v).2.Insert v).2 v.data k = .ok res ∧
      ∃ r ∈ res, r.dist = 0) := by
  have hinv1 : StoreInv D (s.Insert v).2 := insert_inv v (reachable_inv hs)
  obtain ⟨idx, hop⟩ := insert_resident (reachable_inv hs) h1 h2
  obtain ⟨hfst, hids, hcnt, hrow⟩ := insert_update_facts hinv1 h1 h2 hop
  have hinv2 : StoreInv D ((s.Insert v).2.Insert v).2 := insert_inv v hinv1
  obtain ⟨hlt1, hval1⟩ := (hinv1.shard _ (shardIndex_lt v.id)).indexSound
    v.id idx hop
  refine ⟨hfst, hcnt, hids, ?_⟩
  have hdim : v.data.length = ((s.Insert v).2.Insert v).2.dimension := by
    rw [hinv2.dimEq]
    exact h2
  have hk1 : 1 ≤ k := hk
  obtain ⟨hok, htop, hsort⟩ :=
    searchG_spec EuclideanDistanceSquared hnw hdim hk1
  have hidx2 : idx < ((((s.Insert v).2.Insert v).2.shards.getD
      (shardIndex v.id) default)).ids.length := by
    rw [hids (shardIndex v.id)]
    exact hlt1
  have hz := mem_storePool_intro EuclideanDistanceSquared v.data
    (shardIndex_lt v.id) hidx2
  have hz0 : EuclideanDistanceSquared v.data
      (rowSlice ((s.Insert v).2.Insert v).2.dimension
        ((((s.Insert v).2.Insert v).2.shards.getD
          (shardIndex v.id) default)).data idx) = 0 := by
    rw [hinv2.dimEq, hrow]
    exact euclid_self v.data
  have hnn : ∀ r ∈ storePool EuclideanDistanceSquared
      ((s.Insert v).2.Insert v).2 v.data, 0 ≤ r.dist := by
    intro r hrp
    obtain ⟨sj, hsj, i2, hi2, hreq⟩ := storePool_mem hrp
    subst hreq
    show 0 ≤ EuclideanDistanceSquared v.data
      (rowSlice ((s.Insert v).2.Insert v).2.dimension
        ((((s.Insert v).2.Insert v).2.shards.getD sj default)).data i2)
    apply euclid_nonneg
    rw [h2, hinv2.dimEq]
    exact rowSlice_length_full (hinv2.shard sj hsj) hi2
  obtain ⟨r0, hr0sel, hr00⟩ := isTopK_exists_zero htop (by omega) hz hz0 hnn
  have hr0l : r0 ∈ drainH (mergeHeap EuclideanDistanceSquared
      (if nw > numShards then numShards else nw) ((s.Insert v).2.Insert v).2
      v.data k.toNat) := Multiset.mem_coe.mp hr0sel
  refine ⟨(drainH (mergeHeap EuclideanDistanceSquared
      (if nw > numShards then numShards else nw) ((s.Insert v).2.Insert v).2
      v.data k.toNat)).map (fun r => ⟨r.id, Real.sqrt (r.dist : ℝ)⟩),
    ?_, ⟨⟨r0.id, Real.sqrt (r0.dist : ℝ)⟩, ?_, ?_⟩⟩
  · unfold Search SearchSq
    rw [hok]
    rfl
  · rw [List.mem_map]
    exact ⟨r0, hr0l, rfl⟩
  · show Real.sqrt ((r0.dist : ℚ) : ℝ) = 0
    rw [hr00]
    rw [Rat.cast_zero, Real.sqrt_zero]

/-- C6: Search reports true L2 distances: its output is exactly the
squared-distance pipeline's output with `sqrt` applied to every distance
after the final extraction; concretely, on a dimension-2 store holding only
("a", [3,4]), `Search [0,0] 1` returns ("a", 5). -/
theorem c6 :
    (∀ (nw : Nat) (s : VectorStore) (q : List ℚ) (k : Int)
      (res : List (SResult ℝ)),
      Search nw s q k = .ok res →
      ∃ resq : List (SResult ℚ), SearchSq nw s q k = .ok resq ∧
        res = resq.map (fun r => ⟨r.id, Real.sqrt (r.dist : ℝ)⟩)) ∧
    Search 1 (((NewVectorStore 2).Insert ⟨ "a", [3, 4]⟩).2) [0, 0] 1
      = .ok [⟨ "a", 5⟩] := by
  constructor
  · intro nw s q k res hres
    exact search_ok hres
  · have hsq : SearchSq 1 (((NewVectorStore 2).Insert ⟨ "a", [3, 4]⟩).2) [0, 0] 1
        = .ok [⟨ "a", 25⟩] := by
      rw [← SearchSqC_eq]
      decide
    unfold Search
    rw [hsq]
    have h5 : Real.sqrt ((25 : ℚ) : ℝ) = 5 := by
      have h25 : ((25 : ℚ) : ℝ) = 5 ^ 2 := by norm_num
      rw [h25]
      exact Real.sqrt_sq (by norm_num)
    show Except.ok [(⟨ "a", Real.sqrt ((25 : ℚ) : ℝ)⟩ : SResult ℝ)]
      = Except.ok [⟨ "a", 5⟩]
    rw [h5]

/-- C7: for equal-length inputs of length ≥ 4 with entries in [-1,1], the
NEON path agrees with the scalar path within relative error 1e-5 for both
kernels (here: exactly, so the error is 0), and the dispatcher takes the
NEON path; for length < 4 it returns the scalar value exactly. -/
theorem c7 (a b : List ℚ) (hlen : b.length = a.length) :
    (4 ≤ a.length →
      (∀ x ∈ a, -1 ≤ x ∧ x ≤ 1) → (∀ x ∈ b, -1 ≤ x ∧ x ≤ 1) →
      |dotProductNEON a b - DotProductScalar a b|
          / max 1 |DotProductScalar a b| ≤ 1e-5 ∧
      |euclideanDistanceSquaredNEON a b - EuclideanDistanceSquaredScalar a b|
          / max 1 |EuclideanDistanceSquaredScalar a b| ≤ 1e-5 ∧
      dotProductPlatform a b = dotProductNEON a b ∧
      euclideanDistanceSquaredPlatform a b = euclideanDistanceSquaredNEON a b) ∧
    (a.length < 4 →
      dotProductPlatform a b = DotProductScalar a b ∧
      euclideanDistanceSquaredPlatform a b = EuclideanDistanceSquaredScalar a b) := by
  constructor
  · intro h4 _ _
    have hd : dotProductNEON a b = DotProductScalar a b := by
      rw [dotProductNEON_eq hlen, DotProductScalar_eq_dotFull hlen]
    have he : euclideanDistanceSquaredNEON a b
        = EuclideanDistanceSquaredScalar a b := by
      rw [euclideanDistanceSquaredNEON_eq hlen, EuclideanScalar_eq_sqFull hlen]
    refine ⟨?_, ?_, ?_, ?_⟩
    · rw [hd, sub_self, abs_zero, zero_div]
      norm_num
    · rw [he, sub_self, abs_zero, zero_div]
      norm_num
    · unfold dotProductPlatform
      rw [if_pos h4]
    · unfold euclideanDistanceSquaredPlatform
      rw [if_pos h4]
  · intro h4
    constructor
    · unfold dotProductPlatform
      rw [if_neg (by omega)]
    · unfold euclideanDistanceSquaredPlatform
      rw [if_neg (by omega)]

/-- C8: CosineSimilarity returns 0 whenever either magnitude is 0 (the
division is guarded), and every distance SearchCosine returns lies in
[0, 2]. -/
theorem c8 {D : Nat} {s : VectorStore} (hs : Reachable D s) (q : List ℚ)
    (hq : q.length = D) (k : Int) (nw : Nat) (hnw : 1 ≤ nw) :
    (∀ a b : List ℚ, Magnitude a = 0 ∨ Magnitude b = 0 →
      CosineSimilarity a b = 0) ∧
    (∀ res : List (SResult ℝ), SearchCosine nw s q k = .ok res →
      ∀ r ∈ res, 0 ≤ r.dist ∧ r.dist ≤ 2) := by
  have hinv := reachable_inv hs
  have hdim : q.length = s.dimension := by rw [hinv.dimEq]; exact hq
  constructor
  · intro a b hz
    unfold CosineSimilarity
    rw [if_pos hz]
  · intro res hres r hr
    by_cases hk : k ≤ 0
    · unfold SearchCosine SearchG at hres
      rw [if_neg (by omega), if_pos hk] at hres
      have hresn : res = [] := (Except.ok.inj hres).symm
      rw [hresn] at hr
      simp at hr
    · have hk1 : 1 ≤ k := by omega
      obtain ⟨hok, htop, hsort⟩ := searchG_spec CosineDistance hnw hdim hk1
      unfold SearchCosine at hres
      rw [hok] at hres
      have hre := Except.ok.inj hres
      rw [← hre] at hr
      have hrp : r ∈ storePool CosineDistance s q :=
        Multiset.mem_of_le htop.1 (Multiset.mem_coe.mpr hr)
      obtain ⟨sj, hsj, i2, hi2, hreq⟩ := storePool_mem hrp
      subst hreq
      show 0 ≤ CosineDistance q
          (rowSlice s.dimension (s.shards.getD sj default).data i2) ∧
        CosineDistance q
          (rowSlice s.dimension (s.shards.getD sj default).data i2) ≤ 2
      apply cosineDist_bounds
      rw [hdim, hinv.dimEq]
      exact rowSlice_length_full (hinv.shard sj hsj) hi2

/-- C9: squared Euclidean self-distance is exactly 0 on both the scalar and
the NEON path (and through the dispatcher), and the dot product of the
all-zero vector with itself is exactly 0. -/
theorem c9 (v : List ℚ) (n : Nat) :
    EuclideanDistanceSquaredScalar v v = 0 ∧
    euclideanDistanceSquaredNEON v v = 0 ∧
    EuclideanDistanceSquared v v = 0 ∧
    DotProduct (List.replicate n 0) (List.replicate n 0) = 0 := by
  refine ⟨?_, ?_, euclid_self v, ?_⟩
  · rw [EuclideanScalar_eq_sqFull rfl, sqFull_self]
  · rw [euclideanDistanceSquaredNEON_eq rfl, sqFull_self]
  · unfold DotProduct
    rw [dotProductPlatform_eq rfl, DotProductScalar_eq_dotFull rfl, dotFull_zeros]

/-- C10: on every reachable store, `Delete ""` returns NotFound and leaves
the store unchanged: Delete never checks for emptiness, but Insert rejects
the empty id, so no shard ever holds it and the lookup fails. -/
theorem c10 {D : Nat} {s : VectorStore} (hs : Reachable D s) :
    (s.Delete "").1 = some VErr.notFound ∧ (s.Delete "").2 = s := by
  have hinv := reachable_inv hs
  have hsi : shardIndex "" < numShards := shardIndex_lt _
  have hshinv := hinv.shard _ hsi
  have hop : (s.shards.getD (shardIndex "") default).idIndex "" = none := by
    cases hop : (s.shards.getD (shardIndex "") default).idIndex "" with
    | none => rfl
    | some i =>
      obtain ⟨hlt, hval⟩ := hshinv.indexSound _ _ hop
      have hmem2 : (s.shards.getD (shardIndex "") default).ids.getD i default
          ∈ (s.shards.getD (shardIndex "") default).ids :=
        (mem_iff_getD default).mpr ⟨i, hlt, rfl⟩
      rw [hval] at hmem2
      exact absurd rfl (hshinv.nonempty _ hmem2)
  rw [Delete_notFound hop]
  exact ⟨rfl, rfl⟩

/-! ## Witnesses and the C5 counterexample -/

/-- The C5 counterexample store: ("x",[0]) inserted first, then ("a",[0])
twice. "x" and "a" tie at distance 0 from query [0]; the strict-`<`
eviction keeps the first-scanned "x" (shard 7 before shard 12). -/
def s5cx : VectorStore :=
  (((((NewVectorStore 1).Insert ⟨ "x", [0]⟩).2).Insert ⟨ "a", [0]⟩).2.Insert
    ⟨ "a", [0]⟩).2

theorem c5_counterexample :
    ((((((NewVectorStore 1).Insert ⟨ "x", [0]⟩).2).Insert ⟨ "a", [0]⟩).2.Insert
      ⟨ "a", [0]⟩).1 = none) ∧
    SearchSq 1 s5cx [0] 1 = .ok [⟨ "x", 0⟩] ∧
    Search 1 s5cx [0] 1 = .ok [⟨ "x", Real.sqrt ((0 : ℚ) : ℝ)⟩] ∧
    (∀ res : List (SResult ℝ), Search 1 s5cx [0] 1 = .ok res →
      ∀ r ∈ res, r.id ≠ "a") := by
  have h0 : ((((((NewVectorStore 1).Insert ⟨ "x", [0]⟩).2).Insert
      ⟨ "a", [0]⟩).2.Insert ⟨ "a", [0]⟩).1 = none) := by decide
  have h1 : SearchSq 1 s5cx [0] 1 = .ok [⟨ "x", 0⟩] := by
    rw [← SearchSqC_eq]
    decide
  have h2 : Search 1 s5cx [0] 1 = .ok [⟨ "x", Real.sqrt ((0 : ℚ) : ℝ)⟩] := by
    unfold Search
    rw [h1]
    rfl
  refine ⟨h0, h1, h2, ?_⟩
  intro res hres r hr
  rw [h2] at hres
  have hre : res = [⟨ "x", Real.sqrt ((0 : ℚ) : ℝ)⟩] := (Except.ok.inj hres).symm
  rw [hre, List.mem_singleton] at hr
  rw [hr]
  decide

theorem c1_witness :
    ∃ res : List (SResult ℝ), Search 1 (NewVectorStore 1) [0] 0 = .ok res ∧
      IsTopK (0 : Int).toNat
        ((storeEntries (NewVectorStore 1)).map (fun e =>
          (⟨e.1, Real.sqrt ((EuclideanDistanceSquared [0] e.2 : ℚ) : ℝ)⟩ :
            SResult ℝ)))
        ↑res ∧
      List.Pairwise (fun x y : SResult ℝ => x.dist ≤ y.dist) res ∧
      res.length = min (0 : Int).toNat (NewVectorStore 1).Count ∧
      ((0 : Int) ≤ 0 → res = []) :=
  c1 Reachable.new [0] rfl 0 1 (by decide)

theorem c2_witness :
    ((((NewVectorStore 1).Insert ⟨ "a", [0]⟩).2).shards.getD 12
      default).ids.Nodup :=
  (c2 (Reachable.insert _ ⟨ "a", [0]⟩ Reachable.new) 12 (by decide)).2.2.2.1

theorem c4_witness :
    (((NewVectorStore 1).Delete "a").1 = some VErr.notFound ∧
      ((NewVectorStore 1).Delete "a").2 = NewVectorStore 1) ↔
      "a" ∉ (((NewVectorStore 1).shards.getD (shardIndex "a") default)).ids :=
  (c4 Reachable.new "a").1

theorem c5_witness :
    ((((NewVectorStore 1).Insert ⟨ "a", [0]⟩).2.Insert ⟨ "a", [0]⟩).1 = none) ∧
    ((((NewVectorStore 1).Insert ⟨ "a", [0]⟩).2.Insert ⟨ "a", [0]⟩).2.Count
      = ((NewVectorStore 1).Insert ⟨ "a", [0]⟩).2.Count) :=
  ⟨(c5 Reachable.new ⟨ "a", [0]⟩ (by decide) rfl 1 (by decide) 1 (by decide)).1,
    (c5 Reachable.new ⟨ "a", [0]⟩ (by decide) rfl 1 (by decide) 1
      (by decide)).2.1⟩

theorem c7_witness :
    ((4 : Nat) ≤ ([1, 1, 1, 1] : List ℚ).length) ∧
    |dotProductNEON [1, 1, 1, 1] [1, 1, 1, 1]
        - DotProductScalar [1, 1, 1, 1] [1, 1, 1, 1]|
      / max 1 |DotProductScalar [1, 1, 1, 1] [1, 1, 1, 1]| ≤ 1e-5 :=
  ⟨by decide, ((c7 [1, 1, 1, 1] [1, 1, 1, 1] rfl).1 (by decide)
    (by decide) (by decide)).1⟩

theorem c8_witness :
    (∀ a b : List ℚ, Magnitude a = 0 ∨ Magnitude b = 0 →
      CosineSimilarity a b = 0) ∧
    (∀ res : List (SResult ℝ), SearchCosine 1 (NewVectorStore 1) [0] 0 = .ok res →
      ∀ r ∈ res, 0 ≤ r.dist ∧ r.dist ≤ 2) :=
  c8 Reachable.new [0] rfl 0 1 (by decide)

theorem c10_witness :
    ((NewVectorStore 1).Delete "").1 = some VErr.notFound ∧
    ((NewVectorStore 1).Delete "").2 = NewVectorStore 1 :=
  c10 Reachable.new

end Vexor
